import Mathlib

/-!
The kd-tree of `src/kd_tree.cc`, embedded in Lean.

Shallow embedding of the 2-D kd-tree used by the path planner
(`KdTreeNode`, `KdTree::AddPointToKdTree`, `KdTree::NearestKdTreeNode`,
`KdTree::NearKdTreeNode`, and the breadth-first reference scans
`KdTree::BruceNearestKdTreeNode` / `KdTree::BruceNearKdTreeNode`).

Modelling conventions.

* `double` is read in two ways; the functions of the second reading carry the
  suffix `Dbl`. In the first part of the definitions `double` values are exact rationals
  (`ℚ`) and no operation rounds. The constant `DBL_MAX` keeps its exact value,
  so a squared distance that is not below `DBL_MAX` (in C++: one that
  overflows to `+inf`) is not below it here either. Insertion compares
  coordinates only, which is exact, so the shape of the tree, the tags and the
  returned addresses are the same in both readings.
  The section on double arithmetic reads the arithmetic of the searches in
  IEEE 754 binary64 (round to nearest, ties to even, gradual underflow,
  overflow to an infinity). Whether `distance2 < radius` holds for given
  coordinates depends on the rounding, so the contracts that rest on this test
  at arbitrary coordinates (which nodes a range query reports, the agreement
  of the two nearest searches) are stated for the functions of that section.
* The heap of `new`-allocated nodes is tree shaped (every node is created by
  `new` and linked into exactly one child slot), so a node is a value of the
  inductive type `KdTreeNode` and a nullable pointer `KdTreeNode*` to a child
  is an `Option KdTreeNode`.
* A pointer that is *returned* to the caller (`KdTreeNode*` results, the
  best-so-far of the nearest search, the elements of the result vector) is a
  `NodeRef`: the path of child slots leading from the root to the node. Two
  distinct nodes have distinct paths, also when they store the same point.
  Functions that hand out the address of the node they are visiting carry that
  address in an extra argument `here`.
* By-reference out-parameters become explicit state that is passed in and
  returned.
-/

namespace KdTreeModel

/-! ## Data model -/

/-- The message type `geometry_msgs::Point`: three `double` coordinates. -/
structure Point where
  x : ℚ
  y : ℚ
  z : ℚ
  deriving DecidableEq

/-- One of the two child slots of a node (`left_node`, `right_node`). -/
inductive Side where
  | left : Side
  | right : Side
  deriving DecidableEq

/-- The address of a node of the tree: the child slots to follow from the root. -/
abbrev NodeRef := List Side

/-- The class `KdTreeNode`; the fields are listed in the order of the
constructors' initialiser lists. -/
inductive KdTreeNode where
  | mk (point : Point) (parent_node : Option NodeRef) (distance : ℚ)
      (left_node right_node : Option KdTreeNode)
      (trajectory_id submap_index : Int) : KdTreeNode

namespace KdTreeNode

/-- Field `point`. -/
def point : KdTreeNode → Point
  | mk p _ _ _ _ _ _ => p

/-- Field `parent_node`. -/
def parent_node : KdTreeNode → Option NodeRef
  | mk _ pn _ _ _ _ _ => pn

/-- Field `distance`. -/
def distance : KdTreeNode → ℚ
  | mk _ _ d _ _ _ _ => d

/-- Field `left_node`. -/
def left_node : KdTreeNode → Option KdTreeNode
  | mk _ _ _ l _ _ _ => l

/-- Field `right_node`. -/
def right_node : KdTreeNode → Option KdTreeNode
  | mk _ _ _ _ r _ _ => r

/-- Field `trajectory_id`. -/
def trajectory_id : KdTreeNode → Int
  | mk _ _ _ _ _ a _ => a

/-- Field `submap_index`. -/
def submap_index : KdTreeNode → Int
  | mk _ _ _ _ _ _ b => b

/-- The child stored in the given slot. -/
def child (n : KdTreeNode) : Side → Option KdTreeNode
  | Side.left => n.left_node
  | Side.right => n.right_node

/-- Constructor `KdTreeNode::KdTreeNode()`. -/
def new : KdTreeNode :=
  mk ⟨0, 0, 0⟩ none 0 none none 0 0

/-- Constructor `KdTreeNode::KdTreeNode(geometry_msgs::Point p)`. -/
def ofPoint (p : Point) : KdTreeNode :=
  mk p none 0 none none 0 0

/-- Constructor `KdTreeNode::KdTreeNode(geometry_msgs::Point p, int trajectory_idx, int submap_idx)`. -/
def ofPointIdx (p : Point) (trajectory_idx submap_idx : Int) : KdTreeNode :=
  mk p none 0 none none trajectory_idx submap_idx

end KdTreeNode

/-- Dereferencing: the node found by following `ref` from the (nullable)
pointer `cur`, or `none` when the path leaves the tree. -/
def getNode : Option KdTreeNode → NodeRef → Option KdTreeNode
  | cur, [] => cur
  | none, _ :: _ => none
  | some n, s :: rest => getNode (n.child s) rest

/-- The largest finite `double`, `DBL_MAX` of `<cfloat>`. -/
def DBL_MAX : ℚ := 2 ^ 1024 - 2 ^ 971

/-- Modelled from the spec: `Distance2BetweenPoint` is declared in `common.h`,
which is not part of the sources at hand; the spec's glossary defines the
squared distance as the Euclidean distance in the x-y plane, without the
square root. -/
def Distance2BetweenPoint (a b : Point) : ℚ :=
  (a.x - b.x) * (a.x - b.x) + (a.y - b.y) * (a.y - b.y)

/-- The class `KdTree`: it owns the root node, which is never null. -/
structure KdTree where
  root_ : KdTreeNode

/-! ## Searching -/

/-- The two by-reference arguments of the nearest overload of
`SearchKdTreeNode`. -/
structure NearestState where
  current_nearest_node : Option NodeRef
  current_cloest_distance2 : ℚ

/-- The nearest overload of `KdTree::SearchKdTreeNode` (`kd_tree.cc`, lines 46-78).
`here` is the address of `current_node`. -/
def SearchKdTreeNode (target : Point) :
    Option KdTreeNode → NodeRef → NearestState → Nat → NearestState
  | none, _, st, _ => st
  | some (KdTreeNode.mk point _ _ left_node right_node _ _), here, st, depth =>
    let distance2 := Distance2BetweenPoint target point
    let go_to_left : Bool :=
      if depth % 2 = 0 then decide (target.x ≤ point.x) else decide (target.y ≤ point.y)
    -- Recursively visit children
    let st1 :=
      if go_to_left then
        SearchKdTreeNode target left_node (here ++ [Side.left]) st (depth + 1)
      else
        SearchKdTreeNode target right_node (here ++ [Side.right]) st (depth + 1)
    -- Search current_node
    let st2 : NearestState :=
      if distance2 < st1.current_cloest_distance2 then ⟨some here, distance2⟩ else st1
    -- Judge whether search other side
    let discard_threshold :=
      if depth % 2 = 0 then (target.x - point.x) * (target.x - point.x)
      else (target.y - point.y) * (target.y - point.y)
    if st2.current_cloest_distance2 > discard_threshold then
      if go_to_left then
        SearchKdTreeNode target right_node (here ++ [Side.right]) st2 (depth + 1)
      else
        SearchKdTreeNode target left_node (here ++ [Side.left]) st2 (depth + 1)
    else st2

/-- The range overload of `KdTree::SearchKdTreeNode` (`kd_tree.cc`, lines 81-108).
Its argument `radius` is compared with squared distances. -/
def SearchKdTreeNodeNear (target : Point) :
    Option KdTreeNode → NodeRef → List NodeRef → ℚ → Nat → List NodeRef
  | none, _, near_nodes, _, _ => near_nodes
  | some (KdTreeNode.mk point _ _ left_node right_node _ _), here, near_nodes, radius, depth =>
    let distance2 := Distance2BetweenPoint target point
    -- Visit current node
    let near1 := if distance2 < radius then near_nodes ++ [here] else near_nodes
    -- Recursively visit children
    let go_to_left : Bool :=
      if depth % 2 = 0 then decide (target.x ≤ point.x) else decide (target.y ≤ point.y)
    let near2 :=
      if go_to_left then
        SearchKdTreeNodeNear target left_node (here ++ [Side.left]) near1 radius (depth + 1)
      else
        SearchKdTreeNodeNear target right_node (here ++ [Side.right]) near1 radius (depth + 1)
    -- Visit the otherside
    let discard_threshold :=
      if depth % 2 = 0 then (target.x - point.x) * (target.x - point.x)
      else (target.y - point.y) * (target.y - point.y)
    if radius > discard_threshold then
      if go_to_left then
        SearchKdTreeNodeNear target right_node (here ++ [Side.right]) near2 radius (depth + 1)
      else
        SearchKdTreeNodeNear target left_node (here ++ [Side.left]) near2 radius (depth + 1)
    else near2

/-- The method `KdTree::NearestKdTreeNode`; `none` is the null pointer. -/
def KdTree.NearestKdTreeNode (t : KdTree) (target : Point) : Option NodeRef :=
  (SearchKdTreeNode target (some t.root_) [] ⟨none, DBL_MAX⟩ 0).current_nearest_node

/-- The method `KdTree::NearKdTreeNode`. -/
def KdTree.NearKdTreeNode (t : KdTree) (target : Point) (radius : ℚ) : List NodeRef :=
  SearchKdTreeNodeNear target (some t.root_) [] [] (radius * radius) 0

/-! ## Insertion -/

/-- The recursive `KdTree::AddPointToKdTree(point, parent, depth)`
(`kd_tree.cc`, lines 123-141). The result is the updated `parent` together with
the returned pointer, `here` being the address of `parent`. -/
def AddPointToKdTreeRec (point : Point) : KdTreeNode → NodeRef → Nat → KdTreeNode × NodeRef
  | KdTreeNode.mk p pn d left_node right_node a b, here, depth =>
    let go_to_left : Bool :=
      if depth % 2 = 0 then decide (point.x ≤ p.x) else decide (point.y ≤ p.y)
    if go_to_left then
      match left_node with
      | none =>
        (KdTreeNode.mk p pn d (some (KdTreeNode.ofPoint point)) right_node a b,
          here ++ [Side.left])
      | some l =>
        let res := AddPointToKdTreeRec point l (here ++ [Side.left]) (depth + 1)
        (KdTreeNode.mk p pn d (some res.1) right_node a b, res.2)
    else
      match right_node with
      | none =>
        (KdTreeNode.mk p pn d left_node (some (KdTreeNode.ofPoint point)) a b,
          here ++ [Side.right])
      | some r =>
        let res := AddPointToKdTreeRec point r (here ++ [Side.right]) (depth + 1)
        (KdTreeNode.mk p pn d left_node (some res.1) a b, res.2)

/-- The two assignments `added_node->trajectory_id = trajectory_idx;
added_node->submap_index = submap_idx;` through the pointer `ref`. -/
def storeIdx (trajectory_idx submap_idx : Int) : KdTreeNode → NodeRef → KdTreeNode
  | KdTreeNode.mk p pn d l r _ _, [] => KdTreeNode.mk p pn d l r trajectory_idx submap_idx
  | KdTreeNode.mk p pn d l r a b, Side.left :: rest =>
    match l with
    | none => KdTreeNode.mk p pn d none r a b
    | some ln => KdTreeNode.mk p pn d (some (storeIdx trajectory_idx submap_idx ln rest)) r a b
  | KdTreeNode.mk p pn d l r a b, Side.right :: rest =>
    match r with
    | none => KdTreeNode.mk p pn d l none a b
    | some rn => KdTreeNode.mk p pn d l (some (storeIdx trajectory_idx submap_idx rn rest)) a b

/-- The method `KdTree::AddPointToKdTree(geometry_msgs::Point point)`: the index
after the call and the returned pointer. -/
def KdTree.AddPointToKdTree (t : KdTree) (point : Point) : KdTree × NodeRef :=
  let res := AddPointToKdTreeRec point t.root_ [] 0
  (⟨res.1⟩, res.2)

/-- The method `KdTree::AddPointToKdTree(point, trajectory_idx, submap_idx)`. -/
def KdTree.AddPointToKdTreeIdx (t : KdTree) (point : Point) (trajectory_idx submap_idx : Int) :
    KdTree × NodeRef :=
  let res := AddPointToKdTreeRec point t.root_ [] 0
  let added_node := res.2
  (⟨storeIdx trajectory_idx submap_idx res.1 added_node⟩, added_node)

/-- Constructor `KdTree::KdTree()`. -/
def KdTree.new : KdTree := ⟨KdTreeNode.new⟩

/-- Constructor `KdTree::KdTree(geometry_msgs::Point start_point)`. -/
def KdTree.ofPoint (start_point : Point) : KdTree := ⟨KdTreeNode.ofPoint start_point⟩

/-! ## The breadth-first reference scans -/

/-- Number of nodes reachable from a node (itself included). -/
def KdTreeNode.size : KdTreeNode → Nat
  | KdTreeNode.mk _ _ _ none none _ _ => 1
  | KdTreeNode.mk _ _ _ (some l) none _ _ => 1 + l.size
  | KdTreeNode.mk _ _ _ none (some r) _ _ => 1 + r.size
  | KdTreeNode.mk _ _ _ (some l) (some r) _ _ => 1 + l.size + r.size

/-- Total number of nodes below the pointers waiting in a `std::queue<KdTreeNode*>`;
every queued pointer is kept together with its address. -/
def queueSize (q : List (NodeRef × KdTreeNode)) : Nat :=
  (q.map fun e => e.2.size).sum

/-- The two statements `if(front->left_node) q.push(front->left_node);
if(front->right_node) q.push(front->right_node);` followed by `q.pop()`, where
`front` (at address `ref`) has children `l` and `r` and `q` is the rest of the queue. -/
def pushChildren (ref : NodeRef) (l r : Option KdTreeNode)
    (q : List (NodeRef × KdTreeNode)) : List (NodeRef × KdTreeNode) :=
  let q1 := match l with
    | some ln => q ++ [(ref ++ [Side.left], ln)]
    | none => q
  match r with
  | some rn => q1 ++ [(ref ++ [Side.right], rn)]
  | none => q1

/-- The `while(!q.empty())` loop of `KdTree::BruceNearestKdTreeNode`
(`kd_tree.cc`, lines 162-171); the state is `(nearest_node, min_distance2)`. -/
def BruceNearestLoop (target : Point) :
    List (NodeRef × KdTreeNode) → NearestState → NearestState
  | [], st => st
  | (ref, KdTreeNode.mk point _ _ left_node right_node _ _) :: q, st =>
    let distance2 := Distance2BetweenPoint target point
    let st1 : NearestState :=
      if distance2 < st.current_cloest_distance2 then ⟨some ref, distance2⟩ else st
    BruceNearestLoop target (pushChildren ref left_node right_node q) st1
termination_by q => queueSize q
decreasing_by
  cases left_node <;> cases right_node <;>
    simp [pushChildren, queueSize, KdTreeNode.size] <;> omega

/-- The `while(!q.empty())` loop of `KdTree::BruceNearKdTreeNode`
(`kd_tree.cc`, lines 181-189). -/
def BruceNearLoop (target : Point) (radius : ℚ) :
    List (NodeRef × KdTreeNode) → List NodeRef → List NodeRef
  | [], bruce_near_nodes => bruce_near_nodes
  | (ref, KdTreeNode.mk point _ _ left_node right_node _ _) :: q, bruce_near_nodes =>
    let distance2 := Distance2BetweenPoint target point
    let near1 := if distance2 < radius then bruce_near_nodes ++ [ref] else bruce_near_nodes
    BruceNearLoop target radius (pushChildren ref left_node right_node q) near1
termination_by q => queueSize q
decreasing_by
  cases left_node <;> cases right_node <;>
    simp [pushChildren, queueSize, KdTreeNode.size] <;> omega

/-- The method `KdTree::BruceNearestKdTreeNode`. -/
def KdTree.BruceNearestKdTreeNode (t : KdTree) (target : Point) : Option NodeRef :=
  (BruceNearestLoop target [([], t.root_)] ⟨none, DBL_MAX⟩).current_nearest_node

/-- The method `KdTree::BruceNearKdTreeNode`: `radius` is compared with the
squared distance as it is. -/
def KdTree.BruceNearKdTreeNode (t : KdTree) (target : Point) (radius : ℚ) : List NodeRef :=
  BruceNearLoop target radius [([], t.root_)] []

/-! ## Building an index -/

/-- One call of `Insert`, through either public overload of `AddPointToKdTree`. -/
inductive InsertCall where
  | plain (point : Point) : InsertCall
  | tagged (point : Point) (trajectory_idx submap_idx : Int) : InsertCall

/-- The point passed to an `Insert` call. -/
def InsertCall.point : InsertCall → Point
  | InsertCall.plain p => p
  | InsertCall.tagged p _ _ => p

/-- The result of one `Insert` call: the index after it and the returned pointer. -/
def KdTree.call (t : KdTree) : InsertCall → KdTree × NodeRef
  | InsertCall.plain p => t.AddPointToKdTree p
  | InsertCall.tagged p a b => t.AddPointToKdTreeIdx p a b

/-- The index after one `Insert` call. -/
def KdTree.insert (t : KdTree) (c : InsertCall) : KdTree :=
  (t.call c).1

/-- The freshly constructed index: `KdTree()` without a seed, `KdTree(p)` with seed `p`. -/
def KdTree.construct : Option Point → KdTree
  | none => KdTree.new
  | some start_point => KdTree.ofPoint start_point

/-- The index obtained by construction followed by a finite sequence of `Insert` calls. -/
def KdTree.build (seed : Option Point) (calls : List InsertCall) : KdTree :=
  calls.foldl KdTree.insert (KdTree.construct seed)

/-! ## Vocabulary of the specification -/

/-- The addresses, relative to `cur`, of all nodes below the pointer `cur`
(the node itself first, then its left subtree, then its right subtree). -/
def refsBelow : Option KdTreeNode → List NodeRef
  | none => []
  | some (KdTreeNode.mk _ _ _ l r _ _) =>
    [] :: ((refsBelow l).map (List.cons Side.left) ++ (refsBelow r).map (List.cons Side.right))

/-- The points stored below the pointer `cur`, in the order of `refsBelow`. -/
def pointsBelow : Option KdTreeNode → List Point
  | none => []
  | some (KdTreeNode.mk p _ _ l r _ _) => p :: (pointsBelow l ++ pointsBelow r)

/-- The addresses of all nodes stored in the index. -/
def KdTree.refs (t : KdTree) : List NodeRef := refsBelow (some t.root_)

/-- The points stored in the index, one entry per node. -/
def KdTree.points (t : KdTree) : List Point := pointsBelow (some t.root_)

/-- The node of the index at address `ref`, if there is one. -/
def KdTree.node (t : KdTree) (ref : NodeRef) : Option KdTreeNode := getNode (some t.root_) ref

/-- The squared x-y distance from `target` to the node a returned pointer designates;
`none` for the null pointer (and for an address outside the index). -/
def KdTree.distance2To (t : KdTree) (target : Point) : Option NodeRef → Option ℚ
  | none => none
  | some ref => (t.node ref).map fun n => Distance2BetweenPoint target n.point

/-- The splitting coordinate at a depth: x at even depth, y at odd depth. -/
def axisCoord (depth : Nat) (p : Point) : ℚ :=
  if depth % 2 = 0 then p.x else p.y

/-- The alternating-axis ordering invariant for the subtree below `cur`, whose
root is at depth `depth`. -/
def KdInvariant : Option KdTreeNode → Nat → Prop
  | none, _ => True
  | some (KdTreeNode.mk p _ _ l r _ _), depth =>
    (∀ q ∈ pointsBelow l, axisCoord depth q ≤ axisCoord depth p) ∧
    (∀ q ∈ pointsBelow r, axisCoord depth p < axisCoord depth q) ∧
    KdInvariant l (depth + 1) ∧ KdInvariant r (depth + 1)

/-- The index of the specification's concrete scenario: seeded at (0,0,0), then
(1,1,0), (2,2,0) and (0,5,0) inserted in that order. -/
def scenario : KdTree :=
  KdTree.build (some ⟨0, 0, 0⟩)
    [InsertCall.plain ⟨1, 1, 0⟩, InsertCall.plain ⟨2, 2, 0⟩, InsertCall.plain ⟨0, 5, 0⟩]

/-- The first tag of an `Insert` call (`trajectory_idx`), 0 for the overload without tags. -/
def InsertCall.trajectory_idx : InsertCall → Int
  | InsertCall.plain _ => 0
  | InsertCall.tagged _ a _ => a

/-- The second tag of an `Insert` call (`submap_idx`), 0 for the overload without tags. -/
def InsertCall.submap_idx : InsertCall → Int
  | InsertCall.plain _ => 0
  | InsertCall.tagged _ _ b => b

/-- What a node carries besides its two child pointers. -/
def KdTreeNode.payload (n : KdTreeNode) : Point × Option NodeRef × ℚ × Int × Int :=
  (n.point, n.parent_node, n.distance, n.trajectory_id, n.submap_index)

/-- The tag pair of a node. -/
def KdTreeNode.tags (n : KdTreeNode) : Int × Int :=
  (n.trajectory_id, n.submap_index)

/-- The ordering invariant as the specification words it: for every node `N` of the index,
at depth `d` (the length of its address), every node of its left subtree is not beyond `N`
on the splitting coordinate of depth `d`, and every node of its right subtree is strictly
beyond it. -/
def KdTree.Ordered (t : KdTree) : Prop :=
  ∀ (pre : NodeRef) (N : KdTreeNode), t.node pre = some N →
    (∀ rel m, getNode N.left_node rel = some m →
      axisCoord pre.length m.point ≤ axisCoord pre.length N.point) ∧
    (∀ rel m, getNode N.right_node rel = some m →
      axisCoord pre.length N.point < axisCoord pre.length m.point)

/-- The parent back-reference as the specification wants it kept: absent at the root, and at
every other node the address of the node whose child slot holds it. -/
def KdTree.ParentConsistent (t : KdTree) : Prop :=
  (∀ N, t.node [] = some N → N.parent_node = none) ∧
  ∀ (pre : NodeRef) (s : Side) (N : KdTreeNode),
    t.node (pre ++ [s]) = some N → N.parent_node = some pre


/-- The depth of the index: the length of the longest address of a stored node (0 when
the root is the only node). -/
def KdTree.depth (t : KdTree) : Nat :=
  (t.refs.map List.length).foldr max 0

/-- The point (k, k, 0). -/
def diagonal (k : Nat) : Point := ⟨k, k, 0⟩

/-- The calls `Insert((1,1,0)), Insert((2,2,0)), ..., Insert((n,n,0))`, in this order. -/
def diagonalCalls (n : Nat) : List InsertCall :=
  (List.range n).map fun i => InsertCall.plain (diagonal (i + 1))

/-- A point with its z coordinate erased. -/
def Point.flat (p : Point) : Point := ⟨p.x, p.y, 0⟩

/-! ## Double arithmetic

The functions above read `double` as exact rationals. The definitions below read the same
source lines in IEEE 754 binary64 arithmetic: every subtraction, multiplication and
addition rounds its exact result to the nearest double, ties to the even one, with gradual
underflow and with overflow to an infinity. A double is represented by its exact rational
value, `+inf` by 2^1024 and `-inf` by -2^1024 (the values one binade above `DBL_MAX`), so
that the comparisons of doubles are the comparisons of rationals. The program applies the
operations to finite coordinates and radii, to differences, to squares and to sums of
squares only; on these the representation agrees with the format (no NaN arises, and an
infinity is only ever squared or added to a non-negative value). Comparisons of
coordinates (`<=`) are exact in either reading, so insertion and the shape of the tree are
the same. Coordinates and radii range over `ℚ`; the finite doubles are the rationals `q`
with `roundDouble q = q`, and what is proved for all rationals holds for them. Inputs that
are NaN or infinite are outside the model. -/

/-- Rounding of a non-negative rational to the nearest integer, ties to the even one. -/
def roundHalfEven (x : ℚ) : ℤ :=
  if x - ⌊x⌋ < 1 / 2 then ⌊x⌋
  else if 1 / 2 < x - ⌊x⌋ then ⌊x⌋ + 1
  else if ⌊x⌋ % 2 = 0 then ⌊x⌋ else ⌊x⌋ + 1

/-- The representation of `+inf`. -/
def DBL_INF : ℚ := 2 ^ 1024

/-- The binary exponent that fixes the spacing of the doubles around a positive value: the
exponent of its binade, and -1022 (the smallest normal exponent) below 2^-1022. -/
def binadeExp (a : ℚ) : ℤ := max (Int.log 2 a) (-1022)

/-- Rounding of a non-negative exact value to binary64: 53 significant bits, spacing
2^(e-52) in the binade of exponent `e`, overflow to `+inf` from `DBL_MAX` plus half a
spacing on. -/
def roundMagnitude (a : ℚ) : ℚ :=
  if 2 ^ 1024 - 2 ^ 970 ≤ a then DBL_INF
  else (roundHalfEven (a / 2 ^ (binadeExp a - 52)) : ℚ) * 2 ^ (binadeExp a - 52)

/-- Rounding of an exact value to binary64 (round to nearest, ties to even). -/
@[irreducible]
def roundDouble (q : ℚ) : ℚ :=
  if 0 ≤ q then roundMagnitude q else -roundMagnitude (-q)

/-- The operator `-` on doubles. -/
@[irreducible]
def dsub (a b : ℚ) : ℚ := roundDouble (a - b)

/-- The operator `*` on doubles. -/
@[irreducible]
def dmul (a b : ℚ) : ℚ := roundDouble (a * b)

/-- The operator `+` on doubles. -/
@[irreducible]
def dadd (a b : ℚ) : ℚ := roundDouble (a + b)

/-- Modelled from the spec: `Distance2BetweenPoint` of `common.h` (not part of the sources
at hand), the squared distance in the x-y plane of the spec's glossary, evaluated in double
arithmetic as `(a.x - b.x) * (a.x - b.x) + (a.y - b.y) * (a.y - b.y)`. -/
def Distance2BetweenPointDbl (a b : Point) : ℚ :=
  dadd (dmul (dsub a.x b.x) (dsub a.x b.x)) (dmul (dsub a.y b.y) (dsub a.y b.y))

/-- The nearest overload of `KdTree::SearchKdTreeNode` (`kd_tree.cc`, lines 46-78) over
the arithmetic of `double`: `distance2Of` stands for the helper `Distance2BetweenPoint`,
`sub` and `mul` for the operators `-` and `*` of lines 69-71. -/
def SearchKdTreeNodeOver (distance2Of : Point → Point → ℚ) (sub mul : ℚ → ℚ → ℚ)
    (target : Point) : Option KdTreeNode → NodeRef → NearestState → Nat → NearestState
  | none, _, st, _ => st
  | some (KdTreeNode.mk point _ _ left_node right_node _ _), here, st, depth =>
    let distance2 := distance2Of target point
    let go_to_left : Bool :=
      if depth % 2 = 0 then decide (target.x ≤ point.x) else decide (target.y ≤ point.y)
    -- Recursively visit children
    let st1 :=
      if go_to_left then
        SearchKdTreeNodeOver distance2Of sub mul target left_node (here ++ [Side.left]) st
          (depth + 1)
      else
        SearchKdTreeNodeOver distance2Of sub mul target right_node (here ++ [Side.right]) st
          (depth + 1)
    -- Search current_node
    let st2 : NearestState :=
      if distance2 < st1.current_cloest_distance2 then ⟨some here, distance2⟩ else st1
    -- Judge whether search other side
    let discard_threshold :=
      if depth % 2 = 0 then mul (sub target.x point.x) (sub target.x point.x)
      else mul (sub target.y point.y) (sub target.y point.y)
    if st2.current_cloest_distance2 > discard_threshold then
      if go_to_left then
        SearchKdTreeNodeOver distance2Of sub mul target right_node (here ++ [Side.right]) st2
          (depth + 1)
      else
        SearchKdTreeNodeOver distance2Of sub mul target left_node (here ++ [Side.left]) st2
          (depth + 1)
    else st2

/-- The nearest overload of `KdTree::SearchKdTreeNode` in double arithmetic: the helper and
the operators are those of binary64. -/
def SearchKdTreeNodeDbl (target : Point) :
    Option KdTreeNode → NodeRef → NearestState → Nat → NearestState :=
  SearchKdTreeNodeOver Distance2BetweenPointDbl dsub dmul target

/-- The range overload of `KdTree::SearchKdTreeNode` (`kd_tree.cc`, lines 81-108) in double
arithmetic. Its argument `radius` is compared with squared distances. -/
def SearchKdTreeNodeNearDbl (target : Point) :
    Option KdTreeNode → NodeRef → List NodeRef → ℚ → Nat → List NodeRef
  | none, _, near_nodes, _, _ => near_nodes
  | some (KdTreeNode.mk point _ _ left_node right_node _ _), here, near_nodes, radius, depth =>
    let distance2 := Distance2BetweenPointDbl target point
    -- Visit current node
    let near1 := if distance2 < radius then near_nodes ++ [here] else near_nodes
    -- Recursively visit children
    let go_to_left : Bool :=
      if depth % 2 = 0 then decide (target.x ≤ point.x) else decide (target.y ≤ point.y)
    let near2 :=
      if go_to_left then
        SearchKdTreeNodeNearDbl target left_node (here ++ [Side.left]) near1 radius (depth + 1)
      else
        SearchKdTreeNodeNearDbl target right_node (here ++ [Side.right]) near1 radius (depth + 1)
    -- Visit the otherside
    let discard_threshold :=
      if depth % 2 = 0 then dmul (dsub target.x point.x) (dsub target.x point.x)
      else dmul (dsub target.y point.y) (dsub target.y point.y)
    if radius > discard_threshold then
      if go_to_left then
        SearchKdTreeNodeNearDbl target right_node (here ++ [Side.right]) near2 radius (depth + 1)
      else
        SearchKdTreeNodeNearDbl target left_node (here ++ [Side.left]) near2 radius (depth + 1)
    else near2

/-- The method `KdTree::NearestKdTreeNode` in double arithmetic; `none` is the null pointer. -/
def KdTree.NearestKdTreeNodeDbl (t : KdTree) (target : Point) : Option NodeRef :=
  (SearchKdTreeNodeDbl target (some t.root_) [] ⟨none, DBL_MAX⟩ 0).current_nearest_node

/-- The method `KdTree::NearKdTreeNode` in double arithmetic: `radius * radius` is a
product of doubles. -/
def KdTree.NearKdTreeNodeDbl (t : KdTree) (target : Point) (radius : ℚ) : List NodeRef :=
  SearchKdTreeNodeNearDbl target (some t.root_) [] [] (dmul radius radius) 0

/-- The `while(!q.empty())` loop of `KdTree::BruceNearestKdTreeNode`
(`kd_tree.cc`, lines 162-171) in double arithmetic. -/
def BruceNearestLoopDbl (target : Point) :
    List (NodeRef × KdTreeNode) → NearestState → NearestState
  | [], st => st
  | (ref, KdTreeNode.mk point _ _ left_node right_node _ _) :: q, st =>
    let distance2 := Distance2BetweenPointDbl target point
    let st1 : NearestState :=
      if distance2 < st.current_cloest_distance2 then ⟨some ref, distance2⟩ else st
    BruceNearestLoopDbl target (pushChildren ref left_node right_node q) st1
termination_by q => queueSize q
decreasing_by
  cases left_node <;> cases right_node <;>
    simp [pushChildren, queueSize, KdTreeNode.size] <;> omega

/-- The method `KdTree::BruceNearestKdTreeNode` in double arithmetic. -/
def KdTree.BruceNearestKdTreeNodeDbl (t : KdTree) (target : Point) : Option NodeRef :=
  (BruceNearestLoopDbl target [([], t.root_)] ⟨none, DBL_MAX⟩).current_nearest_node

/-- The squared distance, as the program computes it in double arithmetic, from `target` to
the node a returned pointer designates; `none` for the null pointer. -/
def KdTree.distance2ToDbl (t : KdTree) (target : Point) : Option NodeRef → Option ℚ
  | none => none
  | some ref => (t.node ref).map fun n => Distance2BetweenPointDbl target n.point

/-- Whether the address `ref` designates a stored node that passes the test of the range
search in double arithmetic: its double squared distance to `target` is strictly below the
double product `radius * radius`. -/
def KdTree.withinRangeDbl (t : KdTree) (target : Point) (radius : ℚ) (ref : NodeRef) : Bool :=
  match t.node ref with
  | some n => decide (Distance2BetweenPointDbl target n.point < dmul radius radius)
  | none => false

/-! ## Vocabulary of the proofs -/

/-- The nodes below `cur` (at address `here`) that a range search must report. -/
def InRange (target : Point) (radius : ℚ) (cur : Option KdTreeNode) (here ref : NodeRef) : Prop :=
  ∃ rel n, ref = here ++ rel ∧ getNode cur rel = some n ∧
    Distance2BetweenPoint target n.point < radius

/-- What a best-so-far scan over the candidates `S` (address and stored point)
achieves: the best distance never grows, it is a lower bound for all candidates, and the
state is either untouched or designates a candidate that is strictly closer than the
bound scanned with. -/
def Scanned (target : Point) (S : NodeRef → Point → Prop) (st st1 : NearestState) : Prop :=
  st1.current_cloest_distance2 ≤ st.current_cloest_distance2 ∧
  (∀ ref q, S ref q → st1.current_cloest_distance2 ≤ Distance2BetweenPoint target q) ∧
  (st1 = st ∨ ∃ ref q, S ref q ∧ st1.current_nearest_node = some ref ∧
    Distance2BetweenPoint target q = st1.current_cloest_distance2 ∧
    st1.current_cloest_distance2 < st.current_cloest_distance2)

/-- The candidates below the pointer `cur` whose address is `here`. -/
def Below (cur : Option KdTreeNode) (here : NodeRef) (ref : NodeRef) (q : Point) : Prop :=
  ∃ rel n, ref = here ++ rel ∧ getNode cur rel = some n ∧ n.point = q

/-- The candidates waiting in the queue: all nodes below a queued pointer. -/
def QueueBelow (q : List (NodeRef × KdTreeNode)) (ref : NodeRef) (pt : Point) : Prop :=
  ∃ e ∈ q, Below (some e.2) e.1 ref pt

/-- The nodes in the queue that a breadth-first range scan must report. -/
def QueueInRange (target : Point) (radius : ℚ) (q : List (NodeRef × KdTreeNode))
    (ref : NodeRef) : Prop :=
  ∃ e ∈ q, InRange target radius (some e.2) e.1 ref

/-- The tree after inserting `point` below `n` (a node at depth `depth`). -/
def insertedTree (point : Point) (n : KdTreeNode) (depth : Nat) : KdTreeNode :=
  (AddPointToKdTreeRec point n [] depth).1

/-- The address, relative to `n`, of the node created by inserting `point` below `n`. -/
def insertedRef (point : Point) (n : KdTreeNode) (depth : Nat) : NodeRef :=
  (AddPointToKdTreeRec point n [] depth).2

/-- The shape of an insertion result: one new leaf in a formerly empty slot. -/
inductive Attached (point : Point) : KdTreeNode → Nat → KdTreeNode → NodeRef → Prop
  | left_here (p pn d r a b depth) (hgo : axisCoord depth point ≤ axisCoord depth p) :
      Attached point (KdTreeNode.mk p pn d none r a b) depth
        (KdTreeNode.mk p pn d (some (KdTreeNode.ofPoint point)) r a b) [Side.left]
  | right_here (p pn d l a b depth) (hgo : ¬ axisCoord depth point ≤ axisCoord depth p) :
      Attached point (KdTreeNode.mk p pn d l none a b) depth
        (KdTreeNode.mk p pn d l (some (KdTreeNode.ofPoint point)) a b) [Side.right]
  | left_below (p pn d ln r a b depth ln1 rel)
      (hgo : axisCoord depth point ≤ axisCoord depth p)
      (h : Attached point ln (depth + 1) ln1 rel) :
      Attached point (KdTreeNode.mk p pn d (some ln) r a b) depth
        (KdTreeNode.mk p pn d (some ln1) r a b) (Side.left :: rel)
  | right_below (p pn d l rn a b depth rn1 rel)
      (hgo : ¬ axisCoord depth point ≤ axisCoord depth p)
      (h : Attached point rn (depth + 1) rn1 rel) :
      Attached point (KdTreeNode.mk p pn d l (some rn) a b) depth
        (KdTreeNode.mk p pn d l (some rn1) a b) (Side.right :: rel)

/-- A node with its two tags replaced. -/
def KdTreeNode.withIdx (ta tb : Int) : KdTreeNode → KdTreeNode
  | KdTreeNode.mk p pn d l r _ _ => KdTreeNode.mk p pn d l r ta tb

/-- The chain of right children storing (k,k,0), (k+1,k+1,0), ..., (k+m,k+m,0). -/
def rightChain : Nat → Nat → KdTreeNode
  | k, 0 => KdTreeNode.ofPoint (diagonal k)
  | k, m + 1 => KdTreeNode.mk (diagonal k) none 0 none (some (rightChain (k + 1) m)) 0 0

/-- A tree with everything erased that the comparisons and distances do not read: the z
coordinates, the tags, the parent references and the distance fields. -/
def flatNode : KdTreeNode → KdTreeNode
  | KdTreeNode.mk p _ _ l r _ _ =>
    KdTreeNode.mk p.flat none 0
      (match l with
        | none => none
        | some ln => some (flatNode ln))
      (match r with
        | none => none
        | some rn => some (flatNode rn)) 0 0

/-- What a best-so-far scan over the candidates `S` achieves when distances are measured
by `D`: the best distance never grows, it is a lower bound for all candidates, and the state
is either untouched or designates a candidate strictly closer than the bound scanned with. -/
def ScannedBy (D : Point → ℚ) (S : NodeRef → Point → Prop) (st st1 : NearestState) : Prop :=
  st1.current_cloest_distance2 ≤ st.current_cloest_distance2 ∧
  (∀ ref q, S ref q → st1.current_cloest_distance2 ≤ D q) ∧
  (st1 = st ∨ ∃ ref q, S ref q ∧ st1.current_nearest_node = some ref ∧
    D q = st1.current_cloest_distance2 ∧
    st1.current_cloest_distance2 < st.current_cloest_distance2)

/-- The nodes below `cur` (at address `here`) that pass the test of the range search in
double arithmetic. -/
def InRangeDbl (target : Point) (radius : ℚ) (cur : Option KdTreeNode) (here ref : NodeRef) :
    Prop :=
  ∃ rel n, ref = here ++ rel ∧ getNode cur rel = some n ∧
    Distance2BetweenPointDbl target n.point < radius

/-- The squared distance to the splitting plane of a node at depth `depth`, in double
arithmetic. -/
def planeDbl (depth : Nat) (t p : Point) : ℚ :=
  dmul (dsub (axisCoord depth t) (axisCoord depth p)) (dsub (axisCoord depth t) (axisCoord depth p))

/-! ## Induction over nullable node pointers -/

theorem ptr_induction {P : Option KdTreeNode → Prop} (hnull : P none)
    (hnode : ∀ p pn d l r a b, P l → P r → P (some (KdTreeNode.mk p pn d l r a b))) :
    ∀ cur, P cur
  | none => hnull
  | some (KdTreeNode.mk p pn d l r a b) =>
    hnode p pn d l r a b (ptr_induction hnull hnode l) (ptr_induction hnull hnode r)

/-! ## Dereferencing -/

@[simp] theorem getNode_nil (cur : Option KdTreeNode) : getNode cur [] = cur := by
  cases cur <;> rfl

@[simp] theorem getNode_none (ref : NodeRef) : getNode none ref = none := by
  cases ref <;> rfl

@[simp] theorem getNode_left (p : Point) (pn : Option NodeRef) (d : ℚ) (l r : Option KdTreeNode)
    (a b : Int) (rest : NodeRef) :
    getNode (some (KdTreeNode.mk p pn d l r a b)) (Side.left :: rest) = getNode l rest := rfl

@[simp] theorem getNode_right (p : Point) (pn : Option NodeRef) (d : ℚ) (l r : Option KdTreeNode)
    (a b : Int) (rest : NodeRef) :
    getNode (some (KdTreeNode.mk p pn d l r a b)) (Side.right :: rest) = getNode r rest := rfl

theorem getNode_append (cur : Option KdTreeNode) (r1 r2 : NodeRef) :
    getNode cur (r1 ++ r2) = getNode (getNode cur r1) r2 := by
  induction r1 generalizing cur with
  | nil => simp
  | cons s rest ih =>
    cases cur with
    | none => simp
    | some n => simp [getNode, ih]

theorem mem_refsBelow (cur : Option KdTreeNode) :
    ∀ ref, ref ∈ refsBelow cur ↔ ∃ n, getNode cur ref = some n := by
  induction cur using ptr_induction with
  | hnull => intro ref; simp [refsBelow]
  | hnode p pn d l r a b ihl ihr =>
    intro ref
    cases ref with
    | nil => simp [refsBelow]
    | cons s rest =>
      cases s <;> simp [refsBelow, ihl, ihr]

theorem mem_pointsBelow (cur : Option KdTreeNode) :
    ∀ q, q ∈ pointsBelow cur ↔ ∃ ref n, getNode cur ref = some n ∧ n.point = q := by
  induction cur using ptr_induction with
  | hnull => intro q; simp [pointsBelow]
  | hnode p pn d l r a b ihl ihr =>
    intro q
    simp only [pointsBelow, List.mem_cons, List.mem_append, ihl, ihr]
    constructor
    · rintro (h | ⟨ref, n, h1, h2⟩ | ⟨ref, n, h1, h2⟩)
      · exact ⟨[], _, rfl, by simp [KdTreeNode.point, h]⟩
      · exact ⟨Side.left :: ref, n, by simpa using h1, h2⟩
      · exact ⟨Side.right :: ref, n, by simpa using h1, h2⟩
    · rintro ⟨ref, n, h1, h2⟩
      cases ref with
      | nil =>
        left
        simp at h1
        subst h1
        simpa [KdTreeNode.point] using h2.symm
      | cons s rest =>
        cases s
        · right; left; exact ⟨rest, n, by simpa using h1, h2⟩
        · right; right; exact ⟨rest, n, by simpa using h1, h2⟩

theorem pointsBelow_eq_map (cur : Option KdTreeNode) :
    pointsBelow cur = (refsBelow cur).filterMap fun ref => (getNode cur ref).map KdTreeNode.point := by
  induction cur using ptr_induction with
  | hnull => simp [pointsBelow, refsBelow]
  | hnode p pn d l r a b ihl ihr =>
    simp [pointsBelow, refsBelow, List.filterMap_append, List.filterMap_map, Function.comp_def,
      KdTreeNode.point, ← ihl, ← ihr]

/-! ## Distances and the splitting plane -/

theorem Distance2_nonneg (a b : Point) : 0 ≤ Distance2BetweenPoint a b := by
  unfold Distance2BetweenPoint
  nlinarith [mul_self_nonneg (a.x - b.x), mul_self_nonneg (a.y - b.y)]

theorem Distance2_self (a : Point) : Distance2BetweenPoint a a = 0 := by
  simp [Distance2BetweenPoint]

theorem DBL_MAX_pos : 0 < DBL_MAX := by
  norm_num [DBL_MAX]

/-- The squared distance to the splitting plane of a node at depth `depth`. -/
theorem axis_le_Distance2 (depth : Nat) (t q : Point) :
    (axisCoord depth t - axisCoord depth q) * (axisCoord depth t - axisCoord depth q)
      ≤ Distance2BetweenPoint t q := by
  unfold Distance2BetweenPoint axisCoord
  split_ifs
  · nlinarith [mul_self_nonneg (t.y - q.y)]
  · nlinarith [mul_self_nonneg (t.x - q.x)]

/-- A node on the right of the plane is at least as far as the plane when the
target is on the left. -/
theorem plane_le_of_right (t c m : ℚ) (h1 : t ≤ c) (h2 : c < m) :
    (t - c) * (t - c) ≤ (t - m) * (t - m) := by
  nlinarith

theorem plane_le_of_left (t c m : ℚ) (h1 : c < t) (h2 : m ≤ c) :
    (t - c) * (t - c) ≤ (t - m) * (t - m) := by
  nlinarith

/-! ## The range search -/

theorem KdInvariant_node (p : Point) (pn : Option NodeRef) (d : ℚ) (l r : Option KdTreeNode)
    (a b : Int) (depth : Nat) :
    KdInvariant (some (KdTreeNode.mk p pn d l r a b)) depth ↔
      (∀ q ∈ pointsBelow l, axisCoord depth q ≤ axisCoord depth p) ∧
      (∀ q ∈ pointsBelow r, axisCoord depth p < axisCoord depth q) ∧
      KdInvariant l (depth + 1) ∧ KdInvariant r (depth + 1) := by
  simp only [KdInvariant]

/-- Nodes of the far subtree are at least as far as the splitting plane. -/
theorem far_right_bound (depth : Nat) (t p : Point) (r : Option KdTreeNode)
    (hinv : ∀ q ∈ pointsBelow r, axisCoord depth p < axisCoord depth q)
    (hgo : axisCoord depth t ≤ axisCoord depth p) (rel : NodeRef) (n : KdTreeNode)
    (hn : getNode r rel = some n) :
    (axisCoord depth t - axisCoord depth p) * (axisCoord depth t - axisCoord depth p)
      ≤ Distance2BetweenPoint t n.point := by
  have h1 := hinv n.point ((mem_pointsBelow r n.point).2 ⟨rel, n, hn, rfl⟩)
  exact le_trans (plane_le_of_right _ _ _ hgo h1) (axis_le_Distance2 depth t n.point)

theorem far_left_bound (depth : Nat) (t p : Point) (l : Option KdTreeNode)
    (hinv : ∀ q ∈ pointsBelow l, axisCoord depth q ≤ axisCoord depth p)
    (hgo : axisCoord depth p < axisCoord depth t) (rel : NodeRef) (n : KdTreeNode)
    (hn : getNode l rel = some n) :
    (axisCoord depth t - axisCoord depth p) * (axisCoord depth t - axisCoord depth p)
      ≤ Distance2BetweenPoint t n.point := by
  have h1 := hinv n.point ((mem_pointsBelow l n.point).2 ⟨rel, n, hn, rfl⟩)
  exact le_trans (plane_le_of_left _ _ _ hgo h1) (axis_le_Distance2 depth t n.point)

theorem inRange_node (target : Point) (radius : ℚ) (p : Point) (pn : Option NodeRef) (d : ℚ)
    (l r : Option KdTreeNode) (a b : Int) (here ref : NodeRef) :
    InRange target radius (some (KdTreeNode.mk p pn d l r a b)) here ref ↔
      (ref = here ∧ Distance2BetweenPoint target p < radius) ∨
      InRange target radius l (here ++ [Side.left]) ref ∨
      InRange target radius r (here ++ [Side.right]) ref := by
  constructor
  · rintro ⟨rel, n, h1, h2, h3⟩
    cases rel with
    | nil =>
      left
      simp at h2
      subst h2
      exact ⟨by simpa using h1, h3⟩
    | cons s rest =>
      cases s
      · right; left; exact ⟨rest, n, by simpa using h1, by simpa using h2, h3⟩
      · right; right; exact ⟨rest, n, by simpa using h1, by simpa using h2, h3⟩
  · rintro (⟨h1, h2⟩ | ⟨rel, n, h1, h2, h3⟩ | ⟨rel, n, h1, h2, h3⟩)
    · exact ⟨[], _, by simpa using h1, rfl, h2⟩
    · exact ⟨Side.left :: rel, n, by simpa using h1, by simpa using h2, h3⟩
    · exact ⟨Side.right :: rel, n, by simpa using h1, by simpa using h2, h3⟩

/-- The node case of the range search, with the two axis tests merged. -/
theorem SearchKdTreeNodeNear_node (target : Point) (radius : ℚ) (p : Point)
    (pn : Option NodeRef) (d : ℚ) (l r : Option KdTreeNode) (a b : Int) (here : NodeRef)
    (near_nodes : List NodeRef) (depth : Nat) :
    SearchKdTreeNodeNear target (some (KdTreeNode.mk p pn d l r a b)) here near_nodes radius depth =
      if axisCoord depth target ≤ axisCoord depth p then
        if radius > (axisCoord depth target - axisCoord depth p) *
            (axisCoord depth target - axisCoord depth p) then
          SearchKdTreeNodeNear target r (here ++ [Side.right])
            (SearchKdTreeNodeNear target l (here ++ [Side.left])
              (if Distance2BetweenPoint target p < radius then near_nodes ++ [here] else near_nodes)
              radius (depth + 1)) radius (depth + 1)
        else
          SearchKdTreeNodeNear target l (here ++ [Side.left])
            (if Distance2BetweenPoint target p < radius then near_nodes ++ [here] else near_nodes)
            radius (depth + 1)
      else
        if radius > (axisCoord depth target - axisCoord depth p) *
            (axisCoord depth target - axisCoord depth p) then
          SearchKdTreeNodeNear target l (here ++ [Side.left])
            (SearchKdTreeNodeNear target r (here ++ [Side.right])
              (if Distance2BetweenPoint target p < radius then near_nodes ++ [here] else near_nodes)
              radius (depth + 1)) radius (depth + 1)
        else
          SearchKdTreeNodeNear target r (here ++ [Side.right])
            (if Distance2BetweenPoint target p < radius then near_nodes ++ [here] else near_nodes)
            radius (depth + 1) := by
  simp only [SearchKdTreeNodeNear, axisCoord]
  by_cases hd : depth % 2 = 0
  · simp only [hd, if_true]
    by_cases hgo : target.x ≤ p.x <;> simp [hgo]
  · simp only [hd, if_false]
    by_cases hgo : target.y ≤ p.y <;> simp [hgo]

theorem mem_visit (ref here : NodeRef) (near_nodes : List NodeRef) (c : Prop) [Decidable c] :
    ref ∈ (if c then near_nodes ++ [here] else near_nodes) ↔ ref ∈ near_nodes ∨ (ref = here ∧ c) := by
  by_cases h : c <;> simp [h]

theorem SearchKdTreeNodeNear_mem (target : Point) (radius : ℚ) (cur : Option KdTreeNode) :
    ∀ (here : NodeRef) (near_nodes : List NodeRef) (depth : Nat), KdInvariant cur depth →
      ∀ ref, ref ∈ SearchKdTreeNodeNear target cur here near_nodes radius depth ↔
        ref ∈ near_nodes ∨ InRange target radius cur here ref := by
  induction cur using ptr_induction with
  | hnull =>
    intro here near_nodes depth _ ref
    simp [SearchKdTreeNodeNear, InRange]
  | hnode p pn d l r a b ihl ihr =>
    intro here near_nodes depth hinv ref
    obtain ⟨hL, hR, hIl, hIr⟩ := (KdInvariant_node p pn d l r a b depth).1 hinv
    have ihl' := fun h nn => ihl h nn (depth + 1) hIl ref
    have ihr' := fun h nn => ihr h nn (depth + 1) hIr ref
    rw [inRange_node, SearchKdTreeNodeNear_node]
    by_cases hgo : axisCoord depth target ≤ axisCoord depth p
    · rw [if_pos hgo]
      by_cases hth : radius > (axisCoord depth target - axisCoord depth p) *
          (axisCoord depth target - axisCoord depth p)
      · rw [if_pos hth, ihr', ihl', mem_visit]
        tauto
      · rw [if_neg hth, ihl', mem_visit]
        have noR : ¬ InRange target radius r (here ++ [Side.right]) ref := by
          rintro ⟨rel, n, -, h2, h3⟩
          exact hth (lt_of_le_of_lt (far_right_bound depth target p r hR hgo rel n h2) h3)
        tauto
    · rw [if_neg hgo]
      by_cases hth : radius > (axisCoord depth target - axisCoord depth p) *
          (axisCoord depth target - axisCoord depth p)
      · rw [if_pos hth, ihl', ihr', mem_visit]
        tauto
      · rw [if_neg hth, ihr', mem_visit]
        have noL : ¬ InRange target radius l (here ++ [Side.left]) ref := by
          rintro ⟨rel, n, -, h2, h3⟩
          exact hth (lt_of_le_of_lt
            (far_left_bound depth target p l hL (not_le.1 hgo) rel n h2) h3)
        tauto

/-! ## The nearest search -/

theorem Scanned.skip {target : Point} {S : NodeRef → Point → Prop} {st : NearestState}
    (h : ∀ ref q, S ref q → st.current_cloest_distance2 ≤ Distance2BetweenPoint target q) :
    Scanned target S st st :=
  ⟨le_refl _, h, Or.inl rfl⟩

theorem Scanned.empty {target : Point} {S : NodeRef → Point → Prop} {st : NearestState}
    (h : ∀ ref q, ¬ S ref q) : Scanned target S st st :=
  Scanned.skip fun ref q hs => absurd hs (h ref q)

theorem Scanned.seq {target : Point} {S1 S2 S : NodeRef → Point → Prop}
    {st st1 st2 : NearestState} (h1 : Scanned target S1 st st1) (h2 : Scanned target S2 st1 st2)
    (hS : ∀ ref q, S ref q ↔ S1 ref q ∨ S2 ref q) : Scanned target S st st2 := by
  obtain ⟨a1, b1, c1⟩ := h1
  obtain ⟨a2, b2, c2⟩ := h2
  refine ⟨le_trans a2 a1, ?_, ?_⟩
  · intro ref q hs
    rcases (hS ref q).1 hs with h | h
    · exact le_trans a2 (b1 ref q h)
    · exact b2 ref q h
  · rcases c2 with rfl | ⟨ref, q, hs, hn, hd, hlt⟩
    · rcases c1 with rfl | ⟨ref, q, hs, hn, hd, hlt⟩
      · exact Or.inl rfl
      · exact Or.inr ⟨ref, q, (hS ref q).2 (Or.inl hs), hn, hd, hlt⟩
    · exact Or.inr ⟨ref, q, (hS ref q).2 (Or.inr hs), hn, hd, lt_of_lt_of_le hlt a1⟩

/-- The step `if(distance2<current_cloest_distance2){...}` at the node at `here`. -/
theorem Scanned.visit (target p : Point) (here : NodeRef) (st : NearestState) :
    Scanned target (fun ref q => ref = here ∧ q = p) st
      (if Distance2BetweenPoint target p < st.current_cloest_distance2
        then ⟨some here, Distance2BetweenPoint target p⟩ else st) := by
  by_cases h : Distance2BetweenPoint target p < st.current_cloest_distance2
  · rw [if_pos h]
    refine ⟨le_of_lt h, ?_, Or.inr ⟨here, p, ⟨rfl, rfl⟩, rfl, rfl, h⟩⟩
    rintro ref q ⟨-, rfl⟩
    exact le_refl _
  · rw [if_neg h]
    refine ⟨le_refl _, ?_, Or.inl rfl⟩
    rintro ref q ⟨-, rfl⟩
    exact not_lt.1 h

theorem below_none (here ref : NodeRef) (q : Point) : ¬ Below none here ref q := by
  rintro ⟨rel, n, -, h, -⟩
  simp at h

theorem below_node (p : Point) (pn : Option NodeRef) (d : ℚ) (l r : Option KdTreeNode)
    (a b : Int) (here ref : NodeRef) (q : Point) :
    Below (some (KdTreeNode.mk p pn d l r a b)) here ref q ↔
      (ref = here ∧ q = p) ∨ Below l (here ++ [Side.left]) ref q ∨
        Below r (here ++ [Side.right]) ref q := by
  constructor
  · rintro ⟨rel, n, h1, h2, h3⟩
    cases rel with
    | nil =>
      left
      simp at h2
      subst h2
      exact ⟨by simpa using h1, by simpa [KdTreeNode.point] using h3.symm⟩
    | cons s rest =>
      cases s
      · right; left; exact ⟨rest, n, by simpa using h1, by simpa using h2, h3⟩
      · right; right; exact ⟨rest, n, by simpa using h1, by simpa using h2, h3⟩
  · rintro (⟨h1, h2⟩ | ⟨rel, n, h1, h2, h3⟩ | ⟨rel, n, h1, h2, h3⟩)
    · exact ⟨[], _, by simpa using h1, rfl, by simpa [KdTreeNode.point] using h2.symm⟩
    · exact ⟨Side.left :: rel, n, by simpa using h1, by simpa using h2, h3⟩
    · exact ⟨Side.right :: rel, n, by simpa using h1, by simpa using h2, h3⟩

/-- The node case of the nearest search, with the two axis tests merged. -/
theorem SearchKdTreeNode_node (target : Point) (p : Point)
    (pn : Option NodeRef) (d : ℚ) (l r : Option KdTreeNode) (a b : Int) (here : NodeRef)
    (st : NearestState) (depth : Nat) :
    SearchKdTreeNode target (some (KdTreeNode.mk p pn d l r a b)) here st depth =
      if axisCoord depth target ≤ axisCoord depth p then
        if (if Distance2BetweenPoint target p <
              (SearchKdTreeNode target l (here ++ [Side.left]) st (depth + 1)).current_cloest_distance2
            then (⟨some here, Distance2BetweenPoint target p⟩ : NearestState)
            else SearchKdTreeNode target l (here ++ [Side.left]) st (depth + 1)).current_cloest_distance2
            > (axisCoord depth target - axisCoord depth p) *
              (axisCoord depth target - axisCoord depth p) then
          SearchKdTreeNode target r (here ++ [Side.right])
            (if Distance2BetweenPoint target p <
              (SearchKdTreeNode target l (here ++ [Side.left]) st (depth + 1)).current_cloest_distance2
            then (⟨some here, Distance2BetweenPoint target p⟩ : NearestState)
            else SearchKdTreeNode target l (here ++ [Side.left]) st (depth + 1)) (depth + 1)
        else
          (if Distance2BetweenPoint target p <
              (SearchKdTreeNode target l (here ++ [Side.left]) st (depth + 1)).current_cloest_distance2
            then (⟨some here, Distance2BetweenPoint target p⟩ : NearestState)
            else SearchKdTreeNode target l (here ++ [Side.left]) st (depth + 1))
      else
        if (if Distance2BetweenPoint target p <
              (SearchKdTreeNode target r (here ++ [Side.right]) st (depth + 1)).current_cloest_distance2
            then (⟨some here, Distance2BetweenPoint target p⟩ : NearestState)
            else SearchKdTreeNode target r (here ++ [Side.right]) st (depth + 1)).current_cloest_distance2
            > (axisCoord depth target - axisCoord depth p) *
              (axisCoord depth target - axisCoord depth p) then
          SearchKdTreeNode target l (here ++ [Side.left])
            (if Distance2BetweenPoint target p <
              (SearchKdTreeNode target r (here ++ [Side.right]) st (depth + 1)).current_cloest_distance2
            then (⟨some here, Distance2BetweenPoint target p⟩ : NearestState)
            else SearchKdTreeNode target r (here ++ [Side.right]) st (depth + 1)) (depth + 1)
        else
          (if Distance2BetweenPoint target p <
              (SearchKdTreeNode target r (here ++ [Side.right]) st (depth + 1)).current_cloest_distance2
            then (⟨some here, Distance2BetweenPoint target p⟩ : NearestState)
            else SearchKdTreeNode target r (here ++ [Side.right]) st (depth + 1)) := by
  simp only [SearchKdTreeNode, axisCoord]
  by_cases hd : depth % 2 = 0
  · simp only [hd, if_true]
    by_cases hgo : target.x ≤ p.x <;> simp [hgo]
  · simp only [hd, if_false]
    by_cases hgo : target.y ≤ p.y <;> simp [hgo]

theorem SearchKdTreeNode_scanned (target : Point) (cur : Option KdTreeNode) :
    ∀ (here : NodeRef) (st : NearestState) (depth : Nat), KdInvariant cur depth →
      Scanned target (Below cur here) st (SearchKdTreeNode target cur here st depth) := by
  induction cur using ptr_induction with
  | hnull =>
    intro here st depth _
    simp only [SearchKdTreeNode]
    exact Scanned.empty (below_none here)
  | hnode p pn d l r a b ihl ihr =>
    intro here st depth hinv
    obtain ⟨hL, hR, hIl, hIr⟩ := (KdInvariant_node p pn d l r a b depth).1 hinv
    rw [SearchKdTreeNode_node]
    by_cases hgo : axisCoord depth target ≤ axisCoord depth p
    · rw [if_pos hgo]
      have h1 := ihl (here ++ [Side.left]) st (depth + 1) hIl
      generalize SearchKdTreeNode target l (here ++ [Side.left]) st (depth + 1) = st1 at h1 ⊢
      have h2 := Scanned.visit target p here st1
      generalize (if Distance2BetweenPoint target p < st1.current_cloest_distance2
        then (⟨some here, Distance2BetweenPoint target p⟩ : NearestState) else st1) = st2 at h2 ⊢
      have h12 := Scanned.seq h1 h2 (fun ref q => Iff.rfl)
      have h3 : Scanned target (Below r (here ++ [Side.right])) st2
          (if st2.current_cloest_distance2 > (axisCoord depth target - axisCoord depth p) *
              (axisCoord depth target - axisCoord depth p)
            then SearchKdTreeNode target r (here ++ [Side.right]) st2 (depth + 1) else st2) := by
        by_cases hth : st2.current_cloest_distance2 >
            (axisCoord depth target - axisCoord depth p) *
              (axisCoord depth target - axisCoord depth p)
        · rw [if_pos hth]
          exact ihr (here ++ [Side.right]) st2 (depth + 1) hIr
        · rw [if_neg hth]
          refine Scanned.skip ?_
          rintro ref q ⟨rel, n, -, h2, rfl⟩
          exact le_trans (not_lt.1 hth) (far_right_bound depth target p r hR hgo rel n h2)
      refine Scanned.seq h12 h3 ?_
      intro ref q
      rw [below_node]
      tauto
    · rw [if_neg hgo]
      have h1 := ihr (here ++ [Side.right]) st (depth + 1) hIr
      generalize SearchKdTreeNode target r (here ++ [Side.right]) st (depth + 1) = st1 at h1 ⊢
      have h2 := Scanned.visit target p here st1
      generalize (if Distance2BetweenPoint target p < st1.current_cloest_distance2
        then (⟨some here, Distance2BetweenPoint target p⟩ : NearestState) else st1) = st2 at h2 ⊢
      have h12 := Scanned.seq h1 h2 (fun ref q => Iff.rfl)
      have h3 : Scanned target (Below l (here ++ [Side.left])) st2
          (if st2.current_cloest_distance2 > (axisCoord depth target - axisCoord depth p) *
              (axisCoord depth target - axisCoord depth p)
            then SearchKdTreeNode target l (here ++ [Side.left]) st2 (depth + 1) else st2) := by
        by_cases hth : st2.current_cloest_distance2 >
            (axisCoord depth target - axisCoord depth p) *
              (axisCoord depth target - axisCoord depth p)
        · rw [if_pos hth]
          exact ihl (here ++ [Side.left]) st2 (depth + 1) hIl
        · rw [if_neg hth]
          refine Scanned.skip ?_
          rintro ref q ⟨rel, n, -, h2, rfl⟩
          exact le_trans (not_lt.1 hth)
            (far_left_bound depth target p l hL (not_le.1 hgo) rel n h2)
      refine Scanned.seq h12 h3 ?_
      intro ref q
      rw [below_node]
      tauto

/-- Two scans of the same candidates from the same state end with the same distance. -/
theorem Scanned.distance_unique {target : Point} {S : NodeRef → Point → Prop}
    {st s1 s2 : NearestState} (h1 : Scanned target S st s1) (h2 : Scanned target S st s2) :
    s1.current_cloest_distance2 = s2.current_cloest_distance2 := by
  obtain ⟨a1, b1, c1⟩ := h1
  obtain ⟨a2, b2, c2⟩ := h2
  rcases c1 with rfl | ⟨r1, q1, hs1, -, hd1, hlt1⟩
  · rcases c2 with rfl | ⟨r2, q2, hs2, -, hd2, hlt2⟩
    · rfl
    · have := b1 r2 q2 hs2
      linarith
  · rcases c2 with rfl | ⟨r2, q2, hs2, -, hd2, hlt2⟩
    · have := b2 r1 q1 hs1
      linarith
    · have h3 := b1 r2 q2 hs2
      have h4 := b2 r1 q1 hs1
      linarith

/-! ## The breadth-first scans -/

theorem queueSize_pushChildren (ref : NodeRef) (p : Point) (pn : Option NodeRef) (d : ℚ)
    (l r : Option KdTreeNode) (a b : Int) (q : List (NodeRef × KdTreeNode)) :
    queueSize (pushChildren ref l r q) < queueSize ((ref, KdTreeNode.mk p pn d l r a b) :: q) := by
  cases l <;> cases r <;>
    simp [pushChildren, queueSize, KdTreeNode.size] <;> omega

theorem mem_pushChildren (ref : NodeRef) (l r : Option KdTreeNode)
    (q : List (NodeRef × KdTreeNode)) (e : NodeRef × KdTreeNode) :
    e ∈ pushChildren ref l r q ↔
      e ∈ q ∨ (l = some e.2 ∧ e.1 = ref ++ [Side.left]) ∨
        (r = some e.2 ∧ e.1 = ref ++ [Side.right]) := by
  obtain ⟨e1, e2⟩ := e
  cases l <;> cases r <;> simp [pushChildren] <;> tauto

theorem queueBelow_pushChildren (ref : NodeRef) (l r : Option KdTreeNode)
    (q : List (NodeRef × KdTreeNode)) (ref1 : NodeRef) (pt : Point) :
    QueueBelow (pushChildren ref l r q) ref1 pt ↔
      QueueBelow q ref1 pt ∨ Below l (ref ++ [Side.left]) ref1 pt ∨
        Below r (ref ++ [Side.right]) ref1 pt := by
  constructor
  · rintro ⟨e, he, hb⟩
    rcases (mem_pushChildren ref l r q e).1 he with h | ⟨h1, h2⟩ | ⟨h1, h2⟩
    · exact Or.inl ⟨e, h, hb⟩
    · right; left; rw [h1, ← h2]; exact hb
    · right; right; rw [h1, ← h2]; exact hb
  · rintro (⟨e, he, hb⟩ | hb | hb)
    · exact ⟨e, (mem_pushChildren ref l r q e).2 (Or.inl he), hb⟩
    · cases l with
      | none => exact absurd hb (below_none _ _ _)
      | some ln =>
        exact ⟨(ref ++ [Side.left], ln),
          (mem_pushChildren ref _ r q _).2 (Or.inr (Or.inl ⟨rfl, rfl⟩)), hb⟩
    · cases r with
      | none => exact absurd hb (below_none _ _ _)
      | some rn =>
        exact ⟨(ref ++ [Side.right], rn),
          (mem_pushChildren ref l _ q _).2 (Or.inr (Or.inr ⟨rfl, rfl⟩)), hb⟩

theorem queueBelow_cons (ref : NodeRef) (p : Point) (pn : Option NodeRef) (d : ℚ)
    (l r : Option KdTreeNode) (a b : Int) (q : List (NodeRef × KdTreeNode))
    (ref1 : NodeRef) (pt : Point) :
    QueueBelow ((ref, KdTreeNode.mk p pn d l r a b) :: q) ref1 pt ↔
      (ref1 = ref ∧ pt = p) ∨ QueueBelow (pushChildren ref l r q) ref1 pt := by
  rw [queueBelow_pushChildren]
  constructor
  · rintro ⟨e, he, hb⟩
    rcases List.mem_cons.1 he with rfl | h
    · rcases (below_node p pn d l r a b ref ref1 pt).1 hb with h | h | h
      · exact Or.inl h
      · exact Or.inr (Or.inr (Or.inl h))
      · exact Or.inr (Or.inr (Or.inr h))
    · exact Or.inr (Or.inl ⟨e, h, hb⟩)
  · rintro (h | ⟨e, he, hb⟩ | h | h)
    · exact ⟨_, List.mem_cons_self _ _, (below_node p pn d l r a b ref ref1 pt).2 (Or.inl h)⟩
    · exact ⟨e, List.mem_cons_of_mem _ he, hb⟩
    · exact ⟨_, List.mem_cons_self _ _,
        (below_node p pn d l r a b ref ref1 pt).2 (Or.inr (Or.inl h))⟩
    · exact ⟨_, List.mem_cons_self _ _,
        (below_node p pn d l r a b ref ref1 pt).2 (Or.inr (Or.inr h))⟩

theorem BruceNearestLoop_cons (target : Point) (ref : NodeRef) (p : Point)
    (pn : Option NodeRef) (d : ℚ) (l r : Option KdTreeNode) (a b : Int)
    (q : List (NodeRef × KdTreeNode)) (st : NearestState) :
    BruceNearestLoop target ((ref, KdTreeNode.mk p pn d l r a b) :: q) st =
      BruceNearestLoop target (pushChildren ref l r q)
        (if Distance2BetweenPoint target p < st.current_cloest_distance2
          then ⟨some ref, Distance2BetweenPoint target p⟩ else st) := by
  rw [BruceNearestLoop]

theorem BruceNearLoop_cons (target : Point) (radius : ℚ) (ref : NodeRef) (p : Point)
    (pn : Option NodeRef) (d : ℚ) (l r : Option KdTreeNode) (a b : Int)
    (q : List (NodeRef × KdTreeNode)) (acc : List NodeRef) :
    BruceNearLoop target radius ((ref, KdTreeNode.mk p pn d l r a b) :: q) acc =
      BruceNearLoop target radius (pushChildren ref l r q)
        (if Distance2BetweenPoint target p < radius then acc ++ [ref] else acc) := by
  rw [BruceNearLoop]

theorem BruceNearestLoop_scanned (target : Point) :
    ∀ (k : Nat) (q : List (NodeRef × KdTreeNode)) (st : NearestState), queueSize q ≤ k →
      Scanned target (QueueBelow q) st (BruceNearestLoop target q st) := by
  intro k
  induction k with
  | zero =>
    intro q st hk
    cases q with
    | nil =>
      rw [BruceNearestLoop]
      exact Scanned.empty (by rintro ref pt ⟨e, he, -⟩; simp at he)
    | cons e q =>
      obtain ⟨ref, ⟨p, pn, d, l, r, a, b⟩⟩ := e
      have := queueSize_pushChildren ref p pn d l r a b q
      omega
  | succ k ih =>
    intro q st hk
    cases q with
    | nil =>
      rw [BruceNearestLoop]
      exact Scanned.empty (by rintro ref pt ⟨e, he, -⟩; simp at he)
    | cons e q =>
      obtain ⟨ref, ⟨p, pn, d, l, r, a, b⟩⟩ := e
      have hlt := queueSize_pushChildren ref p pn d l r a b q
      rw [BruceNearestLoop_cons]
      have h1 := Scanned.visit target p ref st
      have h2 := ih (pushChildren ref l r q)
        (if Distance2BetweenPoint target p < st.current_cloest_distance2
          then ⟨some ref, Distance2BetweenPoint target p⟩ else st) (by omega)
      exact Scanned.seq h1 h2 (queueBelow_cons ref p pn d l r a b q)

theorem inRange_iff_below (target : Point) (radius : ℚ) (cur : Option KdTreeNode)
    (here ref : NodeRef) :
    InRange target radius cur here ref ↔
      ∃ pt, Below cur here ref pt ∧ Distance2BetweenPoint target pt < radius := by
  constructor
  · rintro ⟨rel, n, h1, h2, h3⟩
    exact ⟨n.point, ⟨rel, n, h1, h2, rfl⟩, h3⟩
  · rintro ⟨pt, ⟨rel, n, h1, h2, rfl⟩, h3⟩
    exact ⟨rel, n, h1, h2, h3⟩

theorem queueInRange_iff (target : Point) (radius : ℚ) (q : List (NodeRef × KdTreeNode))
    (ref : NodeRef) :
    QueueInRange target radius q ref ↔
      ∃ pt, QueueBelow q ref pt ∧ Distance2BetweenPoint target pt < radius := by
  constructor
  · rintro ⟨e, he, h⟩
    obtain ⟨pt, hb, hd⟩ := (inRange_iff_below target radius _ _ ref).1 h
    exact ⟨pt, ⟨e, he, hb⟩, hd⟩
  · rintro ⟨pt, ⟨e, he, hb⟩, hd⟩
    exact ⟨e, he, (inRange_iff_below target radius _ _ ref).2 ⟨pt, hb, hd⟩⟩

theorem BruceNearLoop_mem (target : Point) (radius : ℚ) :
    ∀ (k : Nat) (q : List (NodeRef × KdTreeNode)) (acc : List NodeRef), queueSize q ≤ k →
      ∀ ref, ref ∈ BruceNearLoop target radius q acc ↔
        ref ∈ acc ∨ QueueInRange target radius q ref := by
  intro k
  induction k with
  | zero =>
    intro q acc hk ref
    cases q with
    | nil =>
      rw [BruceNearLoop]
      simp [QueueInRange]
    | cons e q =>
      obtain ⟨ref0, ⟨p, pn, d, l, r, a, b⟩⟩ := e
      have := queueSize_pushChildren ref0 p pn d l r a b q
      omega
  | succ k ih =>
    intro q acc hk ref
    cases q with
    | nil =>
      rw [BruceNearLoop]
      simp [QueueInRange]
    | cons e q =>
      obtain ⟨ref0, ⟨p, pn, d, l, r, a, b⟩⟩ := e
      have hlt := queueSize_pushChildren ref0 p pn d l r a b q
      rw [BruceNearLoop_cons, ih _ _ (by omega), mem_visit, queueInRange_iff, queueInRange_iff]
      constructor
      · rintro ((h | ⟨h1, h2⟩) | ⟨pt, hb, hd⟩)
        · exact Or.inl h
        · exact Or.inr ⟨p, (queueBelow_cons ref0 p pn d l r a b q ref p).2 (Or.inl ⟨h1, rfl⟩), h2⟩
        · exact Or.inr ⟨pt, (queueBelow_cons ref0 p pn d l r a b q ref pt).2 (Or.inr hb), hd⟩
      · rintro (h | ⟨pt, hb, hd⟩)
        · exact Or.inl (Or.inl h)
        · rcases (queueBelow_cons ref0 p pn d l r a b q ref pt).1 hb with ⟨h1, rfl⟩ | h
          · exact Or.inl (Or.inr ⟨h1, hd⟩)
          · exact Or.inr ⟨pt, h, hd⟩

/-! ## Insertion -/

theorem node_induction {P : KdTreeNode → Prop}
    (h : ∀ p pn d l r a b, (∀ ln, l = some ln → P ln) → (∀ rn, r = some rn → P rn) →
      P (KdTreeNode.mk p pn d l r a b)) : ∀ n, P n := by
  have key : ∀ cur : Option KdTreeNode, ∀ n, cur = some n → P n := by
    intro cur
    induction cur using ptr_induction with
    | hnull => intro n hn; cases hn
    | hnode p pn d l r a b ihl ihr =>
      intro n hn
      cases hn
      exact h p pn d l r a b ihl ihr
  exact fun n => key (some n) n rfl

/-- The node case of the recursive insertion, with the two axis tests merged. -/
theorem AddPointToKdTreeRec_node (point : Point) (p : Point) (pn : Option NodeRef) (d : ℚ)
    (l r : Option KdTreeNode) (a b : Int) (here : NodeRef) (depth : Nat) :
    AddPointToKdTreeRec point (KdTreeNode.mk p pn d l r a b) here depth =
      if axisCoord depth point ≤ axisCoord depth p then
        match l with
        | none => (KdTreeNode.mk p pn d (some (KdTreeNode.ofPoint point)) r a b,
            here ++ [Side.left])
        | some ln =>
          (KdTreeNode.mk p pn d
            (some (AddPointToKdTreeRec point ln (here ++ [Side.left]) (depth + 1)).1) r a b,
            (AddPointToKdTreeRec point ln (here ++ [Side.left]) (depth + 1)).2)
      else
        match r with
        | none => (KdTreeNode.mk p pn d l (some (KdTreeNode.ofPoint point)) a b,
            here ++ [Side.right])
        | some rn =>
          (KdTreeNode.mk p pn d l
            (some (AddPointToKdTreeRec point rn (here ++ [Side.right]) (depth + 1)).1) a b,
            (AddPointToKdTreeRec point rn (here ++ [Side.right]) (depth + 1)).2) := by
  rw [AddPointToKdTreeRec.eq_def]
  simp only [axisCoord]
  cases l <;> cases r <;> by_cases hd : depth % 2 = 0 <;> simp [hd]

/-- The returned pointer is the address of `parent` followed by a path that does not
depend on that address, and neither does the updated tree. -/
theorem AddPointToKdTreeRec_here (point : Point) (n : KdTreeNode) :
    ∀ (here : NodeRef) (depth : Nat),
      AddPointToKdTreeRec point n here depth =
        ((AddPointToKdTreeRec point n [] depth).1,
          here ++ (AddPointToKdTreeRec point n [] depth).2) := by
  induction n using node_induction with
  | h p pn d l r a b ihl ihr =>
    intro here depth
    rw [AddPointToKdTreeRec_node, AddPointToKdTreeRec_node point p pn d l r a b []]
    by_cases hgo : axisCoord depth point ≤ axisCoord depth p
    · simp only [if_pos hgo]
      cases l with
      | none => simp
      | some ln =>
        simp only
        rw [ihl ln rfl (here ++ [Side.left]), ihl ln rfl ([] ++ [Side.left])]
        simp
    · simp only [if_neg hgo]
      cases r with
      | none => simp
      | some rn =>
        simp only
        rw [ihr rn rfl (here ++ [Side.right]), ihr rn rfl ([] ++ [Side.right])]
        simp

theorem inserted_node (point : Point) (p : Point) (pn : Option NodeRef) (d : ℚ)
    (l r : Option KdTreeNode) (a b : Int) (depth : Nat) :
    (insertedTree point (KdTreeNode.mk p pn d l r a b) depth,
      insertedRef point (KdTreeNode.mk p pn d l r a b) depth) =
      if axisCoord depth point ≤ axisCoord depth p then
        match l with
        | none => (KdTreeNode.mk p pn d (some (KdTreeNode.ofPoint point)) r a b, [Side.left])
        | some ln =>
          (KdTreeNode.mk p pn d (some (insertedTree point ln (depth + 1))) r a b,
            Side.left :: insertedRef point ln (depth + 1))
      else
        match r with
        | none => (KdTreeNode.mk p pn d l (some (KdTreeNode.ofPoint point)) a b, [Side.right])
        | some rn =>
          (KdTreeNode.mk p pn d l (some (insertedTree point rn (depth + 1))) a b,
            Side.right :: insertedRef point rn (depth + 1)) := by
  unfold insertedTree insertedRef
  rw [Prod.mk.eta, AddPointToKdTreeRec_node]
  by_cases hgo : axisCoord depth point ≤ axisCoord depth p
  · simp only [if_pos hgo]
    cases l with
    | none => simp
    | some ln =>
      simp only
      rw [AddPointToKdTreeRec_here point ln ([] ++ [Side.left])]
      simp
  · simp only [if_neg hgo]
    cases r with
    | none => simp
    | some rn =>
      simp only
      rw [AddPointToKdTreeRec_here point rn ([] ++ [Side.right])]
      simp

theorem inserted_attached (point : Point) (n : KdTreeNode) :
    ∀ depth, Attached point n depth (insertedTree point n depth) (insertedRef point n depth) := by
  induction n using node_induction with
  | h p pn d l r a b ihl ihr =>
    intro depth
    have h := inserted_node point p pn d l r a b depth
    by_cases hgo : axisCoord depth point ≤ axisCoord depth p
    · rw [if_pos hgo] at h
      cases l with
      | none =>
        simp only [Prod.mk.injEq] at h
        rw [h.1, h.2]
        exact Attached.left_here p pn d r a b depth hgo
      | some ln =>
        simp only [Prod.mk.injEq] at h
        rw [h.1, h.2]
        exact Attached.left_below p pn d ln r a b depth _ _ hgo (ihl ln rfl (depth + 1))
    · rw [if_neg hgo] at h
      cases r with
      | none =>
        simp only [Prod.mk.injEq] at h
        rw [h.1, h.2]
        exact Attached.right_here p pn d l a b depth hgo
      | some rn =>
        simp only [Prod.mk.injEq] at h
        rw [h.1, h.2]
        exact Attached.right_below p pn d l rn a b depth _ _ hgo (ihr rn rfl (depth + 1))

theorem getNode_leaf_cons (point : Point) (s : Side) (rest : NodeRef) :
    getNode (some (KdTreeNode.ofPoint point)) (s :: rest) = none := by
  cases s <;> simp [KdTreeNode.ofPoint]

theorem Attached.ne_nil {point : Point} {n n1 : KdTreeNode} {depth : Nat} {rel : NodeRef}
    (h : Attached point n depth n1 rel) : rel ≠ [] := by
  cases h <;> simp

theorem Attached.old_none {point : Point} {n n1 : KdTreeNode} {depth : Nat} {rel : NodeRef}
    (h : Attached point n depth n1 rel) : getNode (some n) rel = none := by
  induction h with
  | left_here => simp
  | right_here => simp
  | left_below p pn d ln r a b depth ln1 rel hgo h ih => simpa using ih
  | right_below p pn d l rn a b depth rn1 rel hgo h ih => simpa using ih

theorem Attached.new_leaf {point : Point} {n n1 : KdTreeNode} {depth : Nat} {rel : NodeRef}
    (h : Attached point n depth n1 rel) : getNode (some n1) rel = some (KdTreeNode.ofPoint point) := by
  induction h with
  | left_here => simp
  | right_here => simp
  | left_below p pn d ln r a b depth ln1 rel hgo h ih => simpa using ih
  | right_below p pn d l rn a b depth rn1 rel hgo h ih => simpa using ih

/-- Every address other than the new one holds the same payload before and after. -/
theorem Attached.frame {point : Point} {n n1 : KdTreeNode} {depth : Nat} {rel : NodeRef}
    (h : Attached point n depth n1 rel) :
    ∀ ref, ref ≠ rel →
      (getNode (some n1) ref).map KdTreeNode.payload =
        (getNode (some n) ref).map KdTreeNode.payload := by
  induction h with
  | left_here p pn d r a b depth hgo =>
    intro ref hne
    cases ref with
    | nil => simp [KdTreeNode.payload, KdTreeNode.point, KdTreeNode.parent_node,
        KdTreeNode.distance, KdTreeNode.trajectory_id, KdTreeNode.submap_index]
    | cons s rest =>
      cases s with
      | left =>
        cases rest with
        | nil => exact absurd rfl hne
        | cons s2 rest2 => simp [getNode_leaf_cons]
      | right => simp
  | right_here p pn d l a b depth hgo =>
    intro ref hne
    cases ref with
    | nil => simp [KdTreeNode.payload, KdTreeNode.point, KdTreeNode.parent_node,
        KdTreeNode.distance, KdTreeNode.trajectory_id, KdTreeNode.submap_index]
    | cons s rest =>
      cases s with
      | right =>
        cases rest with
        | nil => exact absurd rfl hne
        | cons s2 rest2 => simp [getNode_leaf_cons]
      | left => simp
  | left_below p pn d ln r a b depth ln1 rel hgo h ih =>
    intro ref hne
    cases ref with
    | nil => simp [KdTreeNode.payload, KdTreeNode.point, KdTreeNode.parent_node,
        KdTreeNode.distance, KdTreeNode.trajectory_id, KdTreeNode.submap_index]
    | cons s rest =>
      cases s with
      | left => simpa using ih rest (fun hr => hne (by rw [hr]))
      | right => simp
  | right_below p pn d l rn a b depth rn1 rel hgo h ih =>
    intro ref hne
    cases ref with
    | nil => simp [KdTreeNode.payload, KdTreeNode.point, KdTreeNode.parent_node,
        KdTreeNode.distance, KdTreeNode.trajectory_id, KdTreeNode.submap_index]
    | cons s rest =>
      cases s with
      | right => simpa using ih rest (fun hr => hne (by rw [hr]))
      | left => simp

theorem pointsBelow_leaf (point : Point) :
    pointsBelow (some (KdTreeNode.ofPoint point)) = [point] := by
  simp [KdTreeNode.ofPoint, pointsBelow]

theorem refsBelow_leaf (point : Point) :
    refsBelow (some (KdTreeNode.ofPoint point)) = [[]] := by
  simp [KdTreeNode.ofPoint, refsBelow]

theorem Attached.points_perm {point : Point} {n n1 : KdTreeNode} {depth : Nat} {rel : NodeRef}
    (h : Attached point n depth n1 rel) :
    (pointsBelow (some n1)).Perm (point :: pointsBelow (some n)) := by
  induction h with
  | left_here p pn d r a b depth hgo =>
    simp only [pointsBelow, pointsBelow_leaf, List.nil_append, List.singleton_append]
    exact List.Perm.swap _ _ _
  | right_here p pn d l a b depth hgo =>
    simp only [pointsBelow, pointsBelow_leaf, List.append_nil]
    refine (List.Perm.cons p ?_).trans (List.Perm.swap _ _ _)
    exact List.perm_append_singleton _ _
  | left_below p pn d ln r a b depth ln1 rel hgo h ih =>
    simp only [pointsBelow] at ih ⊢
    refine (List.Perm.cons p ?_).trans (List.Perm.swap _ _ _)
    exact (List.Perm.append_right _ ih)
  | right_below p pn d l rn a b depth rn1 rel hgo h ih =>
    simp only [pointsBelow] at ih ⊢
    refine (List.Perm.cons p ?_).trans (List.Perm.swap _ _ _)
    exact (List.Perm.append_left _ ih).trans List.perm_middle

theorem Attached.refs_perm {point : Point} {n n1 : KdTreeNode} {depth : Nat} {rel : NodeRef}
    (h : Attached point n depth n1 rel) :
    (refsBelow (some n1)).Perm (rel :: refsBelow (some n)) := by
  induction h with
  | left_here p pn d r a b depth hgo =>
    simp only [refsBelow, refsBelow_leaf, List.map_nil, List.map_cons, List.nil_append,
      List.singleton_append]
    exact List.Perm.swap _ _ _
  | right_here p pn d l a b depth hgo =>
    simp only [refsBelow, refsBelow_leaf, List.map_nil, List.map_cons, List.append_nil]
    refine (List.Perm.cons [] ?_).trans (List.Perm.swap _ _ _)
    exact List.perm_append_singleton _ _
  | left_below p pn d ln r a b depth ln1 rel hgo h ih =>
    simp only [refsBelow] at ih ⊢
    refine (List.Perm.cons [] ?_).trans (List.Perm.swap _ _ _)
    have := List.Perm.map (List.cons Side.left) ih
    exact (List.Perm.append_right _ this)
  | right_below p pn d l rn a b depth rn1 rel hgo h ih =>
    simp only [refsBelow] at ih ⊢
    refine (List.Perm.cons [] ?_).trans (List.Perm.swap _ _ _)
    have := List.Perm.map (List.cons Side.right) ih
    exact (List.Perm.append_left _ this).trans List.perm_middle

theorem Attached.mem_points {point : Point} {n n1 : KdTreeNode} {depth : Nat} {rel : NodeRef}
    (h : Attached point n depth n1 rel) (q : Point) :
    q ∈ pointsBelow (some n1) ↔ q = point ∨ q ∈ pointsBelow (some n) := by
  rw [h.points_perm.mem_iff, List.mem_cons]

theorem Attached.invariant {point : Point} {n n1 : KdTreeNode} {depth : Nat} {rel : NodeRef}
    (h : Attached point n depth n1 rel) (hinv : KdInvariant (some n) depth) :
    KdInvariant (some n1) depth := by
  induction h with
  | left_here p pn d r a b depth hgo =>
    rw [KdInvariant_node] at hinv ⊢
    obtain ⟨hL, hR, hIl, hIr⟩ := hinv
    refine ⟨?_, hR, ?_, hIr⟩
    · intro q hq
      rw [pointsBelow_leaf] at hq
      rw [List.mem_singleton.1 hq]
      exact hgo
    · simp [KdTreeNode.ofPoint, KdInvariant, pointsBelow]
  | right_here p pn d l a b depth hgo =>
    rw [KdInvariant_node] at hinv ⊢
    obtain ⟨hL, hR, hIl, hIr⟩ := hinv
    refine ⟨hL, ?_, hIl, ?_⟩
    · intro q hq
      rw [pointsBelow_leaf] at hq
      rw [List.mem_singleton.1 hq]
      exact not_le.1 hgo
    · simp [KdTreeNode.ofPoint, KdInvariant, pointsBelow]
  | left_below p pn d ln r a b depth ln1 rel hgo h ih =>
    rw [KdInvariant_node] at hinv ⊢
    obtain ⟨hL, hR, hIl, hIr⟩ := hinv
    refine ⟨?_, hR, ih hIl, hIr⟩
    intro q hq
    rcases (h.mem_points q).1 hq with rfl | hq
    · exact hgo
    · exact hL q hq
  | right_below p pn d l rn a b depth rn1 rel hgo h ih =>
    rw [KdInvariant_node] at hinv ⊢
    obtain ⟨hL, hR, hIl, hIr⟩ := hinv
    refine ⟨hL, ?_, hIl, ih hIr⟩
    intro q hq
    rcases (h.mem_points q).1 hq with rfl | hq
    · exact not_le.1 hgo
    · exact hR q hq

/-- The new leaf hangs in a formerly empty child slot of a node that was there before. -/
theorem Attached.slot {point : Point} {n n1 : KdTreeNode} {depth : Nat} {rel : NodeRef}
    (h : Attached point n depth n1 rel) :
    ∃ pre s par, rel = pre ++ [s] ∧ getNode (some n) pre = some par ∧ par.child s = none := by
  induction h with
  | left_here p pn d r a b depth hgo =>
    exact ⟨[], Side.left, _, rfl, rfl, rfl⟩
  | right_here p pn d l a b depth hgo =>
    exact ⟨[], Side.right, _, rfl, rfl, rfl⟩
  | left_below p pn d ln r a b depth ln1 rel hgo h ih =>
    obtain ⟨pre, s, par, h1, h2, h3⟩ := ih
    exact ⟨Side.left :: pre, s, par, by simp [h1], by simpa using h2, h3⟩
  | right_below p pn d l rn a b depth rn1 rel hgo h ih =>
    obtain ⟨pre, s, par, h1, h2, h3⟩ := ih
    exact ⟨Side.right :: pre, s, par, by simp [h1], by simpa using h2, h3⟩

/-- Each step of the path to the new leaf goes left exactly when the inserted point is
not beyond the node passed, on the splitting coordinate of that node's depth. -/
theorem Attached.route {point : Point} {n n1 : KdTreeNode} {depth : Nat} {rel : NodeRef}
    (h : Attached point n depth n1 rel) :
    ∀ pre s rest N, rel = pre ++ s :: rest → getNode (some n) pre = some N →
      (s = Side.left ↔
        axisCoord (depth + pre.length) point ≤ axisCoord (depth + pre.length) N.point) := by
  induction h with
  | left_here p pn d r a b depth hgo =>
    intro pre s rest N h1 h2
    cases pre with
    | nil =>
      simp at h1 h2
      subst h2
      simp [h1.1, KdTreeNode.point, hgo]
    | cons s1 pre1 =>
      simp at h1
  | right_here p pn d l a b depth hgo =>
    intro pre s rest N h1 h2
    cases pre with
    | nil =>
      simp at h1 h2
      subst h2
      simp [← h1.1, KdTreeNode.point, hgo]
    | cons s1 pre1 =>
      simp at h1
  | left_below p pn d ln r a b depth ln1 rel hgo h ih =>
    intro pre s rest N h1 h2
    cases pre with
    | nil =>
      simp at h1 h2
      subst h2
      simp [← h1.1, KdTreeNode.point, hgo]
    | cons s1 pre1 =>
      simp at h1
      obtain ⟨rfl, h1⟩ := h1
      have := ih pre1 s rest N h1 (by simpa using h2)
      simpa [Nat.add_assoc, Nat.add_comm 1] using this
  | right_below p pn d l rn a b depth rn1 rel hgo h ih =>
    intro pre s rest N h1 h2
    cases pre with
    | nil =>
      simp at h1 h2
      subst h2
      simp [← h1.1, KdTreeNode.point, hgo]
    | cons s1 pre1 =>
      simp at h1
      obtain ⟨rfl, h1⟩ := h1
      have := ih pre1 s rest N h1 (by simpa using h2)
      simpa [Nat.add_assoc, Nat.add_comm 1] using this

/-! ## Writing the tags of the added node -/

theorem storeIdx_nil (ta tb : Int) (p : Point) (pn : Option NodeRef) (d : ℚ)
    (l r : Option KdTreeNode) (a b : Int) :
    storeIdx ta tb (KdTreeNode.mk p pn d l r a b) [] = KdTreeNode.mk p pn d l r ta tb := by
  simp [storeIdx]

theorem storeIdx_left (ta tb : Int) (p : Point) (pn : Option NodeRef) (d : ℚ)
    (l r : Option KdTreeNode) (a b : Int) (rest : NodeRef) :
    storeIdx ta tb (KdTreeNode.mk p pn d l r a b) (Side.left :: rest) =
      KdTreeNode.mk p pn d (l.map fun ln => storeIdx ta tb ln rest) r a b := by
  cases l <;> simp [storeIdx]

theorem storeIdx_right (ta tb : Int) (p : Point) (pn : Option NodeRef) (d : ℚ)
    (l r : Option KdTreeNode) (a b : Int) (rest : NodeRef) :
    storeIdx ta tb (KdTreeNode.mk p pn d l r a b) (Side.right :: rest) =
      KdTreeNode.mk p pn d l (r.map fun rn => storeIdx ta tb rn rest) a b := by
  cases r <;> simp [storeIdx]

/-- The node at the written address has its tags replaced and keeps everything else. -/
theorem storeIdx_at (ta tb : Int) (n : KdTreeNode) :
    ∀ ref, getNode (some (storeIdx ta tb n ref)) ref =
      (getNode (some n) ref).map (KdTreeNode.withIdx ta tb) := by
  induction n using node_induction with
  | h p pn d l r a b ihl ihr =>
    intro ref
    cases ref with
    | nil => simp [storeIdx_nil, KdTreeNode.withIdx]
    | cons s rest =>
      cases s with
      | left =>
        rw [storeIdx_left]
        cases l with
        | none => simp
        | some ln => simpa using ihl ln rfl rest
      | right =>
        rw [storeIdx_right]
        cases r with
        | none => simp
        | some rn => simpa using ihr rn rfl rest

/-- Every other address holds the same payload before and after the write. -/
theorem storeIdx_frame (ta tb : Int) (n : KdTreeNode) :
    ∀ ref ref1, ref1 ≠ ref →
      (getNode (some (storeIdx ta tb n ref)) ref1).map KdTreeNode.payload =
        (getNode (some n) ref1).map KdTreeNode.payload := by
  induction n using node_induction with
  | h p pn d l r a b ihl ihr =>
    intro ref ref1 hne
    cases ref with
    | nil =>
      rw [storeIdx_nil]
      cases ref1 with
      | nil => exact absurd rfl hne
      | cons s rest => cases s <;> simp
    | cons s rest =>
      cases s with
      | left =>
        rw [storeIdx_left]
        cases ref1 with
        | nil => simp [KdTreeNode.payload, KdTreeNode.point, KdTreeNode.parent_node,
            KdTreeNode.distance, KdTreeNode.trajectory_id, KdTreeNode.submap_index]
        | cons s1 rest1 =>
          cases s1 with
          | right => simp
          | left =>
            cases l with
            | none => simp
            | some ln => simpa using ihl ln rfl rest rest1 (fun h => hne (by rw [h]))
      | right =>
        rw [storeIdx_right]
        cases ref1 with
        | nil => simp [KdTreeNode.payload, KdTreeNode.point, KdTreeNode.parent_node,
            KdTreeNode.distance, KdTreeNode.trajectory_id, KdTreeNode.submap_index]
        | cons s1 rest1 =>
          cases s1 with
          | left => simp
          | right =>
            cases r with
            | none => simp
            | some rn => simpa using ihr rn rfl rest rest1 (fun h => hne (by rw [h]))

theorem storeIdx_points (ta tb : Int) (n : KdTreeNode) :
    ∀ ref, pointsBelow (some (storeIdx ta tb n ref)) = pointsBelow (some n) := by
  induction n using node_induction with
  | h p pn d l r a b ihl ihr =>
    intro ref
    cases ref with
    | nil => simp [storeIdx_nil, pointsBelow]
    | cons s rest =>
      cases s with
      | left =>
        rw [storeIdx_left]
        cases l with
        | none => simp [pointsBelow]
        | some ln =>
          have := ihl ln rfl rest
          simp only [pointsBelow, Option.map_some'] at this ⊢
          rw [this]
      | right =>
        rw [storeIdx_right]
        cases r with
        | none => simp [pointsBelow]
        | some rn =>
          have := ihr rn rfl rest
          simp only [pointsBelow, Option.map_some'] at this ⊢
          rw [this]

theorem storeIdx_refs (ta tb : Int) (n : KdTreeNode) :
    ∀ ref, refsBelow (some (storeIdx ta tb n ref)) = refsBelow (some n) := by
  induction n using node_induction with
  | h p pn d l r a b ihl ihr =>
    intro ref
    cases ref with
    | nil => simp [storeIdx_nil, refsBelow]
    | cons s rest =>
      cases s with
      | left =>
        rw [storeIdx_left]
        cases l with
        | none => simp [refsBelow]
        | some ln =>
          have := ihl ln rfl rest
          simp only [refsBelow, Option.map_some'] at this ⊢
          rw [this]
      | right =>
        rw [storeIdx_right]
        cases r with
        | none => simp [refsBelow]
        | some rn =>
          have := ihr rn rfl rest
          simp only [refsBelow, Option.map_some'] at this ⊢
          rw [this]

theorem storeIdx_invariant (ta tb : Int) (n : KdTreeNode) :
    ∀ ref depth, KdInvariant (some n) depth → KdInvariant (some (storeIdx ta tb n ref)) depth := by
  induction n using node_induction with
  | h p pn d l r a b ihl ihr =>
    intro ref depth hinv
    cases ref with
    | nil =>
      rw [storeIdx_nil]
      rw [KdInvariant_node] at hinv ⊢
      exact hinv
    | cons s rest =>
      rw [KdInvariant_node] at hinv
      obtain ⟨hL, hR, hIl, hIr⟩ := hinv
      cases s with
      | left =>
        rw [storeIdx_left, KdInvariant_node]
        cases l with
        | none => exact ⟨hL, hR, hIl, hIr⟩
        | some ln =>
          refine ⟨?_, hR, ihl ln rfl rest (depth + 1) hIl, hIr⟩
          simp only [Option.map_some']
          rw [storeIdx_points]
          exact hL
      | right =>
        rw [storeIdx_right, KdInvariant_node]
        cases r with
        | none => exact ⟨hL, hR, hIl, hIr⟩
        | some rn =>
          refine ⟨hL, ?_, hIl, ihr rn rfl rest (depth + 1) hIr⟩
          simp only [Option.map_some']
          rw [storeIdx_points]
          exact hR

/-- The searches never read the tags. -/
theorem storeIdx_search (ta tb : Int) (target : Point) (n : KdTreeNode) :
    ∀ ref here st depth,
      SearchKdTreeNode target (some (storeIdx ta tb n ref)) here st depth =
        SearchKdTreeNode target (some n) here st depth := by
  induction n using node_induction with
  | h p pn d l r a b ihl ihr =>
    intro ref here st depth
    cases ref with
    | nil => rw [storeIdx_nil, SearchKdTreeNode_node, SearchKdTreeNode_node]
    | cons s rest =>
      cases s with
      | left =>
        rw [storeIdx_left, SearchKdTreeNode_node, SearchKdTreeNode_node]
        cases l with
        | none => rfl
        | some ln =>
          simp only [Option.map_some']
          simp only [ihl ln rfl rest]
      | right =>
        rw [storeIdx_right, SearchKdTreeNode_node, SearchKdTreeNode_node]
        cases r with
        | none => rfl
        | some rn =>
          simp only [Option.map_some']
          simp only [ihr rn rfl rest]

theorem storeIdx_searchNear (ta tb : Int) (target : Point) (radius : ℚ) (n : KdTreeNode) :
    ∀ ref here acc depth,
      SearchKdTreeNodeNear target (some (storeIdx ta tb n ref)) here acc radius depth =
        SearchKdTreeNodeNear target (some n) here acc radius depth := by
  induction n using node_induction with
  | h p pn d l r a b ihl ihr =>
    intro ref here acc depth
    cases ref with
    | nil => rw [storeIdx_nil, SearchKdTreeNodeNear_node, SearchKdTreeNodeNear_node]
    | cons s rest =>
      cases s with
      | left =>
        rw [storeIdx_left, SearchKdTreeNodeNear_node, SearchKdTreeNodeNear_node]
        cases l with
        | none => rfl
        | some ln =>
          simp only [Option.map_some']
          simp only [ihl ln rfl rest]
      | right =>
        rw [storeIdx_right, SearchKdTreeNodeNear_node, SearchKdTreeNodeNear_node]
        cases r with
        | none => rfl
        | some rn =>
          simp only [Option.map_some']
          simp only [ihr rn rfl rest]

/-! ## Searching for the point just inserted -/

theorem search_leaf (target : Point) (here : NodeRef) (st : NearestState) (depth : Nat)
    (hst : 0 < st.current_cloest_distance2) :
    SearchKdTreeNode target (some (KdTreeNode.ofPoint target)) here st depth =
      ⟨some here, 0⟩ := by
  unfold KdTreeNode.ofPoint
  rw [SearchKdTreeNode_node]
  simp [SearchKdTreeNode, Distance2_self, hst]

/-- Once the best distance is 0, the rest of a node's visit changes nothing. -/
theorem search_up (target p : Point) (here : NodeRef) (st1 other : NearestState) (c : ℚ)
    (h0 : st1.current_cloest_distance2 = 0) :
    (if (if Distance2BetweenPoint target p < st1.current_cloest_distance2
          then (⟨some here, Distance2BetweenPoint target p⟩ : NearestState)
          else st1).current_cloest_distance2 > c * c
      then other
      else (if Distance2BetweenPoint target p < st1.current_cloest_distance2
          then (⟨some here, Distance2BetweenPoint target p⟩ : NearestState)
          else st1)) = st1 := by
  have h1 : ¬ Distance2BetweenPoint target p < st1.current_cloest_distance2 := by
    rw [h0]; exact not_lt.2 (Distance2_nonneg target p)
  rw [if_neg h1, if_neg]
  rw [h0]
  exact not_lt.2 (mul_self_nonneg c)

theorem Attached.search {point : Point} {n n1 : KdTreeNode} {depth : Nat} {rel : NodeRef}
    (h : Attached point n depth n1 rel) :
    ∀ (here : NodeRef) (st : NearestState), 0 < st.current_cloest_distance2 →
      SearchKdTreeNode point (some n1) here st depth = ⟨some (here ++ rel), 0⟩ := by
  induction h with
  | left_here p pn d r a b depth hgo =>
    intro here st hst
    rw [SearchKdTreeNode_node, if_pos hgo, search_leaf point _ st _ hst]
    exact search_up point p here ⟨some (here ++ [Side.left]), 0⟩ _ _ rfl
  | right_here p pn d l a b depth hgo =>
    intro here st hst
    rw [SearchKdTreeNode_node, if_neg hgo, search_leaf point _ st _ hst]
    exact search_up point p here ⟨some (here ++ [Side.right]), 0⟩ _ _ rfl
  | left_below p pn d ln r a b depth ln1 rel hgo h ih =>
    intro here st hst
    rw [SearchKdTreeNode_node, if_pos hgo, ih (here ++ [Side.left]) st hst]
    rw [search_up point p here ⟨some (here ++ [Side.left] ++ rel), 0⟩ _ _ rfl]
    simp
  | right_below p pn d l rn a b depth rn1 rel hgo h ih =>
    intro here st hst
    rw [SearchKdTreeNode_node, if_neg hgo, ih (here ++ [Side.right]) st hst]
    rw [search_up point p here ⟨some (here ++ [Side.right] ++ rel), 0⟩ _ _ rfl]
    simp

/-! ## The two public overloads and the indexes that can be built -/

theorem AddPointToKdTree_eq (t : KdTree) (point : Point) :
    t.AddPointToKdTree point =
      (⟨insertedTree point t.root_ 0⟩, insertedRef point t.root_ 0) := rfl

theorem AddPointToKdTreeIdx_eq (t : KdTree) (point : Point) (ta tb : Int) :
    t.AddPointToKdTreeIdx point ta tb =
      (⟨storeIdx ta tb (insertedTree point t.root_ 0) (insertedRef point t.root_ 0)⟩,
        insertedRef point t.root_ 0) := rfl

theorem insert_root (t : KdTree) (c : InsertCall) :
    (t.insert c).root_ = insertedTree c.point t.root_ 0 ∨
      ∃ ta tb, (t.insert c).root_ =
        storeIdx ta tb (insertedTree c.point t.root_ 0) (insertedRef c.point t.root_ 0) := by
  cases c with
  | plain p => exact Or.inl rfl
  | tagged p a b => exact Or.inr ⟨a, b, rfl⟩

theorem KdInvariant_construct (seed : Option Point) :
    KdInvariant (some (KdTree.construct seed).root_) 0 := by
  cases seed <;>
    simp [KdTree.construct, KdTree.new, KdTree.ofPoint, KdTreeNode.new, KdTreeNode.ofPoint,
      KdInvariant, pointsBelow]

theorem KdInvariant_insert (t : KdTree) (c : InsertCall)
    (h : KdInvariant (some t.root_) 0) : KdInvariant (some (t.insert c).root_) 0 := by
  have hA := (inserted_attached c.point t.root_ 0).invariant h
  rcases insert_root t c with h1 | ⟨ta, tb, h1⟩
  · rw [h1]; exact hA
  · rw [h1]; exact storeIdx_invariant ta tb _ _ 0 hA

theorem KdInvariant_foldl (calls : List InsertCall) :
    ∀ t : KdTree, KdInvariant (some t.root_) 0 →
      KdInvariant (some (calls.foldl KdTree.insert t).root_) 0 := by
  induction calls with
  | nil => intro t h; exact h
  | cons c calls ih => intro t h; exact ih _ (KdInvariant_insert t c h)

theorem KdInvariant_build (seed : Option Point) (calls : List InsertCall) :
    KdInvariant (some (KdTree.build seed calls).root_) 0 :=
  KdInvariant_foldl calls _ (KdInvariant_construct seed)

/-- The candidates of a whole index. -/
theorem below_root (t : KdTree) (ref : NodeRef) (q : Point) :
    Below (some t.root_) [] ref q ↔ ∃ n, t.node ref = some n ∧ n.point = q := by
  constructor
  · rintro ⟨rel, n, h1, h2, h3⟩
    exact ⟨n, by simpa [KdTree.node, h1] using h2, h3⟩
  · rintro ⟨n, h1, h2⟩
    exact ⟨ref, n, by simp, h1, h2⟩

/-- The final state of the pruned nearest search on an index that satisfies the
ordering invariant. -/
theorem nearest_scanned (t : KdTree) (h : KdInvariant (some t.root_) 0) (target : Point) :
    Scanned target (Below (some t.root_) []) ⟨none, DBL_MAX⟩
      (SearchKdTreeNode target (some t.root_) [] ⟨none, DBL_MAX⟩ 0) :=
  SearchKdTreeNode_scanned target (some t.root_) [] ⟨none, DBL_MAX⟩ 0 h

/-- The final state of the breadth-first nearest scan. -/
theorem bruce_scanned (t : KdTree) (target : Point) :
    Scanned target (Below (some t.root_) []) ⟨none, DBL_MAX⟩
      (BruceNearestLoop target [([], t.root_)] ⟨none, DBL_MAX⟩) := by
  have h := BruceNearestLoop_scanned target _ [([], t.root_)] ⟨none, DBL_MAX⟩ (le_refl _)
  obtain ⟨a, b, c⟩ := h
  refine ⟨a, ?_, ?_⟩
  · intro ref q hs
    exact b ref q ⟨_, List.mem_singleton.2 rfl, hs⟩
  · rcases c with c | ⟨ref, q, ⟨e, he, hs⟩, h2⟩
    · exact Or.inl c
    · rw [List.mem_singleton.1 he] at hs
      exact Or.inr ⟨ref, q, hs, h2⟩

/-- What a scan that started from `(nullptr, DBL_MAX)` returns: the null pointer exactly
when no node is closer than `DBL_MAX`, and otherwise a stored node that is closest. -/
theorem Scanned.result {target : Point} {t : KdTree} {st1 : NearestState}
    (h : Scanned target (Below (some t.root_) []) ⟨none, DBL_MAX⟩ st1) :
    (st1.current_nearest_node = none ∧ st1.current_cloest_distance2 = DBL_MAX ∧
      ∀ ref n, t.node ref = some n → DBL_MAX ≤ Distance2BetweenPoint target n.point) ∨
    (∃ ref n, st1.current_nearest_node = some ref ∧ t.node ref = some n ∧
      Distance2BetweenPoint target n.point = st1.current_cloest_distance2 ∧
      st1.current_cloest_distance2 < DBL_MAX ∧
      ∀ ref1 n1, t.node ref1 = some n1 →
        Distance2BetweenPoint target n.point ≤ Distance2BetweenPoint target n1.point) := by
  obtain ⟨a, b, c⟩ := h
  rcases c with rfl | ⟨ref, q, hs, hn, hd, hlt⟩
  · left
    refine ⟨rfl, rfl, ?_⟩
    intro ref n hn
    exact b ref n.point ((below_root t ref n.point).2 ⟨n, hn, rfl⟩)
  · right
    obtain ⟨n, hn1, rfl⟩ := (below_root t ref q).1 hs
    refine ⟨ref, n, hn, hn1, hd, hlt, ?_⟩
    intro ref1 n1 hn1
    rw [hd]
    exact b ref1 n1.point ((below_root t ref1 n1.point).2 ⟨n1, hn1, rfl⟩)

/-! ## The public queries on an index built through the interface -/

/-- The pruned range search reports exactly the stored nodes in range, on every index that
satisfies the ordering invariant. -/
theorem NearKdTreeNode_mem (t : KdTree) (h : KdInvariant (some t.root_) 0) (target : Point)
    (radius : ℚ) (ref : NodeRef) :
    ref ∈ t.NearKdTreeNode target radius ↔
      ∃ n, t.node ref = some n ∧ Distance2BetweenPoint target n.point < radius * radius := by
  unfold KdTree.NearKdTreeNode
  rw [SearchKdTreeNodeNear_mem target (radius * radius) (some t.root_) [] [] 0 h ref]
  constructor
  · rintro (h1 | ⟨rel, n, h1, h2, h3⟩)
    · simp at h1
    · exact ⟨n, by simpa [KdTree.node, h1] using h2, h3⟩
  · rintro ⟨n, h1, h2⟩
    exact Or.inr ⟨ref, n, by simp, h1, h2⟩

/-- The breadth-first range scan reports exactly the stored nodes whose squared distance
is below its second argument. -/
theorem BruceNearKdTreeNode_mem (t : KdTree) (target : Point) (radius : ℚ) (ref : NodeRef) :
    ref ∈ t.BruceNearKdTreeNode target radius ↔
      ∃ n, t.node ref = some n ∧ Distance2BetweenPoint target n.point < radius := by
  unfold KdTree.BruceNearKdTreeNode
  rw [BruceNearLoop_mem target radius _ [([], t.root_)] [] (le_refl _) ref]
  constructor
  · rintro (h1 | ⟨e, he, rel, n, h1, h2, h3⟩)
    · simp at h1
    · rw [List.mem_singleton.1 he] at h1 h2
      exact ⟨n, by simpa [KdTree.node, h1] using h2, h3⟩
  · rintro ⟨n, h1, h2⟩
    exact Or.inr ⟨_, List.mem_singleton.2 rfl, ref, n, by simp, h1, h2⟩

/-- Whenever some stored node is closer than `DBL_MAX`, the pruned nearest search returns a
stored node that no stored node beats. -/
theorem NearestKdTreeNode_minimal (seed : Option Point) (calls : List InsertCall)
    (target : Point) (ref0 : NodeRef) (n0 : KdTreeNode)
    (h0 : (KdTree.build seed calls).node ref0 = some n0)
    (hlt : Distance2BetweenPoint target n0.point < DBL_MAX) :
    ∃ ref n, (KdTree.build seed calls).NearestKdTreeNode target = some ref ∧
      (KdTree.build seed calls).node ref = some n ∧
      ∀ ref1 n1, (KdTree.build seed calls).node ref1 = some n1 →
        Distance2BetweenPoint target n.point ≤ Distance2BetweenPoint target n1.point := by
  rcases (nearest_scanned _ (KdInvariant_build seed calls) target).result with
    ⟨-, -, h⟩ | ⟨ref, n, h1, h2, -, -, h3⟩
  · exact absurd hlt (not_lt.2 (h ref0 n0 h0))
  · exact ⟨ref, n, h1, h2, h3⟩

/-- The pruned range search and the breadth-first scan agree as sets once the scan is given
the squared radius. -/
theorem NearKdTreeNode_iff_Bruce_squared (seed : Option Point) (calls : List InsertCall)
    (target : Point) (radius : ℚ) (ref : NodeRef) :
    ref ∈ (KdTree.build seed calls).NearKdTreeNode target radius ↔
      ref ∈ (KdTree.build seed calls).BruceNearKdTreeNode target (radius * radius) := by
  rw [NearKdTreeNode_mem _ (KdInvariant_build seed calls), BruceNearKdTreeNode_mem]

theorem scenario_root :
    scenario.root_ =
      KdTreeNode.mk ⟨0, 0, 0⟩ none 0
        (some (KdTreeNode.mk ⟨0, 5, 0⟩ none 0 none none 0 0))
        (some (KdTreeNode.mk ⟨1, 1, 0⟩ none 0 none
          (some (KdTreeNode.mk ⟨2, 2, 0⟩ none 0 none none 0 0)) 0 0)) 0 0 := by
  simp [scenario, KdTree.build, KdTree.construct, KdTree.ofPoint, KdTree.insert, KdTree.call,
    KdTree.AddPointToKdTree, AddPointToKdTreeRec, KdTreeNode.ofPoint]

/-- The example of the contract: in the concrete scenario the node nearest to (1.1, 1.2, 0)
is the one at (1,1,0), the right child of the root. -/
theorem scenario_nearest :
    scenario.NearestKdTreeNode ⟨11 / 10, 12 / 10, 0⟩ = some [Side.right] ∧
      (scenario.node [Side.right]).map KdTreeNode.point = some ⟨1, 1, 0⟩ := by
  constructor
  · simp only [KdTree.NearestKdTreeNode, scenario_root]
    norm_num [SearchKdTreeNode, Distance2BetweenPoint, DBL_MAX]
  · simp [KdTree.node, scenario_root, KdTreeNode.point]

/-- Membership in the result of the pruned range search, on an index built through the
interface. -/
theorem range_query_exact_aux (seed : Option Point) (calls : List InsertCall) (target : Point)
    (radius : ℚ) (ref : NodeRef) :
    ref ∈ (KdTree.build seed calls).NearKdTreeNode target radius ↔
      ∃ n, (KdTree.build seed calls).node ref = some n ∧
        Distance2BetweenPoint target n.point < radius * radius :=
  NearKdTreeNode_mem _ (KdInvariant_build seed calls) target radius ref

/-! ## Claims C1 to C10

C2, C3 and C6 rest on the outcome of `distance2 < radius` at arbitrary coordinates; they
are stated with the contracts of the searches in double arithmetic. -/

/-- C1 (evaluation at the failing input): the scenario index stores four nodes, the
target (2^600, 0, 0) is a finite point, and `NearestKdTreeNode` returns the null pointer for
it instead of a stored node of least squared distance: no squared distance is below
`DBL_MAX`, so the best-so-far is never replaced. -/
theorem nearest_far_target_scenario :
    scenario.refs.length = 4 ∧ scenario.NearestKdTreeNode ⟨2 ^ 600, 0, 0⟩ = none := by
  constructor
  · simp [KdTree.refs, scenario_root, refsBelow]
  · simp only [KdTree.NearestKdTreeNode, scenario_root]
    norm_num [SearchKdTreeNode, Distance2BetweenPoint, DBL_MAX]

/-- C4 (evaluation at the failing input): in the concrete scenario, with target (1,1,0)
and the same radius argument 2, `NearKdTreeNode` returns the three nodes at squared
distance below 4 (the root, (1,1,0) and (2,2,0)) while `BruceNearKdTreeNode` compares with
the unsquared 2 and returns only the node (1,1,0). -/
theorem range_query_vs_bruce_scenario :
    scenario.NearKdTreeNode ⟨1, 1, 0⟩ 2 = [[], [Side.right], [Side.right, Side.right]] ∧
      scenario.BruceNearKdTreeNode ⟨1, 1, 0⟩ 2 = [[Side.right]] := by
  constructor
  · simp only [KdTree.NearKdTreeNode, scenario_root]
    norm_num [SearchKdTreeNodeNear, Distance2BetweenPoint]
  · simp only [KdTree.BruceNearKdTreeNode, scenario_root]
    norm_num [BruceNearLoop, pushChildren, Distance2BetweenPoint]

theorem call_ref (t : KdTree) (c : InsertCall) :
    (t.call c).2 = insertedRef c.point t.root_ 0 := by
  cases c <;> rfl

theorem call_plain_root (t : KdTree) (p : Point) :
    (t.call (InsertCall.plain p)).1.root_ = insertedTree p t.root_ 0 := rfl

theorem call_tagged_root (t : KdTree) (p : Point) (ta tb : Int) :
    (t.call (InsertCall.tagged p ta tb)).1.root_ =
      storeIdx ta tb (insertedTree p t.root_ 0) (insertedRef p t.root_ 0) := rfl

/-- The search for the point just inserted ends at the node just created. -/
theorem nearest_after_call (t : KdTree) (c : InsertCall) :
    (t.insert c).NearestKdTreeNode c.point = some (t.call c).2 := by
  have hA := inserted_attached c.point t.root_ 0
  have hs := hA.search [] ⟨none, DBL_MAX⟩ DBL_MAX_pos
  rw [call_ref]
  unfold KdTree.NearestKdTreeNode KdTree.insert
  cases c with
  | plain p =>
    rw [call_plain_root]
    simp only [InsertCall.point] at hs ⊢
    rw [hs]
    simp
  | tagged p a b =>
    rw [call_tagged_root, storeIdx_search]
    simp only [InsertCall.point] at hs ⊢
    rw [hs]
    simp

/-- The node a call of `Insert` creates, as found in the index afterwards. -/
theorem node_after_call (t : KdTree) (c : InsertCall) :
    (t.insert c).node (t.call c).2 =
      some (match c with
        | InsertCall.plain p => KdTreeNode.ofPoint p
        | InsertCall.tagged p ta tb => KdTreeNode.ofPointIdx p ta tb) := by
  have hA := inserted_attached c.point t.root_ 0
  rw [call_ref]
  unfold KdTree.node KdTree.insert
  cases c with
  | plain p =>
    rw [call_plain_root]
    exact hA.new_leaf
  | tagged p a b =>
    rw [call_tagged_root]
    simp only [InsertCall.point] at hA ⊢
    rw [storeIdx_at, hA.new_leaf]
    rfl

/-- Every address other than the returned one holds the same payload (point, parent
reference, distance field and both tags) before and after a call of `Insert`. -/
theorem frame_after_call (t : KdTree) (c : InsertCall) (ref : NodeRef)
    (hne : ref ≠ (t.call c).2) :
    ((t.insert c).node ref).map KdTreeNode.payload = (t.node ref).map KdTreeNode.payload := by
  have hA := inserted_attached c.point t.root_ 0
  rw [call_ref] at hne
  unfold KdTree.node KdTree.insert
  cases c with
  | plain p =>
    rw [call_plain_root]
    exact hA.frame ref hne
  | tagged p a b =>
    rw [call_tagged_root]
    simp only [InsertCall.point] at hA hne ⊢
    rw [storeIdx_frame a b _ _ ref hne]
    exact hA.frame ref hne

theorem points_after_call (t : KdTree) (c : InsertCall) :
    (t.insert c).points.Perm (c.point :: t.points) := by
  have hA := inserted_attached c.point t.root_ 0
  unfold KdTree.points KdTree.insert
  cases c with
  | plain p =>
    rw [call_plain_root]
    exact hA.points_perm
  | tagged p a b =>
    rw [call_tagged_root, storeIdx_points]
    exact hA.points_perm

theorem refs_after_call (t : KdTree) (c : InsertCall) :
    (t.insert c).refs.Perm ((t.call c).2 :: t.refs) := by
  have hA := inserted_attached c.point t.root_ 0
  rw [call_ref]
  unfold KdTree.refs KdTree.insert
  cases c with
  | plain p =>
    rw [call_plain_root]
    exact hA.refs_perm
  | tagged p a b =>
    rw [call_tagged_root, storeIdx_refs]
    exact hA.refs_perm

/-- C5: on every index built by construction and `Insert` calls, inserting a point and then
asking for the node nearest to that point returns a stored node whose point is the inserted
one (all three coordinates) and whose squared distance to it is exactly 0. This holds for
every inserted point, the origin included. -/
theorem insert_then_nearest (seed : Option Point) (calls : List InsertCall) (c : InsertCall) :
    ∃ ref n, ((KdTree.build seed calls).insert c).NearestKdTreeNode c.point = some ref ∧
      ((KdTree.build seed calls).insert c).node ref = some n ∧ n.point = c.point ∧
      Distance2BetweenPoint c.point n.point = 0 := by
  refine ⟨_, _, nearest_after_call _ c, node_after_call _ c, ?_, ?_⟩
  · cases c <;> rfl
  · cases c <;> exact Distance2_self _

/-- C7 (evaluation at the failing input): on the pristine index, whose root exists, and on
an index seeded at (1,1,0), `NearestKdTreeNode` returns the null pointer for the finite
target (2^600, 0, 0): the root's squared distance is not below `DBL_MAX`, so the null
pointer the search starts with is never replaced. -/
theorem nearest_null_despite_root :
    KdTree.new.NearestKdTreeNode ⟨2 ^ 600, 0, 0⟩ = none ∧
      (KdTree.ofPoint ⟨1, 1, 0⟩).NearestKdTreeNode ⟨2 ^ 600, 0, 0⟩ = none := by
  constructor
  · simp only [KdTree.NearestKdTreeNode, KdTree.new, KdTreeNode.new]
    norm_num [SearchKdTreeNode, Distance2BetweenPoint, DBL_MAX]
  · simp only [KdTree.NearestKdTreeNode, KdTree.ofPoint, KdTreeNode.ofPoint]
    norm_num [SearchKdTreeNode, Distance2BetweenPoint, DBL_MAX]

theorem payload_after_call (t : KdTree) (c : InsertCall) (ref : NodeRef) :
    ((t.insert c).node ref).map KdTreeNode.payload =
      if ref = (t.call c).2 then
        some (c.point, none, 0, c.trajectory_idx, c.submap_idx)
      else (t.node ref).map KdTreeNode.payload := by
  by_cases h : ref = (t.call c).2
  · rw [if_pos h, h, node_after_call]
    cases c <;> rfl
  · rw [if_neg h, frame_after_call t c ref h]

theorem slot_before_call (t : KdTree) (c : InsertCall) :
    t.node (t.call c).2 = none ∧
      ∃ pre s par, (t.call c).2 = pre ++ [s] ∧ t.node pre = some par ∧ par.child s = none := by
  have hA := inserted_attached c.point t.root_ 0
  rw [call_ref]
  exact ⟨hA.old_none, hA.slot⟩

/-- C8: on every index, a call of `Insert` (either overload, duplicates included) attaches
exactly one new node as a leaf in a formerly empty child slot of a node that was there
before: the returned address held no node, afterwards it holds a childless node, every
other address holds the same payload (point, parent reference, distance field, tags) as
before, or no node as before, the node count grows by exactly 1, and the stored points
are the old ones plus the inserted point. -/
theorem insert_attaches_one_leaf (t : KdTree) (c : InsertCall) :
    t.node (t.call c).2 = none ∧
      (∃ pre s par, (t.call c).2 = pre ++ [s] ∧ t.node pre = some par ∧ par.child s = none) ∧
      (∃ n, (t.insert c).node (t.call c).2 = some n ∧ n.point = c.point ∧
        n.left_node = none ∧ n.right_node = none) ∧
      (∀ ref, ((t.insert c).node ref).map KdTreeNode.payload =
        if ref = (t.call c).2 then some (c.point, none, 0, c.trajectory_idx, c.submap_idx)
        else (t.node ref).map KdTreeNode.payload) ∧
      (t.insert c).refs.length = t.refs.length + 1 ∧
      (t.insert c).points.Perm (c.point :: t.points) := by
  refine ⟨(slot_before_call t c).1, (slot_before_call t c).2, ?_, payload_after_call t c, ?_,
    points_after_call t c⟩
  · refine ⟨_, node_after_call t c, ?_⟩
    cases c <;> exact ⟨rfl, rfl, rfl⟩
  · rw [(refs_after_call t c).length_eq, List.length_cons]

/-- The recursive form of the invariant gives the worded form at every node. -/
theorem KdInvariant.at_node (pre : NodeRef) :
    ∀ (cur : Option KdTreeNode) (depth : Nat) (N : KdTreeNode), KdInvariant cur depth →
      getNode cur pre = some N →
      (∀ q ∈ pointsBelow N.left_node,
        axisCoord (depth + pre.length) q ≤ axisCoord (depth + pre.length) N.point) ∧
      (∀ q ∈ pointsBelow N.right_node,
        axisCoord (depth + pre.length) N.point < axisCoord (depth + pre.length) q) := by
  induction pre with
  | nil =>
    intro cur depth N hinv hN
    simp at hN
    subst hN
    obtain ⟨p, pn, d, l, r, a, b⟩ := N
    rw [KdInvariant_node] at hinv
    exact ⟨hinv.1, hinv.2.1⟩
  | cons s rest ih =>
    intro cur depth N hinv hN
    cases cur with
    | none => simp at hN
    | some n =>
      obtain ⟨p, pn, d, l, r, a, b⟩ := n
      rw [KdInvariant_node] at hinv
      have hlen : depth + (s :: rest).length = depth + 1 + rest.length := by
        simp [Nat.add_assoc, Nat.add_comm 1]
      rw [hlen]
      cases s with
      | left => exact ih l (depth + 1) N hinv.2.2.1 (by simpa using hN)
      | right => exact ih r (depth + 1) N hinv.2.2.2 (by simpa using hN)

theorem ordered_of_invariant (t : KdTree) (h : KdInvariant (some t.root_) 0) : t.Ordered := by
  intro pre N hN
  have := KdInvariant.at_node pre (some t.root_) 0 N h hN
  simp only [Nat.zero_add] at this
  constructor
  · intro rel m hm
    exact this.1 m.point ((mem_pointsBelow _ _).2 ⟨rel, m, hm, rfl⟩)
  · intro rel m hm
    exact this.2 m.point ((mem_pointsBelow _ _).2 ⟨rel, m, hm, rfl⟩)

/-- The route of an insertion: at every node passed on the way to the new leaf, the path
continues to the left exactly when the inserted point is not beyond that node on the
splitting coordinate of its depth. -/
theorem route_of_call (t : KdTree) (c : InsertCall) (pre : NodeRef) (s : Side)
    (rest : NodeRef) (N : KdTreeNode) (href : (t.call c).2 = pre ++ s :: rest)
    (hN : t.node pre = some N) :
    s = Side.left ↔ axisCoord pre.length c.point ≤ axisCoord pre.length N.point := by
  have hA := inserted_attached c.point t.root_ 0
  rw [call_ref] at href
  simpa using hA.route pre s rest N href hN

/-- The worded form of the invariant gives the recursive form. -/
theorem invariant_of_ordered_below (cur : Option KdTreeNode) :
    ∀ depth : Nat,
      (∀ (pre : NodeRef) (N : KdTreeNode), getNode cur pre = some N →
        (∀ rel m, getNode N.left_node rel = some m →
          axisCoord (depth + pre.length) m.point ≤ axisCoord (depth + pre.length) N.point) ∧
        (∀ rel m, getNode N.right_node rel = some m →
          axisCoord (depth + pre.length) N.point < axisCoord (depth + pre.length) m.point)) →
      KdInvariant cur depth := by
  induction cur using ptr_induction with
  | hnull => intro depth _; simp [KdInvariant]
  | hnode p pn d l r a b ihl ihr =>
    intro depth h
    rw [KdInvariant_node]
    have h0 := h [] _ rfl
    refine ⟨?_, ?_, ihl (depth + 1) ?_, ihr (depth + 1) ?_⟩
    · intro q hq
      obtain ⟨rel, m, hm, rfl⟩ := (mem_pointsBelow l q).1 hq
      exact h0.1 rel m hm
    · intro q hq
      obtain ⟨rel, m, hm, rfl⟩ := (mem_pointsBelow r q).1 hq
      exact h0.2 rel m hm
    · intro pre N hN
      have := h (Side.left :: pre) N (by simpa using hN)
      simpa [Nat.add_assoc, Nat.add_comm 1] using this
    · intro pre N hN
      have := h (Side.right :: pre) N (by simpa using hN)
      simpa [Nat.add_assoc, Nat.add_comm 1] using this

theorem invariant_of_ordered (t : KdTree) (h : t.Ordered) : KdInvariant (some t.root_) 0 := by
  refine invariant_of_ordered_below (some t.root_) 0 ?_
  intro pre N hN
  simpa using h pre N hN

/-- The ordering invariant holds on every index built by construction and `Insert` calls. -/
theorem build_ordered (seed : Option Point) (calls : List InsertCall) :
    (KdTree.build seed calls).Ordered :=
  ordered_of_invariant _ (KdInvariant_build seed calls)

/-- C9: the alternating-axis ordering invariant (for every node `N` at depth `d`, the nodes of
its left subtree are not beyond `N` on the splitting coordinate of depth `d` and the nodes
of its right subtree are strictly beyond it) holds on a freshly constructed index and is
preserved by every `Insert`; and when the inserted point ties a node on its way on that
node's splitting coordinate, the way continues into that node's left subtree. -/
theorem ordering_invariant_maintained (seed : Option Point) (t : KdTree) (c : InsertCall)
    (h : t.Ordered) :
    (KdTree.construct seed).Ordered ∧ (t.insert c).Ordered ∧
      ∀ (pre : NodeRef) (s : Side) (rest : NodeRef) (N : KdTreeNode),
        (t.call c).2 = pre ++ s :: rest → t.node pre = some N →
        axisCoord pre.length c.point = axisCoord pre.length N.point → s = Side.left := by
  refine ⟨ordered_of_invariant _ (KdInvariant_construct seed),
    ordered_of_invariant _ (KdInvariant_insert _ c (invariant_of_ordered t h)), ?_⟩
  intro pre s rest N href hN htie
  exact (route_of_call _ c pre s rest N href hN).2 (le_of_eq htie)

/-- Witness of C9: the index seeded at (0,0,0) is ordered; inserting (0,7,0), which ties the
root on x, keeps it ordered and attaches the new node in the root's left slot. -/
theorem ordering_invariant_maintained_witness :
    ((KdTree.construct (some ⟨0, 0, 0⟩)).Ordered ∧
      ((KdTree.construct (some ⟨0, 0, 0⟩)).call (InsertCall.plain ⟨0, 7, 0⟩)).2 =
        [] ++ Side.left :: [] ∧
      (KdTree.construct (some ⟨0, 0, 0⟩)).node [] = some (KdTreeNode.ofPoint ⟨0, 0, 0⟩) ∧
      axisCoord ([] : NodeRef).length (InsertCall.plain ⟨0, 7, 0⟩).point =
        axisCoord ([] : NodeRef).length (KdTreeNode.ofPoint ⟨0, 0, 0⟩).point) ∧
      ((KdTree.construct (some ⟨0, 0, 0⟩)).insert (InsertCall.plain ⟨0, 7, 0⟩)).Ordered ∧
      Side.left = Side.left :=
  have h0 : (KdTree.construct (some ⟨0, 0, 0⟩)).Ordered :=
    ordered_of_invariant _ (KdInvariant_construct _)
  have href : ((KdTree.construct (some ⟨0, 0, 0⟩)).call (InsertCall.plain ⟨0, 7, 0⟩)).2 =
      [] ++ Side.left :: [] := by
    simp [KdTree.construct, KdTree.ofPoint, KdTree.call,
      KdTree.AddPointToKdTree, AddPointToKdTreeRec, KdTreeNode.ofPoint]
  have hN : (KdTree.construct (some ⟨0, 0, 0⟩)).node [] = some (KdTreeNode.ofPoint ⟨0, 0, 0⟩) :=
    rfl
  have htie : axisCoord ([] : NodeRef).length (InsertCall.plain ⟨0, 7, 0⟩).point =
      axisCoord ([] : NodeRef).length (KdTreeNode.ofPoint ⟨0, 0, 0⟩).point := by
    simp [axisCoord, InsertCall.point, KdTreeNode.ofPoint, KdTreeNode.point]
  ⟨⟨h0, href, hN, htie⟩,
    (ordering_invariant_maintained (some ⟨0, 0, 0⟩) (KdTree.construct (some ⟨0, 0, 0⟩))
      (InsertCall.plain ⟨0, 7, 0⟩) h0).2.1,
    (ordering_invariant_maintained (some ⟨0, 0, 0⟩) (KdTree.construct (some ⟨0, 0, 0⟩))
      (InsertCall.plain ⟨0, 7, 0⟩) h0).2.2
      [] Side.left [] (KdTreeNode.ofPoint ⟨0, 0, 0⟩) href hN htie⟩

/-- C10: on every index, the node returned by `Insert(P, a, b)` stores `P` (all three
coordinates) with tags `a` and `b`, the node returned by `Insert(P)` stores `P` with both
tags 0, in both cases the returned node has no children, and the tag pair at every
other address is what it was before. -/
theorem insert_returns_tagged_leaf (t : KdTree) (p : Point) (a b : Int) :
    (∃ n, (t.AddPointToKdTreeIdx p a b).1.node (t.AddPointToKdTreeIdx p a b).2 = some n ∧
        n.point = p ∧ n.trajectory_id = a ∧ n.submap_index = b ∧
        n.left_node = none ∧ n.right_node = none) ∧
      (∃ n, (t.AddPointToKdTree p).1.node (t.AddPointToKdTree p).2 = some n ∧
        n.point = p ∧ n.trajectory_id = 0 ∧ n.submap_index = 0 ∧
        n.left_node = none ∧ n.right_node = none) ∧
      (∀ ref, ((t.AddPointToKdTreeIdx p a b).1.node ref).map KdTreeNode.tags =
        if ref = (t.AddPointToKdTreeIdx p a b).2 then some (a, b)
        else (t.node ref).map KdTreeNode.tags) ∧
      (∀ ref, ((t.AddPointToKdTree p).1.node ref).map KdTreeNode.tags =
        if ref = (t.AddPointToKdTree p).2 then some (0, 0)
        else (t.node ref).map KdTreeNode.tags) := by
  have tags_of : ∀ (x y : Option KdTreeNode),
      x.map KdTreeNode.payload = y.map KdTreeNode.payload →
      x.map KdTreeNode.tags = y.map KdTreeNode.tags := by
    intro x y h
    cases x <;> cases y <;> simp [KdTreeNode.payload, KdTreeNode.tags] at h ⊢
    exact ⟨h.2.2.2.1, h.2.2.2.2⟩
  refine ⟨⟨_, node_after_call t (InsertCall.tagged p a b), rfl, rfl, rfl, rfl, rfl⟩,
    ⟨_, node_after_call t (InsertCall.plain p), rfl, rfl, rfl, rfl, rfl⟩, ?_, ?_⟩
  · intro ref
    by_cases h : ref = (t.AddPointToKdTreeIdx p a b).2
    · rw [if_pos h, h]
      have := node_after_call t (InsertCall.tagged p a b)
      simp only [KdTree.insert, KdTree.call] at this
      rw [this]
      rfl
    · rw [if_neg h]
      exact tags_of _ _ (frame_after_call t (InsertCall.tagged p a b) ref h)
  · intro ref
    by_cases h : ref = (t.AddPointToKdTree p).2
    · rw [if_pos h, h]
      have := node_after_call t (InsertCall.plain p)
      simp only [KdTree.insert, KdTree.call] at this
      rw [this]
      rfl
    · rw [if_neg h]
      exact tags_of _ _ (frame_after_call t (InsertCall.plain p) ref h)

/-! ## Claims C11 to C20

C19 is stated with the contracts of the searches in double arithmetic. -/

/-- On the pristine index the nearest search returns the root for every target whose
squared distance to the origin is below `DBL_MAX`. -/
theorem nearest_pristine_root (target : Point)
    (h : Distance2BetweenPoint target ⟨0, 0, 0⟩ < DBL_MAX) :
    KdTree.new.NearestKdTreeNode target = some [] := by
  simp only [KdTree.NearestKdTreeNode, KdTree.new, KdTreeNode.new]
  rw [SearchKdTreeNode_node]
  simp [SearchKdTreeNode, h]

/-- C11 (evaluation at the failing input): the index constructed without a seed has exactly
one node, the root, storing (0,0,0) with both tags 0 and no children, and the index
constructed with a seed has a single root storing the seed with tags 0; but for the finite
target (-2^600, 2^600, 0) `NearestKdTreeNode` on the pristine index returns the null pointer,
not the root. -/
theorem pristine_index_and_far_target (start_point : Point) :
    KdTree.new.refs = [[]] ∧
      KdTree.new.node [] = some (KdTreeNode.mk ⟨0, 0, 0⟩ none 0 none none 0 0) ∧
      (KdTree.ofPoint start_point).refs = [[]] ∧
      (KdTree.ofPoint start_point).node [] =
        some (KdTreeNode.mk start_point none 0 none none 0 0) ∧
      KdTree.new.NearestKdTreeNode ⟨-(2 ^ 600), 2 ^ 600, 0⟩ = none := by
  refine ⟨?_, rfl, ?_, rfl, ?_⟩
  · simp [KdTree.refs, KdTree.new, KdTreeNode.new, refsBelow]
  · simp [KdTree.refs, KdTree.ofPoint, KdTreeNode.ofPoint, refsBelow]
  simp only [KdTree.NearestKdTreeNode, KdTree.new, KdTreeNode.new]
  norm_num [SearchKdTreeNode, Distance2BetweenPoint, DBL_MAX]

/-- C12 (counterexample): in the concrete scenario `NearKdTreeNode((1,1,0), 2)` does not
return exactly the nodes at (1,1,0) and (2,2,0): the root, which stores the seed (0,0,0) at
squared distance 2 < 4, is returned as well. -/
theorem scenario_range_not_two_nodes :
    ¬ (∀ ref, ref ∈ scenario.NearKdTreeNode ⟨1, 1, 0⟩ 2 ↔
        ref = [Side.right] ∨ ref = [Side.right, Side.right]) := by
  intro h
  have h1 : ([] : NodeRef) ∈ scenario.NearKdTreeNode ⟨1, 1, 0⟩ 2 := by
    simp only [KdTree.NearKdTreeNode, scenario_root]
    norm_num [SearchKdTreeNodeNear, Distance2BetweenPoint]
  rcases (h []).1 h1 with h2 | h2 <;> cases h2

/-- C12 (amended): in the concrete scenario `NearKdTreeNode((1,1,0), 2)` returns exactly
three nodes, the ones storing (0,0,0), (1,1,0) and (2,2,0). -/
theorem scenario_range_three_nodes :
    (scenario.NearKdTreeNode ⟨1, 1, 0⟩ 2).map (fun ref => (scenario.node ref).map KdTreeNode.point) =
      [some ⟨0, 0, 0⟩, some ⟨1, 1, 0⟩, some ⟨2, 2, 0⟩] ∧
      (scenario.NearKdTreeNode ⟨1, 1, 0⟩ 2).Nodup := by
  have h : scenario.NearKdTreeNode ⟨1, 1, 0⟩ 2 = [[], [Side.right], [Side.right, Side.right]] := by
    simp only [KdTree.NearKdTreeNode, scenario_root]
    norm_num [SearchKdTreeNodeNear, Distance2BetweenPoint]
  rw [h]
  constructor
  · simp [KdTree.node, scenario_root, KdTreeNode.point]
  · decide

/-- C13 (evaluation at the failing input): in the concrete scenario, for target (0,0,0) and
radius 3, `BruceNearKdTreeNode` returns only the root and the node (1,1,0), whose squared
distances 0 and 2 are below 3; the node (2,2,0), at squared distance 8 < 3 * 3, is
stored and is not returned. -/
theorem bruce_range_unsquared_scenario :
    scenario.BruceNearKdTreeNode ⟨0, 0, 0⟩ 3 = [[], [Side.right]] ∧
      (scenario.node [Side.right, Side.right]).map
        (fun n => Distance2BetweenPoint ⟨0, 0, 0⟩ n.point) = some 8 ∧
      (8 : ℚ) < 3 * 3 := by
  refine ⟨?_, ?_, by norm_num⟩
  · simp only [KdTree.BruceNearKdTreeNode, scenario_root]
    norm_num [BruceNearLoop, pushChildren, Distance2BetweenPoint]
  · simp only [KdTree.node, scenario_root]
    norm_num [KdTreeNode.point, Distance2BetweenPoint]

/-- C14 (evaluation at the failing input): in the concrete scenario, which stores four
nodes, `BruceNearestKdTreeNode` returns the null pointer for the finite target
(0, -2^600, 0) instead of a node of least squared distance. -/
theorem bruce_nearest_far_target_scenario :
    scenario.refs.length = 4 ∧ scenario.BruceNearestKdTreeNode ⟨0, -(2 ^ 600), 0⟩ = none := by
  constructor
  · simp [KdTree.refs, scenario_root, refsBelow]
  · simp only [KdTree.BruceNearestKdTreeNode, scenario_root]
    norm_num [BruceNearestLoop, pushChildren, Distance2BetweenPoint, DBL_MAX]

/-- Whenever some stored node is closer than `DBL_MAX`, the breadth-first scan returns a
stored node that no stored node beats. -/
theorem BruceNearestKdTreeNode_minimal (t : KdTree) (target : Point) (ref0 : NodeRef)
    (n0 : KdTreeNode) (h0 : t.node ref0 = some n0)
    (hlt : Distance2BetweenPoint target n0.point < DBL_MAX) :
    ∃ ref n, t.BruceNearestKdTreeNode target = some ref ∧ t.node ref = some n ∧
      ∀ ref1 n1, t.node ref1 = some n1 →
        Distance2BetweenPoint target n.point ≤ Distance2BetweenPoint target n1.point := by
  rcases (bruce_scanned t target).result with ⟨-, -, h⟩ | ⟨ref, n, h1, h2, -, -, h3⟩
  · exact absurd hlt (not_lt.2 (h ref0 n0 h0))
  · exact ⟨ref, n, h1, h2, h3⟩

/-! ### The parent back-reference -/

theorem parent_none_construct (seed : Option Point) (ref : NodeRef) :
    ((KdTree.construct seed).node ref).bind KdTreeNode.parent_node = none := by
  cases seed <;> cases ref with
  | nil => rfl
  | cons s rest =>
    cases s <;>
      simp [KdTree.construct, KdTree.new, KdTree.ofPoint, KdTreeNode.new, KdTreeNode.ofPoint,
        KdTree.node]

theorem parent_none_insert (t : KdTree) (c : InsertCall)
    (h : ∀ ref, (t.node ref).bind KdTreeNode.parent_node = none) (ref : NodeRef) :
    ((t.insert c).node ref).bind KdTreeNode.parent_node = none := by
  have hp := payload_after_call t c ref
  have h0 := h ref
  by_cases hr : ref = (t.call c).2
  · rw [if_pos hr] at hp
    cases hx : (t.insert c).node ref with
    | none => rfl
    | some n =>
      rw [hx] at hp
      simp only [Option.map_some', KdTreeNode.payload, Option.some.injEq, Prod.mk.injEq] at hp
      simpa using hp.2.1
  · rw [if_neg hr] at hp
    cases hx : (t.insert c).node ref with
    | none => rfl
    | some n =>
      cases hy : t.node ref with
      | none => rw [hx, hy] at hp; simp at hp
      | some m =>
        rw [hx, hy] at hp
        rw [hy] at h0
        simp only [Option.map_some', KdTreeNode.payload, Option.some.injEq, Prod.mk.injEq] at hp
        have h1 : m.parent_node = none := h0
        show n.parent_node = none
        rw [hp.2.1, h1]

theorem parent_none_foldl (calls : List InsertCall) :
    ∀ t : KdTree, (∀ ref, (t.node ref).bind KdTreeNode.parent_node = none) →
      ∀ ref, ((calls.foldl KdTree.insert t).node ref).bind KdTreeNode.parent_node = none := by
  induction calls with
  | nil => intro t h; exact h
  | cons c calls ih => intro t h; exact ih _ (parent_none_insert t c h)

/-- C17 (counterexample): after one insertion into the pristine index the parent references
are not consistent with the tree: the new node is the right child of the root, and its
parent reference is absent instead of designating the root. -/
theorem parent_reference_not_kept :
    ¬ (KdTree.build none [InsertCall.plain ⟨1, 1, 0⟩]).ParentConsistent := by
  intro h
  have h1 := h.2 [] Side.right (KdTreeNode.ofPoint ⟨1, 1, 0⟩)
    (by norm_num [KdTree.build, KdTree.construct, KdTree.new, KdTreeNode.new, KdTree.insert,
      KdTree.call, KdTree.AddPointToKdTree, AddPointToKdTreeRec, KdTree.node])
  simp [KdTreeNode.ofPoint, KdTreeNode.parent_node] at h1

/-- C17 (amended): in every index built by construction and `Insert` calls the parent
reference of every node, the root and the node returned by `Insert` included, is absent:
the constructors set it to null and insertion never assigns it. -/
theorem parent_reference_always_absent (seed : Option Point) (calls : List InsertCall)
    (ref : NodeRef) :
    ((KdTree.build seed calls).node ref).bind KdTreeNode.parent_node = none :=
  parent_none_foldl calls _ (parent_none_construct seed) ref

/-- C18: on every index built by construction and `Insert` calls and for every inserted
point (the seed and stored points included, either overload), the address returned by
`NearestKdTreeNode(P)` right after `Insert(P)` is the address `Insert` returned, which
held no node before the call: the very node just created. -/
theorem nearest_is_created_node (seed : Option Point) (calls : List InsertCall)
    (c : InsertCall) :
    ((KdTree.build seed calls).insert c).NearestKdTreeNode c.point =
        some ((KdTree.build seed calls).call c).2 ∧
      (KdTree.build seed calls).node ((KdTree.build seed calls).call c).2 = none :=
  ⟨nearest_after_call _ c, (slot_before_call _ c).1⟩

/-! ### No node is reported twice -/

theorem visit_append (here : NodeRef) (acc : List NodeRef) (c : Prop) [Decidable c] :
    (if c then acc ++ [here] else acc) = acc ++ (if c then [here] else []) := by
  by_cases h : c <;> simp [h]

/-- The node itself, the nodes found below one child and the nodes found below the other
child are pairwise different. -/
theorem nodup_combine (here : NodeRef) (V LA LB : List NodeRef) (sA sB : Side) (hs : sA ≠ sB)
    (hV : V = [here] ∨ V = []) (hA : LA.Nodup) (hB : LB.Nodup)
    (mA : ∀ ref ∈ LA, ∃ rel, ref = (here ++ [sA]) ++ rel)
    (mB : ∀ ref ∈ LB, ∃ rel, ref = (here ++ [sB]) ++ rel) :
    (V ++ LA ++ LB).Nodup ∧ ∀ ref ∈ V ++ LA ++ LB, ∃ rel, ref = here ++ rel := by
  have hVn : V.Nodup := by rcases hV with rfl | rfl <;> simp
  have mV : ∀ ref ∈ V, ref = here := by
    rcases hV with rfl | rfl <;> simp
  constructor
  · refine List.Nodup.append (List.Nodup.append hVn hA ?_) hB ?_
    · intro ref h1 h2
      obtain ⟨rel, h3⟩ := mA ref h2
      rw [mV ref h1] at h3
      have := congrArg List.length h3
      simp at this
    · intro ref h1 h2
      obtain ⟨rel2, h3⟩ := mB ref h2
      rcases List.mem_append.1 h1 with h1 | h1
      · rw [mV ref h1] at h3
        have := congrArg List.length h3
        simp at this
      · obtain ⟨rel1, h4⟩ := mA ref h1
        rw [h4] at h3
        simp only [List.append_assoc, List.append_cancel_left_eq, List.singleton_append,
          List.cons.injEq] at h3
        exact hs h3.1
  · intro ref h
    rcases List.mem_append.1 h with h | h
    · rcases List.mem_append.1 h with h | h
      · exact ⟨[], by simp [mV ref h]⟩
      · obtain ⟨rel, h3⟩ := mA ref h
        exact ⟨sA :: rel, by simp [h3]⟩
    · obtain ⟨rel, h3⟩ := mB ref h
      exact ⟨sB :: rel, by simp [h3]⟩

/-- The range search appends to its result vector a duplicate-free list of addresses
below the node it is called on. -/
theorem SearchKdTreeNodeNear_append (target : Point) (radius : ℚ) (cur : Option KdTreeNode) :
    ∀ (here : NodeRef) (acc : List NodeRef) (depth : Nat),
      ∃ L, SearchKdTreeNodeNear target cur here acc radius depth = acc ++ L ∧ L.Nodup ∧
        ∀ ref ∈ L, ∃ rel, ref = here ++ rel := by
  induction cur using ptr_induction with
  | hnull =>
    intro here acc depth
    exact ⟨[], by simp [SearchKdTreeNodeNear], List.nodup_nil, by simp⟩
  | hnode p pn d l r a b ihl ihr =>
    intro here acc depth
    rw [SearchKdTreeNodeNear_node]
    simp only [visit_append]
    have hV : (if Distance2BetweenPoint target p < radius then [here] else []) = [here] ∨
        (if Distance2BetweenPoint target p < radius then [here] else ([] : List NodeRef)) = [] := by
      by_cases h : Distance2BetweenPoint target p < radius <;> simp [h]
    generalize (if Distance2BetweenPoint target p < radius then [here] else []) = V at hV
    by_cases hgo : axisCoord depth target ≤ axisCoord depth p
    · rw [if_pos hgo]
      obtain ⟨L1, e1, n1, m1⟩ := ihl (here ++ [Side.left]) (acc ++ V) (depth + 1)
      by_cases hth : radius > (axisCoord depth target - axisCoord depth p) *
          (axisCoord depth target - axisCoord depth p)
      · rw [if_pos hth, e1]
        obtain ⟨L2, e2, n2, m2⟩ := ihr (here ++ [Side.right]) (acc ++ V ++ L1) (depth + 1)
        rw [e2]
        have := nodup_combine here V L1 L2 Side.left Side.right (by simp) hV n1 n2 m1 m2
        exact ⟨V ++ L1 ++ L2, by simp, this.1, this.2⟩
      · rw [if_neg hth, e1]
        have := nodup_combine here V L1 [] Side.left Side.right (by simp) hV n1
          List.nodup_nil m1 (by simp)
        exact ⟨V ++ L1 ++ [], by simp, this.1, this.2⟩
    · rw [if_neg hgo]
      obtain ⟨L1, e1, n1, m1⟩ := ihr (here ++ [Side.right]) (acc ++ V) (depth + 1)
      by_cases hth : radius > (axisCoord depth target - axisCoord depth p) *
          (axisCoord depth target - axisCoord depth p)
      · rw [if_pos hth, e1]
        obtain ⟨L2, e2, n2, m2⟩ := ihl (here ++ [Side.left]) (acc ++ V ++ L1) (depth + 1)
        rw [e2]
        have := nodup_combine here V L1 L2 Side.right Side.left (by simp) hV n1 n2 m1 m2
        exact ⟨V ++ L1 ++ L2, by simp, this.1, this.2⟩
      · rw [if_neg hth, e1]
        have := nodup_combine here V L1 [] Side.right Side.left (by simp) hV n1
          List.nodup_nil m1 (by simp)
        exact ⟨V ++ L1 ++ [], by simp, this.1, this.2⟩

theorem NearKdTreeNode_nodup (t : KdTree) (target : Point) (radius : ℚ) :
    (t.NearKdTreeNode target radius).Nodup := by
  obtain ⟨L, e, n, -⟩ :=
    SearchKdTreeNodeNear_append target (radius * radius) (some t.root_) [] [] 0
  unfold KdTree.NearKdTreeNode
  rw [e]
  simpa using n

theorem refsBelow_nodup (cur : Option KdTreeNode) : (refsBelow cur).Nodup := by
  induction cur using ptr_induction with
  | hnull => simp [refsBelow]
  | hnode p pn d l r a b ihl ihr =>
    simp only [refsBelow, List.nodup_cons, List.mem_append, List.mem_map]
    constructor
    · rintro (⟨x, -, h⟩ | ⟨x, -, h⟩) <;> cases h
    · refine List.Nodup.append ?_ ?_ ?_
      · exact ihl.map (fun x y h => by simpa using h)
      · exact ihr.map (fun x y h => by simpa using h)
      · intro ref h1 h2
        obtain ⟨x, -, rfl⟩ := List.mem_map.1 h1
        obtain ⟨y, -, h⟩ := List.mem_map.1 h2
        cases h

theorem mem_refs (t : KdTree) (ref : NodeRef) : ref ∈ t.refs ↔ ∃ n, t.node ref = some n :=
  mem_refsBelow (some t.root_) ref

/-! ### Nearest node and range query together -/

/-- Whenever the nearest search returns a node and the range query returns anything, the
node returned by the nearest search is among the nodes of the range query. -/
theorem nearest_mem_range (seed : Option Point) (calls : List InsertCall) (target : Point)
    (radius : ℚ) (ref : NodeRef)
    (hnear : (KdTree.build seed calls).NearestKdTreeNode target = some ref)
    (hne : (KdTree.build seed calls).NearKdTreeNode target radius ≠ []) :
    ref ∈ (KdTree.build seed calls).NearKdTreeNode target radius := by
  obtain ⟨ref1, h1⟩ := List.exists_mem_of_ne_nil _ hne
  obtain ⟨n1, h2, h3⟩ := (range_query_exact_aux seed calls target radius ref1).1 h1
  unfold KdTree.NearestKdTreeNode at hnear
  rcases (nearest_scanned _ (KdInvariant_build seed calls) target).result with
    ⟨a, -, -⟩ | ⟨r0, n0, a, b, -, -, c⟩
  · rw [a] at hnear; cases hnear
  · rw [a] at hnear
    rw [Option.some.injEq] at hnear
    rw [← hnear]
    exact (range_query_exact_aux seed calls target radius r0).2
      ⟨n0, b, lt_of_le_of_lt (c ref1 n1 h2) h3⟩

/-- C20 (evaluation at the failing input): on the pristine index, for the finite target
(2^512 - 2^459, 3 * 2^484, 0) and radius 2^600, the range query returns the root while the
nearest search returns the null pointer, which is not among the nodes of the range query.
The squared distance of the root is DBL_MAX + 2^968 + 2^918 (in double arithmetic it rounds
to DBL_MAX), not below `DBL_MAX` and below the squared radius. -/
theorem nearest_null_range_nonempty :
    KdTree.new.NearKdTreeNode ⟨2 ^ 512 - 2 ^ 459, 3 * 2 ^ 484, 0⟩ (2 ^ 600) = [[]] ∧
      KdTree.new.NearestKdTreeNode ⟨2 ^ 512 - 2 ^ 459, 3 * 2 ^ 484, 0⟩ = none ∧
      Distance2BetweenPoint ⟨2 ^ 512 - 2 ^ 459, 3 * 2 ^ 484, 0⟩ ⟨0, 0, 0⟩ =
        DBL_MAX + 2 ^ 968 + 2 ^ 918 := by
  refine ⟨?_, ?_, ?_⟩
  · simp only [KdTree.NearKdTreeNode, KdTree.new, KdTreeNode.new]
    norm_num [SearchKdTreeNodeNear, Distance2BetweenPoint]
  · simp only [KdTree.NearestKdTreeNode, KdTree.new, KdTreeNode.new]
    norm_num [SearchKdTreeNode, Distance2BetweenPoint, DBL_MAX]
  · norm_num [Distance2BetweenPoint, DBL_MAX]

/-! ### Sorted insertion -/

theorem axisCoord_diagonal (depth k : Nat) : axisCoord depth (diagonal k) = (k : ℚ) := by
  unfold axisCoord diagonal
  split_ifs <;> rfl

theorem inserted_rightChain (m : Nat) :
    ∀ (k depth : Nat),
      insertedTree (diagonal (k + m + 1)) (rightChain k m) depth = rightChain k (m + 1) ∧
      insertedRef (diagonal (k + m + 1)) (rightChain k m) depth =
        List.replicate (m + 1) Side.right := by
  induction m with
  | zero =>
    intro k depth
    have hgo : ¬ axisCoord depth (diagonal (k + 0 + 1)) ≤ axisCoord depth (diagonal k) := by
      rw [axisCoord_diagonal, axisCoord_diagonal]
      push_cast
      linarith
    have h := inserted_node (diagonal (k + 0 + 1)) (diagonal k) none 0 none none 0 0 depth
    rw [if_neg hgo] at h
    simp only [Prod.mk.injEq] at h
    exact ⟨h.1, h.2⟩
  | succ m ih =>
    intro k depth
    have hgo : ¬ axisCoord depth (diagonal (k + (m + 1) + 1)) ≤ axisCoord depth (diagonal k) := by
      rw [axisCoord_diagonal, axisCoord_diagonal]
      push_cast
      linarith [(Nat.cast_nonneg m : (0 : ℚ) ≤ m)]
    have h := inserted_node (diagonal (k + (m + 1) + 1)) (diagonal k) none 0 none
      (some (rightChain (k + 1) m)) 0 0 depth
    rw [if_neg hgo] at h
    simp only [Prod.mk.injEq] at h
    have he : k + (m + 1) + 1 = k + 1 + m + 1 := by omega
    have ih1 := ih (k + 1) (depth + 1)
    rw [← he] at ih1
    rw [ih1.1, ih1.2] at h
    exact ⟨h.1, h.2⟩

theorem diagonalCalls_succ (n : Nat) :
    diagonalCalls (n + 1) = diagonalCalls n ++ [InsertCall.plain (diagonal (n + 1))] := by
  simp [diagonalCalls, List.range_succ]

theorem build_diagonal_root (n : Nat) :
    (KdTree.build (some ⟨0, 0, 0⟩) (diagonalCalls n)).root_ = rightChain 0 n := by
  induction n with
  | zero =>
    simp [KdTree.build, diagonalCalls, KdTree.construct, KdTree.ofPoint, rightChain, diagonal]
  | succ n ih =>
    unfold KdTree.build at ih ⊢
    rw [diagonalCalls_succ, List.foldl_append]
    simp only [List.foldl_cons, List.foldl_nil]
    show insertedTree (diagonal (n + 1)) _ 0 = _
    rw [ih]
    have := (inserted_rightChain n 0 0).1
    simpa using this

theorem refsBelow_rightChain (m : Nat) :
    ∀ k, refsBelow (some (rightChain k m)) =
      (List.range (m + 1)).map fun i => List.replicate i Side.right := by
  induction m with
  | zero =>
    intro k
    simp [rightChain, refsBelow_leaf, List.range_succ]
  | succ m ih =>
    intro k
    rw [List.range_succ_eq_map]
    simp only [rightChain, refsBelow, List.map_nil, List.nil_append, ih, List.map_map,
      List.map_cons, List.replicate_zero]
    congr 1

theorem left_none_rightChain (m : Nat) :
    ∀ (k : Nat) (ref : NodeRef),
      (getNode (some (rightChain k m)) ref).bind KdTreeNode.left_node = none := by
  induction m with
  | zero =>
    intro k ref
    cases ref with
    | nil => rfl
    | cons s rest => simp [rightChain, getNode_leaf_cons]
  | succ m ih =>
    intro k ref
    cases ref with
    | nil => rfl
    | cons s rest =>
      cases s with
      | left => simp [rightChain]
      | right => simpa [rightChain] using ih (k + 1) rest

theorem foldr_max_of_le (l : List Nat) (b : Nat) (h : ∀ x ∈ l, x ≤ b) :
    l.foldr max b = b := by
  induction l with
  | nil => rfl
  | cons x l ih =>
    rw [List.foldr_cons, ih (fun y hy => h y (List.mem_cons_of_mem _ hy))]
    exact max_eq_right (h x (List.mem_cons_self _ _))

theorem foldr_max_range (n : Nat) : (List.range (n + 1)).foldr max 0 = n := by
  rw [List.range_succ, List.foldr_append]
  simp only [List.foldr_cons, List.foldr_nil, Nat.max_zero]
  exact foldr_max_of_le _ _ (fun x hx => Nat.le_of_lt (List.mem_range.1 hx))

/-- C16: for every n (n >= 1 included), inserting (1,1,0), (2,2,0), ..., (n,n,0) in
increasing order into the index seeded at (0,0,0) yields a tree with n + 1 nodes whose
addresses are the paths of 0, 1, ..., n right steps: a single right-only chain in which
no node has a left child, of depth n. -/
theorem sorted_insertion_right_chain (n : Nat) :
    (KdTree.build (some ⟨0, 0, 0⟩) (diagonalCalls n)).refs.length = n + 1 ∧
      (KdTree.build (some ⟨0, 0, 0⟩) (diagonalCalls n)).refs =
        (List.range (n + 1)).map (fun i => List.replicate i Side.right) ∧
      (∀ ref, ((KdTree.build (some ⟨0, 0, 0⟩) (diagonalCalls n)).node ref).bind
        KdTreeNode.left_node = none) ∧
      (KdTree.build (some ⟨0, 0, 0⟩) (diagonalCalls n)).depth = n := by
  have hrefs : (KdTree.build (some ⟨0, 0, 0⟩) (diagonalCalls n)).refs =
      (List.range (n + 1)).map (fun i => List.replicate i Side.right) := by
    unfold KdTree.refs
    rw [build_diagonal_root, refsBelow_rightChain]
  refine ⟨by rw [hrefs]; simp, hrefs, ?_, ?_⟩
  · intro ref
    unfold KdTree.node
    rw [build_diagonal_root]
    exact left_none_rightChain n 0 ref
  · unfold KdTree.depth
    rw [hrefs, List.map_map]
    have : (List.length ∘ fun i => List.replicate i Side.right) = id := by
      funext i
      simp
    rw [this, List.map_id]
    exact foldr_max_range n

/-! ### The z coordinate -/

theorem flatNode_mk (p : Point) (pn : Option NodeRef) (d : ℚ) (l r : Option KdTreeNode)
    (a b : Int) :
    flatNode (KdTreeNode.mk p pn d l r a b) =
      KdTreeNode.mk p.flat none 0 (l.map flatNode) (r.map flatNode) 0 0 := by
  cases l <;> cases r <;> simp [flatNode]

theorem axisCoord_flat (depth : Nat) (p : Point) : axisCoord depth p.flat = axisCoord depth p := by
  unfold axisCoord Point.flat
  split_ifs <;> rfl

theorem Distance2_flat (t p : Point) :
    Distance2BetweenPoint t.flat p.flat = Distance2BetweenPoint t p := rfl

theorem flat_search (target : Point) (cur : Option KdTreeNode) :
    ∀ (here : NodeRef) (st : NearestState) (depth : Nat),
      SearchKdTreeNode target.flat (cur.map flatNode) here st depth =
        SearchKdTreeNode target cur here st depth := by
  induction cur using ptr_induction with
  | hnull => intro here st depth; simp [SearchKdTreeNode]
  | hnode p pn d l r a b ihl ihr =>
    intro here st depth
    rw [Option.map_some', flatNode_mk, SearchKdTreeNode_node, SearchKdTreeNode_node]
    simp only [axisCoord_flat, Distance2_flat, ihl, ihr]

theorem flat_searchNear (target : Point) (radius : ℚ) (cur : Option KdTreeNode) :
    ∀ (here : NodeRef) (acc : List NodeRef) (depth : Nat),
      SearchKdTreeNodeNear target.flat (cur.map flatNode) here acc radius depth =
        SearchKdTreeNodeNear target cur here acc radius depth := by
  induction cur using ptr_induction with
  | hnull => intro here acc depth; simp [SearchKdTreeNodeNear]
  | hnode p pn d l r a b ihl ihr =>
    intro here acc depth
    rw [Option.map_some', flatNode_mk, SearchKdTreeNodeNear_node, SearchKdTreeNodeNear_node]
    simp only [axisCoord_flat, Distance2_flat, ihl, ihr]

theorem flat_refs (cur : Option KdTreeNode) :
    refsBelow (cur.map flatNode) = refsBelow cur := by
  induction cur using ptr_induction with
  | hnull => rfl
  | hnode p pn d l r a b ihl ihr =>
    rw [Option.map_some', flatNode_mk]
    simp only [refsBelow, ihl, ihr]

theorem flat_leaf (p : Point) : flatNode (KdTreeNode.ofPoint p) = KdTreeNode.ofPoint p.flat := by
  simp [KdTreeNode.ofPoint, flatNode]

theorem flat_inserted (point : Point) (n : KdTreeNode) :
    ∀ depth,
      flatNode (insertedTree point n depth) = insertedTree point.flat (flatNode n) depth ∧
      insertedRef point n depth = insertedRef point.flat (flatNode n) depth := by
  induction n using node_induction with
  | h p pn d l r a b ihl ihr =>
    intro depth
    have h1 := inserted_node point p pn d l r a b depth
    have h2 := inserted_node point.flat p.flat none 0 (l.map flatNode) (r.map flatNode) 0 0 depth
    rw [← flatNode_mk p pn d l r a b] at h2
    rw [axisCoord_flat, axisCoord_flat] at h2
    by_cases hgo : axisCoord depth point ≤ axisCoord depth p
    · rw [if_pos hgo] at h1 h2
      cases l with
      | none =>
        simp only [Option.map_none', Prod.mk.injEq] at h1 h2
        rw [h1.1, h1.2, h2.1, h2.2, flatNode_mk]
        simp [flat_leaf]
      | some ln =>
        simp only [Option.map_some', Prod.mk.injEq] at h1 h2
        rw [h1.1, h1.2, h2.1, h2.2, flatNode_mk]
        have ih := ihl ln rfl (depth + 1)
        simp [ih.1, ih.2]
    · rw [if_neg hgo] at h1 h2
      cases r with
      | none =>
        simp only [Option.map_none', Prod.mk.injEq] at h1 h2
        rw [h1.1, h1.2, h2.1, h2.2, flatNode_mk]
        simp [flat_leaf]
      | some rn =>
        simp only [Option.map_some', Prod.mk.injEq] at h1 h2
        rw [h1.1, h1.2, h2.1, h2.2, flatNode_mk]
        have ih := ihr rn rfl (depth + 1)
        simp [ih.1, ih.2]

theorem flat_storeIdx (ta tb : Int) (n : KdTreeNode) :
    ∀ ref, flatNode (storeIdx ta tb n ref) = flatNode n := by
  induction n using node_induction with
  | h p pn d l r a b ihl ihr =>
    intro ref
    cases ref with
    | nil => rw [storeIdx_nil, flatNode_mk, flatNode_mk]
    | cons s rest =>
      cases s with
      | left =>
        rw [storeIdx_left, flatNode_mk, flatNode_mk]
        cases l with
        | none => rfl
        | some ln => simp [ihl ln rfl rest]
      | right =>
        rw [storeIdx_right, flatNode_mk, flatNode_mk]
        cases r with
        | none => rfl
        | some rn => simp [ihr rn rfl rest]

theorem flat_call (t : KdTree) (c : InsertCall) :
    flatNode (t.insert c).root_ = insertedTree c.point.flat (flatNode t.root_) 0 ∧
      (t.call c).2 = insertedRef c.point.flat (flatNode t.root_) 0 := by
  have h := flat_inserted c.point t.root_ 0
  refine ⟨?_, by rw [call_ref]; exact h.2⟩
  unfold KdTree.insert
  cases c with
  | plain p => rw [call_plain_root]; exact h.1
  | tagged p a b => rw [call_tagged_root, flat_storeIdx]; exact h.1

theorem flat_foldl (calls1 : List InsertCall) :
    ∀ (calls2 : List InsertCall) (t1 t2 : KdTree), flatNode t1.root_ = flatNode t2.root_ →
      calls1.map (fun c => c.point.flat) = calls2.map (fun c => c.point.flat) →
      flatNode (calls1.foldl KdTree.insert t1).root_ =
        flatNode (calls2.foldl KdTree.insert t2).root_ := by
  induction calls1 with
  | nil =>
    intro calls2 t1 t2 ht hc
    cases calls2 with
    | nil => exact ht
    | cons c2 rest2 => simp at hc
  | cons c1 rest1 ih =>
    intro calls2 t1 t2 ht hc
    cases calls2 with
    | nil => simp at hc
    | cons c2 rest2 =>
      simp only [List.map_cons, List.cons.injEq] at hc
      simp only [List.foldl_cons]
      refine ih rest2 _ _ ?_ hc.2
      rw [(flat_call t1 c1).1, (flat_call t2 c2).1, ht, hc.1]

theorem flat_build (seed1 seed2 : Option Point) (calls1 calls2 : List InsertCall)
    (hseed : seed1.map Point.flat = seed2.map Point.flat)
    (hcalls : calls1.map (fun c => c.point.flat) = calls2.map (fun c => c.point.flat)) :
    flatNode (KdTree.build seed1 calls1).root_ = flatNode (KdTree.build seed2 calls2).root_ := by
  refine flat_foldl calls1 calls2 _ _ ?_ hcalls
  cases seed1 <;> cases seed2 <;> simp at hseed
  · rfl
  · simp [KdTree.construct, KdTree.ofPoint, flat_leaf, hseed]

/-- C15: two runs that use the same seed, the same sequence of inserted points and the same
query target up to differences in z coordinates only (whatever the tags) build trees of the
same shape, the next inserted point lands at the same address in both, `NearestKdTreeNode`
returns the same address in both, and `NearKdTreeNode` returns the same addresses in the
same order in both. -/
theorem z_never_influences (seed1 seed2 : Option Point) (calls1 calls2 : List InsertCall)
    (c1 c2 : InsertCall) (target1 target2 : Point) (radius : ℚ)
    (hseed : seed1.map Point.flat = seed2.map Point.flat)
    (hcalls : calls1.map (fun c => c.point.flat) = calls2.map (fun c => c.point.flat))
    (hc : c1.point.flat = c2.point.flat) (htarget : target1.flat = target2.flat) :
    (KdTree.build seed1 calls1).refs = (KdTree.build seed2 calls2).refs ∧
      ((KdTree.build seed1 calls1).call c1).2 = ((KdTree.build seed2 calls2).call c2).2 ∧
      (KdTree.build seed1 calls1).NearestKdTreeNode target1 =
        (KdTree.build seed2 calls2).NearestKdTreeNode target2 ∧
      (KdTree.build seed1 calls1).NearKdTreeNode target1 radius =
        (KdTree.build seed2 calls2).NearKdTreeNode target2 radius := by
  have hb := flat_build seed1 seed2 calls1 calls2 hseed hcalls
  refine ⟨?_, ?_, ?_, ?_⟩
  · unfold KdTree.refs
    rw [← flat_refs (some (KdTree.build seed1 calls1).root_),
      ← flat_refs (some (KdTree.build seed2 calls2).root_), Option.map_some', Option.map_some', hb]
  · rw [(flat_call _ c1).2, (flat_call _ c2).2, hb, hc]
  · unfold KdTree.NearestKdTreeNode
    rw [← flat_search target1 (some (KdTree.build seed1 calls1).root_),
      ← flat_search target2 (some (KdTree.build seed2 calls2).root_),
      Option.map_some', Option.map_some', hb, htarget]
  · unfold KdTree.NearKdTreeNode
    rw [← flat_searchNear target1 _ (some (KdTree.build seed1 calls1).root_),
      ← flat_searchNear target2 _ (some (KdTree.build seed2 calls2).root_),
      Option.map_some', Option.map_some', hb, htarget]

/-- Witness of C15: the runs "seed (0,0,0), insert (1,1,0)" and "seed (0,0,7), insert
(1,1,5) with tags 3 and 4", followed by an insertion of (2,2,1) resp. (2,2,-1) and queries
for (1,1,0) resp. (1,1,9) with radius 2. -/
theorem z_never_influences_witness :
    ((some (⟨0, 0, 0⟩ : Point)).map Point.flat = (some (⟨0, 0, 7⟩ : Point)).map Point.flat ∧
      [InsertCall.plain ⟨1, 1, 0⟩].map (fun c => c.point.flat) =
        [InsertCall.tagged ⟨1, 1, 5⟩ 3 4].map (fun c => c.point.flat) ∧
      (InsertCall.plain ⟨2, 2, 1⟩).point.flat = (InsertCall.plain ⟨2, 2, -1⟩).point.flat ∧
      (⟨1, 1, 0⟩ : Point).flat = (⟨1, 1, 9⟩ : Point).flat) ∧
    (KdTree.build (some ⟨0, 0, 0⟩) [InsertCall.plain ⟨1, 1, 0⟩]).refs =
        (KdTree.build (some ⟨0, 0, 7⟩) [InsertCall.tagged ⟨1, 1, 5⟩ 3 4]).refs ∧
      ((KdTree.build (some ⟨0, 0, 0⟩) [InsertCall.plain ⟨1, 1, 0⟩]).call
          (InsertCall.plain ⟨2, 2, 1⟩)).2 =
        ((KdTree.build (some ⟨0, 0, 7⟩) [InsertCall.tagged ⟨1, 1, 5⟩ 3 4]).call
          (InsertCall.plain ⟨2, 2, -1⟩)).2 ∧
      (KdTree.build (some ⟨0, 0, 0⟩) [InsertCall.plain ⟨1, 1, 0⟩]).NearestKdTreeNode ⟨1, 1, 0⟩ =
        (KdTree.build (some ⟨0, 0, 7⟩) [InsertCall.tagged ⟨1, 1, 5⟩ 3 4]).NearestKdTreeNode
          ⟨1, 1, 9⟩ ∧
      (KdTree.build (some ⟨0, 0, 0⟩) [InsertCall.plain ⟨1, 1, 0⟩]).NearKdTreeNode ⟨1, 1, 0⟩ 2 =
        (KdTree.build (some ⟨0, 0, 7⟩) [InsertCall.tagged ⟨1, 1, 5⟩ 3 4]).NearKdTreeNode
          ⟨1, 1, 9⟩ 2 :=
  have h1 : (some (⟨0, 0, 0⟩ : Point)).map Point.flat =
      (some (⟨0, 0, 7⟩ : Point)).map Point.flat := rfl
  have h2 : [InsertCall.plain ⟨1, 1, 0⟩].map (fun c => c.point.flat) =
      [InsertCall.tagged ⟨1, 1, 5⟩ 3 4].map (fun c => c.point.flat) := rfl
  have h3 : (InsertCall.plain ⟨2, 2, 1⟩).point.flat =
      (InsertCall.plain ⟨2, 2, -1⟩).point.flat := rfl
  have h4 : (⟨1, 1, 0⟩ : Point).flat = (⟨1, 1, 9⟩ : Point).flat := rfl
  ⟨⟨h1, h2, h3, h4⟩,
    z_never_influences (some ⟨0, 0, 0⟩) (some ⟨0, 0, 7⟩) [InsertCall.plain ⟨1, 1, 0⟩]
      [InsertCall.tagged ⟨1, 1, 5⟩ 3 4] (InsertCall.plain ⟨2, 2, 1⟩)
      (InsertCall.plain ⟨2, 2, -1⟩) ⟨1, 1, 0⟩ ⟨1, 1, 9⟩ 2 h1 h2 h3 h4⟩

/-! ## Rounding to binary64

### Rounding to the nearest integer -/

theorem roundHalfEven_cases (x : ℚ) : roundHalfEven x = ⌊x⌋ ∨ roundHalfEven x = ⌊x⌋ + 1 := by
  unfold roundHalfEven
  split_ifs <;> simp

theorem roundHalfEven_int (n : ℤ) : roundHalfEven (n : ℚ) = n := by
  unfold roundHalfEven
  simp

theorem roundHalfEven_mono {x y : ℚ} (h : x ≤ y) : roundHalfEven x ≤ roundHalfEven y := by
  have hf : ⌊x⌋ ≤ ⌊y⌋ := Int.floor_mono h
  rcases lt_or_eq_of_le hf with hlt | heq
  · have h1 : roundHalfEven x ≤ ⌊x⌋ + 1 := by
      rcases roundHalfEven_cases x with e | e <;> omega
    have h2 : ⌊y⌋ ≤ roundHalfEven y := by
      rcases roundHalfEven_cases y with e | e <;> omega
    omega
  · unfold roundHalfEven
    rw [← heq]
    have hxy : x - ⌊x⌋ ≤ y - ⌊x⌋ := by linarith
    split_ifs <;> first | omega | (exfalso; linarith)

theorem roundHalfEven_eq_of_near (x : ℚ) (n : ℤ) (h1 : (n : ℚ) - 1 / 2 < x)
    (h2 : x < (n : ℚ) + 1 / 2) : roundHalfEven x = n := by
  have hn : roundHalfEven ((n : ℚ)) = n := roundHalfEven_int n
  rcases le_total x n with h | h
  · -- n - 1/2 < x ≤ n
    have hfl : ⌊x⌋ = n ∨ ⌊x⌋ = n - 1 := by
      have a1 : ⌊x⌋ ≤ n := by
        have := Int.floor_mono h
        simpa using this
      have a2 : n - 1 ≤ ⌊x⌋ := by
        apply Int.le_floor.2
        push_cast
        linarith
      omega
    rcases hfl with e | e
    · unfold roundHalfEven
      rw [e]
      have : x - n = 0 := by
        have := Int.floor_le x
        rw [e] at this
        linarith
      simp [this]
    · unfold roundHalfEven
      rw [e]
      push_cast
      have hh : ¬ (x - ((n : ℚ) - 1) < 1 / 2) := by
        intro hc; linarith
      have hh2 : 1 / 2 < x - ((n : ℚ) - 1) := by linarith
      rw [if_neg hh, if_pos hh2]
      ring
  · have e : ⌊x⌋ = n := by
      apply Int.floor_eq_iff.2
      constructor
      · exact h
      · linarith
    unfold roundHalfEven
    rw [e]
    have : x - n < 1 / 2 := by linarith
    rw [if_pos this]

theorem roundHalfEven_nonneg {x : ℚ} (h : 0 ≤ x) : 0 ≤ roundHalfEven x := by
  have := roundHalfEven_mono h
  rwa [show ((0 : ℚ)) = ((0 : ℤ) : ℚ) by simp, roundHalfEven_int] at this

theorem roundHalfEven_le_of_le {x : ℚ} {n : ℤ} (h : x ≤ n) : roundHalfEven x ≤ n := by
  have := roundHalfEven_mono h
  rwa [roundHalfEven_int] at this

theorem le_roundHalfEven_of_le {x : ℚ} {n : ℤ} (h : (n : ℚ) ≤ x) : n ≤ roundHalfEven x := by
  have := roundHalfEven_mono h
  rwa [roundHalfEven_int] at this

/-! ### Binades and the rounding of a magnitude -/

theorem two_zpow_pos (z : ℤ) : (0 : ℚ) < 2 ^ z := zpow_pos (by norm_num) z

theorem two_zpow_mono {m n : ℤ} (h : m ≤ n) : (2 : ℚ) ^ m ≤ 2 ^ n :=
  zpow_le_zpow_right₀ (by norm_num) h

theorem two_zpow_succ_split (e : ℤ) : (2 : ℚ) ^ (e + 1) = (2 ^ 53 : ℤ) * 2 ^ (e - 52) := by
  have : e + 1 = 53 + (e - 52) := by ring
  rw [this, zpow_add₀ (by norm_num : (2 : ℚ) ≠ 0)]
  norm_num

theorem two_zpow_split (e : ℤ) : (2 : ℚ) ^ e = (2 ^ 52 : ℤ) * 2 ^ (e - 52) := by
  have : e = 52 + (e - 52) := by ring
  conv_lhs => rw [this, zpow_add₀ (by norm_num : (2 : ℚ) ≠ 0)]
  norm_num

theorem binadeExp_ge (a : ℚ) : -1022 ≤ binadeExp a := le_max_right _ _

theorem log_le_binadeExp (a : ℚ) : Int.log 2 a ≤ binadeExp a := le_max_left _ _

theorem lt_pow_binadeExp (a : ℚ) : a < 2 ^ (binadeExp a + 1) := by
  have h1 : a < ((2 : ℕ) : ℚ) ^ (Int.log 2 a + 1) := Int.lt_zpow_succ_log_self (by norm_num) a
  have h2 : ((2 : ℕ) : ℚ) ^ (Int.log 2 a + 1) ≤ (2 : ℚ) ^ (binadeExp a + 1) := by
    have := two_zpow_mono (add_le_add_right (log_le_binadeExp a) 1)
    simpa using this
  exact lt_of_lt_of_le h1 h2

theorem binadeExp_le_of_lt {a : ℚ} {z : ℤ} (ha : 0 < a) (h : a < 2 ^ z) (hz : -1022 < z) :
    binadeExp a < z := by
  have h1 : Int.log 2 a < z := by
    apply (Int.lt_zpow_iff_log_lt (by norm_num) ha).1
    simpa using h
  unfold binadeExp
  exact max_lt h1 hz

theorem binadeExp_mono {a b : ℚ} (ha : 0 < a) (h : a ≤ b) : binadeExp a ≤ binadeExp b := by
  unfold binadeExp
  exact max_le_max (Int.log_mono_right ha h) (le_refl _)

theorem pow_binadeExp_le {a : ℚ} (ha : 0 < a) (hlog : -1022 ≤ Int.log 2 a) :
    (2 : ℚ) ^ binadeExp a ≤ a := by
  have e : binadeExp a = Int.log 2 a := max_eq_left hlog
  rw [e]
  have := Int.zpow_log_le_self (b := 2) (r := a) (by norm_num) ha
  simpa using this

theorem roundMagnitude_of_lt {a : ℚ} (h : a < 2 ^ 1024 - 2 ^ 970) :
    roundMagnitude a =
      (roundHalfEven (a / 2 ^ (binadeExp a - 52)) : ℚ) * 2 ^ (binadeExp a - 52) := by
  unfold roundMagnitude
  rw [if_neg (not_le.2 h)]

theorem roundMagnitude_of_ge {a : ℚ} (h : 2 ^ 1024 - 2 ^ 970 ≤ a) :
    roundMagnitude a = 2 ^ 1024 := by
  unfold roundMagnitude DBL_INF
  rw [if_pos h]

theorem roundMagnitude_zero : roundMagnitude 0 = 0 := by
  rw [roundMagnitude_of_lt (by norm_num)]
  simp [roundHalfEven]

theorem roundMagnitude_nonneg {a : ℚ} (ha : 0 ≤ a) : 0 ≤ roundMagnitude a := by
  by_cases h : 2 ^ 1024 - 2 ^ 970 ≤ a
  · rw [roundMagnitude_of_ge h]; norm_num
  · rw [roundMagnitude_of_lt (not_le.1 h)]
    have hu := two_zpow_pos (binadeExp a - 52)
    have : 0 ≤ roundHalfEven (a / 2 ^ (binadeExp a - 52)) :=
      roundHalfEven_nonneg (div_nonneg ha (le_of_lt hu))
    have h2 : (0 : ℚ) ≤ (roundHalfEven (a / 2 ^ (binadeExp a - 52)) : ℚ) := by exact_mod_cast this
    exact mul_nonneg h2 (le_of_lt hu)

/-- A rounded value does not leave the closed binade of the exact one upwards. -/
theorem roundMagnitude_le_pow {a : ℚ} (h : a < 2 ^ 1024 - 2 ^ 970) :
    roundMagnitude a ≤ 2 ^ (binadeExp a + 1) := by
  rw [roundMagnitude_of_lt h, two_zpow_succ_split]
  have hu := two_zpow_pos (binadeExp a - 52)
  have h1 : a / 2 ^ (binadeExp a - 52) ≤ ((2 ^ 53 : ℤ) : ℚ) := by
    rw [div_le_iff₀ hu, ← two_zpow_succ_split]
    exact le_of_lt (lt_pow_binadeExp a)
  have h2 : roundHalfEven (a / 2 ^ (binadeExp a - 52)) ≤ 2 ^ 53 := roundHalfEven_le_of_le h1
  have h3 : (roundHalfEven (a / 2 ^ (binadeExp a - 52)) : ℚ) ≤ ((2 ^ 53 : ℤ) : ℚ) := by
    exact_mod_cast h2
  exact mul_le_mul_of_nonneg_right h3 (le_of_lt hu)

/-- A rounded normal value does not leave the binade of the exact one downwards. -/
theorem pow_le_roundMagnitude {a : ℚ} (ha : 0 < a) (h : a < 2 ^ 1024 - 2 ^ 970)
    (hlog : -1022 ≤ Int.log 2 a) : 2 ^ binadeExp a ≤ roundMagnitude a := by
  rw [roundMagnitude_of_lt h]
  conv_lhs => rw [two_zpow_split]
  have hu := two_zpow_pos (binadeExp a - 52)
  have h1 : ((2 ^ 52 : ℤ) : ℚ) ≤ a / 2 ^ (binadeExp a - 52) := by
    rw [le_div_iff₀ hu, ← two_zpow_split]
    exact pow_binadeExp_le ha hlog
  have h2 : 2 ^ 52 ≤ roundHalfEven (a / 2 ^ (binadeExp a - 52)) := le_roundHalfEven_of_le h1
  have h3 : ((2 ^ 52 : ℤ) : ℚ) ≤ (roundHalfEven (a / 2 ^ (binadeExp a - 52)) : ℚ) := by
    exact_mod_cast h2
  exact mul_le_mul_of_nonneg_right h3 (le_of_lt hu)

theorem binadeExp_le_1023 {a : ℚ} (ha : 0 ≤ a) (h : a < 2 ^ 1024 - 2 ^ 970) :
    binadeExp a ≤ 1023 := by
  rcases eq_or_lt_of_le ha with rfl | hpos
  · simp [binadeExp]
  · have : a < (2 : ℚ) ^ (1024 : ℤ) := by
      have e : (2 : ℚ) ^ (1024 : ℤ) = 2 ^ 1024 := by norm_num
      rw [e]
      linarith [show (0 : ℚ) < 2 ^ 970 by norm_num]
    have := binadeExp_le_of_lt hpos this (by norm_num)
    omega

theorem roundMagnitude_le_inf {a : ℚ} (ha : 0 ≤ a) : roundMagnitude a ≤ 2 ^ 1024 := by
  by_cases h : 2 ^ 1024 - 2 ^ 970 ≤ a
  · rw [roundMagnitude_of_ge h]
  · have h1 := roundMagnitude_le_pow (not_le.1 h)
    have h2 := binadeExp_le_1023 ha (not_le.1 h)
    have h3 : (2 : ℚ) ^ (binadeExp a + 1) ≤ 2 ^ (1024 : ℤ) := two_zpow_mono (by omega)
    have e : (2 : ℚ) ^ (1024 : ℤ) = 2 ^ 1024 := by norm_num
    rw [e] at h3
    exact le_trans h1 h3

theorem roundMagnitude_mono {a b : ℚ} (ha : 0 ≤ a) (h : a ≤ b) :
    roundMagnitude a ≤ roundMagnitude b := by
  by_cases hb : 2 ^ 1024 - 2 ^ 970 ≤ b
  · rw [roundMagnitude_of_ge hb]
    exact roundMagnitude_le_inf ha
  · have hb' := not_le.1 hb
    have ha' : a < 2 ^ 1024 - 2 ^ 970 := lt_of_le_of_lt h hb'
    rcases eq_or_lt_of_le ha with rfl | hpos
    · rw [roundMagnitude_zero]
      exact roundMagnitude_nonneg (le_trans ha h)
    · have hE := binadeExp_mono hpos h
      rcases eq_or_lt_of_le hE with heq | hlt
      · rw [roundMagnitude_of_lt ha', roundMagnitude_of_lt hb', heq]
        have hu := two_zpow_pos (binadeExp b - 52)
        have h1 : a / 2 ^ (binadeExp b - 52) ≤ b / 2 ^ (binadeExp b - 52) :=
          div_le_div_of_nonneg_right h (le_of_lt hu)
        have h2 := roundHalfEven_mono h1
        have h3 : (roundHalfEven (a / 2 ^ (binadeExp b - 52)) : ℚ) ≤
            (roundHalfEven (b / 2 ^ (binadeExp b - 52)) : ℚ) := by exact_mod_cast h2
        exact mul_le_mul_of_nonneg_right h3 (le_of_lt hu)
      · have h1 := roundMagnitude_le_pow ha'
        have hlogb : -1022 ≤ Int.log 2 b := by
          by_contra hc
          have : binadeExp b = -1022 := max_eq_right (le_of_lt (not_le.1 hc))
          have := binadeExp_ge a
          omega
        have h2 := pow_le_roundMagnitude (lt_of_lt_of_le hpos h) hb' hlogb
        have h3 : (2 : ℚ) ^ (binadeExp a + 1) ≤ 2 ^ binadeExp b := two_zpow_mono (by omega)
        exact le_trans h1 (le_trans h3 h2)

/-- A rounded value is reproduced by rounding it again. -/
theorem roundMagnitude_idem {a : ℚ} (ha : 0 ≤ a) :
    roundMagnitude (roundMagnitude a) = roundMagnitude a := by
  by_cases hov : 2 ^ 1024 - 2 ^ 970 ≤ a
  · rw [roundMagnitude_of_ge hov]
    exact roundMagnitude_of_ge (by norm_num)
  have hlt := not_le.1 hov
  -- the rounded value, as a multiple of the unit in the last place
  have hy := roundMagnitude_of_lt hlt
  have hu := two_zpow_pos (binadeExp a - 52)
  have hy0 := roundMagnitude_nonneg ha
  have hyhi := roundMagnitude_le_pow hlt
  have he := binadeExp_le_1023 ha hlt
  generalize hk : roundHalfEven (a / 2 ^ (binadeExp a - 52)) = k at hy
  generalize hyv : roundMagnitude a = y at hy hy0 hyhi ⊢
  have hk0 : 0 ≤ k := by
    rw [← hk]
    exact roundHalfEven_nonneg (div_nonneg ha (le_of_lt hu))
  have hk53 : k ≤ 2 ^ 53 := by
    have : (k : ℚ) * 2 ^ (binadeExp a - 52) ≤ ((2 ^ 53 : ℤ) : ℚ) * 2 ^ (binadeExp a - 52) := by
      rw [← hy, ← two_zpow_succ_split]; exact hyhi
    have := le_of_mul_le_mul_right this hu
    exact_mod_cast this
  by_cases hyov : 2 ^ 1024 - 2 ^ 970 ≤ y
  · -- then the rounded value is 2^1024 itself
    rw [roundMagnitude_of_ge hyov]
    have h1 : y ≤ 2 ^ (binadeExp a + 1) := hyhi
    have h2 : (2 : ℚ) ^ (binadeExp a + 1) ≤ 2 ^ (1024 : ℤ) := two_zpow_mono (by omega)
    have e : (2 : ℚ) ^ (1024 : ℤ) = 2 ^ 1024 := by norm_num
    rw [e] at h2
    have hle : y ≤ 2 ^ 1024 := le_trans h1 h2
    by_cases he2 : binadeExp a = 1023
    · rw [he2] at hy
      have e2 : (2 : ℚ) ^ ((1023 : ℤ) - 52) = 2 ^ 971 := by norm_num
      rw [e2] at hy
      have hk1 : (2 ^ 53 - 1 : ℚ) < k := by
        have : (2 : ℚ) ^ 1024 - 2 ^ 970 ≤ k * 2 ^ 971 := by rw [← hy]; exact hyov
        by_contra hc
        have hc' := not_lt.1 hc
        have : (k : ℚ) * 2 ^ 971 ≤ (2 ^ 53 - 1) * 2 ^ 971 :=
          mul_le_mul_of_nonneg_right hc' (by norm_num)
        norm_num at this
        linarith
      have hk2 : (2 ^ 53 - 1 : ℤ) < k := by exact_mod_cast hk1
      have hk3 : k = 2 ^ 53 := by omega
      rw [hy, hk3]
      norm_num
    · have h3 : (2 : ℚ) ^ (binadeExp a + 1) ≤ 2 ^ (1023 : ℤ) := two_zpow_mono (by omega)
      have e3 : (2 : ℚ) ^ (1023 : ℤ) = 2 ^ 1023 := by norm_num
      rw [e3] at h3
      have : y ≤ 2 ^ 1023 := le_trans h1 h3
      exfalso
      have : (2 : ℚ) ^ 1024 - 2 ^ 970 ≤ 2 ^ 1023 := le_trans hyov this
      norm_num at this
  have hylt := not_le.1 hyov
  rw [roundMagnitude_of_lt hylt]
  rcases eq_or_lt_of_le hy0 with hz | hypos
  · rw [← hz]
    simp [roundHalfEven]
  -- the binade of the rounded value is that of the exact one, or the next
  have hlow : binadeExp a ≤ binadeExp y := by
    by_cases hlog : -1022 ≤ Int.log 2 a
    · have hapos : 0 < a := by
        by_contra hc
        have : a = 0 := le_antisymm (not_lt.1 hc) ha
        rw [this, roundMagnitude_zero] at hyv
        rw [← hyv] at hypos
        exact lt_irrefl _ hypos
      have h1 := pow_le_roundMagnitude hapos hlt hlog
      rw [hyv] at h1
      have h2 : binadeExp a ≤ Int.log 2 y := by
        apply (Int.zpow_le_iff_le_log (by norm_num) hypos).1
        simpa using h1
      exact le_trans h2 (log_le_binadeExp y)
    · have : binadeExp a = -1022 := max_eq_right (le_of_lt (not_le.1 hlog))
      rw [this]
      exact binadeExp_ge y
  have hhigh : binadeExp y ≤ binadeExp a + 1 := by
    have h1 : Int.log 2 y ≤ binadeExp a + 1 := by
      have := Int.log_mono_right (b := 2) hypos hyhi
      rwa [show ((2 : ℚ) ^ (binadeExp a + 1)) = (((2 : ℕ) : ℚ) ^ (binadeExp a + 1)) by simp,
        Int.log_zpow (by norm_num)] at this
    unfold binadeExp at h1 ⊢
    exact max_le h1 (by have := binadeExp_ge a; unfold binadeExp at this; omega)
  rcases eq_or_lt_of_le hlow with heq | hlt2
  · rw [← heq, hy, mul_div_assoc, div_self (ne_of_gt hu), mul_one, roundHalfEven_int]
  · have heq : binadeExp y = binadeExp a + 1 := by omega
    -- the rounded value is the power of two that opens the next binade
    have hlogy : Int.log 2 y = binadeExp a + 1 := by
      have h0 := binadeExp_ge a
      have : binadeExp y = max (Int.log 2 y) (-1022) := rfl
      rw [heq] at this
      rcases max_cases (Int.log 2 y) (-1022) with ⟨h1, -⟩ | ⟨h1, -⟩
      · omega
      · omega
    have hge : (2 : ℚ) ^ (binadeExp a + 1) ≤ y := by
      have := Int.zpow_log_le_self (b := 2) (r := y) (by norm_num) hypos
      rw [hlogy] at this
      simpa using this
    have hyeq : y = 2 ^ (binadeExp a + 1) := le_antisymm hyhi hge
    rw [heq, hyeq]
    have e1 : (2 : ℚ) ^ (binadeExp a + 1) / 2 ^ (binadeExp a + 1 - 52) = ((2 ^ 52 : ℤ) : ℚ) := by
      rw [div_eq_iff (ne_of_gt (two_zpow_pos _)), ← two_zpow_split]
    rw [e1, roundHalfEven_int, ← two_zpow_split]

/-! ### Rounding with sign -/

theorem roundDouble_of_nonneg {q : ℚ} (h : 0 ≤ q) : roundDouble q = roundMagnitude q := by
  unfold roundDouble
  rw [if_pos h]

theorem roundDouble_of_neg {q : ℚ} (h : q < 0) : roundDouble q = -roundMagnitude (-q) := by
  unfold roundDouble
  rw [if_neg (not_le.2 h)]

theorem roundDouble_zero : roundDouble 0 = 0 := by
  rw [roundDouble_of_nonneg (le_refl _), roundMagnitude_zero]

theorem roundDouble_nonneg {q : ℚ} (h : 0 ≤ q) : 0 ≤ roundDouble q := by
  rw [roundDouble_of_nonneg h]
  exact roundMagnitude_nonneg h

theorem roundDouble_nonpos {q : ℚ} (h : q ≤ 0) : roundDouble q ≤ 0 := by
  rcases eq_or_lt_of_le h with rfl | hlt
  · rw [roundDouble_zero]
  · rw [roundDouble_of_neg hlt]
    have := roundMagnitude_nonneg (a := -q) (by linarith)
    linarith

theorem roundDouble_mono {p q : ℚ} (h : p ≤ q) : roundDouble p ≤ roundDouble q := by
  by_cases hp : 0 ≤ p
  · rw [roundDouble_of_nonneg hp, roundDouble_of_nonneg (le_trans hp h)]
    exact roundMagnitude_mono hp h
  · have hp' := not_le.1 hp
    by_cases hq : 0 ≤ q
    · exact le_trans (roundDouble_nonpos (le_of_lt hp')) (roundDouble_nonneg hq)
    · have hq' := not_le.1 hq
      rw [roundDouble_of_neg hp', roundDouble_of_neg hq']
      have := roundMagnitude_mono (a := -q) (b := -p) (by linarith) (by linarith)
      linarith

theorem roundDouble_idem (q : ℚ) : roundDouble (roundDouble q) = roundDouble q := by
  by_cases hq : 0 ≤ q
  · rw [roundDouble_of_nonneg hq, roundDouble_of_nonneg (roundMagnitude_nonneg hq)]
    exact roundMagnitude_idem hq
  · have hq' := not_le.1 hq
    rw [roundDouble_of_neg hq']
    have hm := roundMagnitude_nonneg (a := -q) (by linarith)
    rcases eq_or_lt_of_le hm with h0 | hpos
    · rw [← h0]
      simp [roundDouble_zero]
    · rw [roundDouble_of_neg (by linarith), neg_neg, roundMagnitude_idem (by linarith)]

/-! ### The three operations -/

theorem dsub_def (a b : ℚ) : dsub a b = roundDouble (a - b) := by
  unfold dsub
  rfl

theorem dmul_def (a b : ℚ) : dmul a b = roundDouble (a * b) := by
  unfold dmul
  rfl

theorem dadd_def (a b : ℚ) : dadd a b = roundDouble (a + b) := by
  unfold dadd
  rfl

theorem dmul_self_nonneg (a : ℚ) : 0 ≤ dmul a a := by
  rw [dmul_def]
  exact roundDouble_nonneg (mul_self_nonneg a)

theorem dmul_idem (a b : ℚ) : roundDouble (dmul a b) = dmul a b := by
  rw [dmul_def]
  exact roundDouble_idem _

theorem dsub_self (a : ℚ) : dsub a a = 0 := by
  unfold dsub
  rw [sub_self, roundDouble_zero]

theorem dmul_self_le_of_nonneg {a b : ℚ} (ha : 0 ≤ a) (h : a ≤ b) : dmul a a ≤ dmul b b := by
  unfold dmul
  exact roundDouble_mono (by nlinarith)

theorem dmul_self_le_of_nonpos {a b : ℚ} (hb : b ≤ 0) (h : a ≤ b) : dmul b b ≤ dmul a a := by
  unfold dmul
  exact roundDouble_mono (by nlinarith)

theorem le_dadd_left {A B : ℚ} (hA : roundDouble A = A) (hB : 0 ≤ B) : A ≤ dadd A B := by
  unfold dadd
  have := roundDouble_mono (p := A) (q := A + B) (by linarith)
  rwa [hA] at this

theorem le_dadd_right {A B : ℚ} (hB : roundDouble B = B) (hA : 0 ≤ A) : B ≤ dadd A B := by
  unfold dadd
  have := roundDouble_mono (p := B) (q := A + B) (by linarith)
  rwa [hB] at this

theorem dadd_nonneg {A B : ℚ} (hA : 0 ≤ A) (hB : 0 ≤ B) : 0 ≤ dadd A B := by
  rw [dadd_def]
  exact roundDouble_nonneg (add_nonneg hA hB)

/-! ## The searches in double arithmetic -/

theorem Distance2Dbl_nonneg (a b : Point) : 0 ≤ Distance2BetweenPointDbl a b :=
  dadd_nonneg (dmul_self_nonneg _) (dmul_self_nonneg _)

/-- The double squared distance to the splitting plane is not above the double squared
distance to the node. -/
theorem planeDbl_le_Distance2Dbl (depth : Nat) (t q : Point) :
    planeDbl depth t q ≤ Distance2BetweenPointDbl t q := by
  unfold planeDbl Distance2BetweenPointDbl axisCoord
  split_ifs
  · exact le_dadd_left (dmul_idem _ _) (dmul_self_nonneg _)
  · exact le_dadd_right (dmul_idem _ _) (dmul_self_nonneg _)

theorem planeDbl_le_of_right (depth : Nat) (t p m : Point)
    (h1 : axisCoord depth t ≤ axisCoord depth p) (h2 : axisCoord depth p < axisCoord depth m) :
    planeDbl depth t p ≤ planeDbl depth t m := by
  unfold planeDbl
  apply dmul_self_le_of_nonpos
  · rw [dsub_def]
    exact roundDouble_nonpos (by linarith)
  · rw [dsub_def, dsub_def]
    exact roundDouble_mono (by linarith)

theorem planeDbl_le_of_left (depth : Nat) (t p m : Point)
    (h1 : axisCoord depth p < axisCoord depth t) (h2 : axisCoord depth m ≤ axisCoord depth p) :
    planeDbl depth t p ≤ planeDbl depth t m := by
  unfold planeDbl
  apply dmul_self_le_of_nonneg
  · rw [dsub_def]
    exact roundDouble_nonneg (by linarith)
  · rw [dsub_def, dsub_def]
    exact roundDouble_mono (by linarith)

theorem far_right_bound_dbl (depth : Nat) (t p : Point) (r : Option KdTreeNode)
    (hinv : ∀ q ∈ pointsBelow r, axisCoord depth p < axisCoord depth q)
    (hgo : axisCoord depth t ≤ axisCoord depth p) (rel : NodeRef) (n : KdTreeNode)
    (hn : getNode r rel = some n) :
    planeDbl depth t p ≤ Distance2BetweenPointDbl t n.point := by
  have h1 := hinv n.point ((mem_pointsBelow r n.point).2 ⟨rel, n, hn, rfl⟩)
  exact le_trans (planeDbl_le_of_right depth t p n.point hgo h1)
    (planeDbl_le_Distance2Dbl depth t n.point)

theorem far_left_bound_dbl (depth : Nat) (t p : Point) (l : Option KdTreeNode)
    (hinv : ∀ q ∈ pointsBelow l, axisCoord depth q ≤ axisCoord depth p)
    (hgo : axisCoord depth p < axisCoord depth t) (rel : NodeRef) (n : KdTreeNode)
    (hn : getNode l rel = some n) :
    planeDbl depth t p ≤ Distance2BetweenPointDbl t n.point := by
  have h1 := hinv n.point ((mem_pointsBelow l n.point).2 ⟨rel, n, hn, rfl⟩)
  exact le_trans (planeDbl_le_of_left depth t p n.point hgo h1)
    (planeDbl_le_Distance2Dbl depth t n.point)

theorem inRangeDbl_node (target : Point) (radius : ℚ) (p : Point) (pn : Option NodeRef) (d : ℚ)
    (l r : Option KdTreeNode) (a b : Int) (here ref : NodeRef) :
    InRangeDbl target radius (some (KdTreeNode.mk p pn d l r a b)) here ref ↔
      (ref = here ∧ Distance2BetweenPointDbl target p < radius) ∨
      InRangeDbl target radius l (here ++ [Side.left]) ref ∨
      InRangeDbl target radius r (here ++ [Side.right]) ref := by
  constructor
  · rintro ⟨rel, n, h1, h2, h3⟩
    cases rel with
    | nil =>
      left
      simp at h2
      subst h2
      exact ⟨by simpa using h1, h3⟩
    | cons s rest =>
      cases s
      · right; left; exact ⟨rest, n, by simpa using h1, by simpa using h2, h3⟩
      · right; right; exact ⟨rest, n, by simpa using h1, by simpa using h2, h3⟩
  · rintro (⟨h1, h2⟩ | ⟨rel, n, h1, h2, h3⟩ | ⟨rel, n, h1, h2, h3⟩)
    · exact ⟨[], _, by simpa using h1, rfl, h2⟩
    · exact ⟨Side.left :: rel, n, by simpa using h1, by simpa using h2, h3⟩
    · exact ⟨Side.right :: rel, n, by simpa using h1, by simpa using h2, h3⟩

/-- The node case of the range search in double arithmetic, with the two axis tests
merged. -/
theorem SearchKdTreeNodeNearDbl_node (target : Point) (radius : ℚ) (p : Point)
    (pn : Option NodeRef) (d : ℚ) (l r : Option KdTreeNode) (a b : Int) (here : NodeRef)
    (near_nodes : List NodeRef) (depth : Nat) :
    SearchKdTreeNodeNearDbl target (some (KdTreeNode.mk p pn d l r a b)) here near_nodes radius
        depth =
      if axisCoord depth target ≤ axisCoord depth p then
        if radius > planeDbl depth target p then
          SearchKdTreeNodeNearDbl target r (here ++ [Side.right])
            (SearchKdTreeNodeNearDbl target l (here ++ [Side.left])
              (if Distance2BetweenPointDbl target p < radius then near_nodes ++ [here]
                else near_nodes)
              radius (depth + 1)) radius (depth + 1)
        else
          SearchKdTreeNodeNearDbl target l (here ++ [Side.left])
            (if Distance2BetweenPointDbl target p < radius then near_nodes ++ [here]
              else near_nodes)
            radius (depth + 1)
      else
        if radius > planeDbl depth target p then
          SearchKdTreeNodeNearDbl target l (here ++ [Side.left])
            (SearchKdTreeNodeNearDbl target r (here ++ [Side.right])
              (if Distance2BetweenPointDbl target p < radius then near_nodes ++ [here]
                else near_nodes)
              radius (depth + 1)) radius (depth + 1)
        else
          SearchKdTreeNodeNearDbl target r (here ++ [Side.right])
            (if Distance2BetweenPointDbl target p < radius then near_nodes ++ [here]
              else near_nodes)
            radius (depth + 1) := by
  simp only [SearchKdTreeNodeNearDbl, axisCoord, planeDbl]
  by_cases hd : depth % 2 = 0
  · simp only [hd, if_true]
    by_cases hgo : target.x ≤ p.x <;> simp [hgo]
  · simp only [hd, if_false]
    by_cases hgo : target.y ≤ p.y <;> simp [hgo]

theorem SearchKdTreeNodeNearDbl_mem (target : Point) (radius : ℚ) (cur : Option KdTreeNode) :
    ∀ (here : NodeRef) (near_nodes : List NodeRef) (depth : Nat), KdInvariant cur depth →
      ∀ ref, ref ∈ SearchKdTreeNodeNearDbl target cur here near_nodes radius depth ↔
        ref ∈ near_nodes ∨ InRangeDbl target radius cur here ref := by
  induction cur using ptr_induction with
  | hnull =>
    intro here near_nodes depth _ ref
    simp [SearchKdTreeNodeNearDbl, InRangeDbl]
  | hnode p pn d l r a b ihl ihr =>
    intro here near_nodes depth hinv ref
    obtain ⟨hL, hR, hIl, hIr⟩ := (KdInvariant_node p pn d l r a b depth).1 hinv
    have ihl' := fun h nn => ihl h nn (depth + 1) hIl ref
    have ihr' := fun h nn => ihr h nn (depth + 1) hIr ref
    rw [inRangeDbl_node, SearchKdTreeNodeNearDbl_node]
    by_cases hgo : axisCoord depth target ≤ axisCoord depth p
    · rw [if_pos hgo]
      by_cases hth : radius > planeDbl depth target p
      · rw [if_pos hth, ihr', ihl', mem_visit]
        tauto
      · rw [if_neg hth, ihl', mem_visit]
        have noR : ¬ InRangeDbl target radius r (here ++ [Side.right]) ref := by
          rintro ⟨rel, n, -, h2, h3⟩
          exact hth (lt_of_le_of_lt (far_right_bound_dbl depth target p r hR hgo rel n h2) h3)
        tauto
    · rw [if_neg hgo]
      by_cases hth : radius > planeDbl depth target p
      · rw [if_pos hth, ihl', ihr', mem_visit]
        tauto
      · rw [if_neg hth, ihr', mem_visit]
        have noL : ¬ InRangeDbl target radius l (here ++ [Side.left]) ref := by
          rintro ⟨rel, n, -, h2, h3⟩
          exact hth (lt_of_le_of_lt
            (far_left_bound_dbl depth target p l hL (not_le.1 hgo) rel n h2) h3)
        tauto

/-- The range search in double arithmetic appends to its result vector a duplicate-free
list of addresses below the node it is called on. -/
theorem SearchKdTreeNodeNearDbl_append (target : Point) (radius : ℚ)
    (cur : Option KdTreeNode) :
    ∀ (here : NodeRef) (acc : List NodeRef) (depth : Nat),
      ∃ L, SearchKdTreeNodeNearDbl target cur here acc radius depth = acc ++ L ∧ L.Nodup ∧
        ∀ ref ∈ L, ∃ rel, ref = here ++ rel := by
  induction cur using ptr_induction with
  | hnull =>
    intro here acc depth
    exact ⟨[], by simp [SearchKdTreeNodeNearDbl], List.nodup_nil, by simp⟩
  | hnode p pn d l r a b ihl ihr =>
    intro here acc depth
    rw [SearchKdTreeNodeNearDbl_node]
    simp only [visit_append]
    have hV : (if Distance2BetweenPointDbl target p < radius then [here] else []) = [here] ∨
        (if Distance2BetweenPointDbl target p < radius then [here]
          else ([] : List NodeRef)) = [] := by
      by_cases h : Distance2BetweenPointDbl target p < radius <;> simp [h]
    generalize (if Distance2BetweenPointDbl target p < radius then [here] else []) = V at hV
    by_cases hgo : axisCoord depth target ≤ axisCoord depth p
    · rw [if_pos hgo]
      obtain ⟨L1, e1, n1, m1⟩ := ihl (here ++ [Side.left]) (acc ++ V) (depth + 1)
      by_cases hth : radius > planeDbl depth target p
      · rw [if_pos hth, e1]
        obtain ⟨L2, e2, n2, m2⟩ := ihr (here ++ [Side.right]) (acc ++ V ++ L1) (depth + 1)
        rw [e2]
        have := nodup_combine here V L1 L2 Side.left Side.right (by simp) hV n1 n2 m1 m2
        exact ⟨V ++ L1 ++ L2, by simp, this.1, this.2⟩
      · rw [if_neg hth, e1]
        have := nodup_combine here V L1 [] Side.left Side.right (by simp) hV n1
          List.nodup_nil m1 (by simp)
        exact ⟨V ++ L1 ++ [], by simp, this.1, this.2⟩
    · rw [if_neg hgo]
      obtain ⟨L1, e1, n1, m1⟩ := ihr (here ++ [Side.right]) (acc ++ V) (depth + 1)
      by_cases hth : radius > planeDbl depth target p
      · rw [if_pos hth, e1]
        obtain ⟨L2, e2, n2, m2⟩ := ihl (here ++ [Side.left]) (acc ++ V ++ L1) (depth + 1)
        rw [e2]
        have := nodup_combine here V L1 L2 Side.right Side.left (by simp) hV n1 n2 m1 m2
        exact ⟨V ++ L1 ++ L2, by simp, this.1, this.2⟩
      · rw [if_neg hth, e1]
        have := nodup_combine here V L1 [] Side.right Side.left (by simp) hV n1
          List.nodup_nil m1 (by simp)
        exact ⟨V ++ L1 ++ [], by simp, this.1, this.2⟩

theorem ScannedBy.skip_by {D : Point → ℚ} {S : NodeRef → Point → Prop} {st : NearestState}
    (h : ∀ ref q, S ref q → st.current_cloest_distance2 ≤ D q) : ScannedBy D S st st :=
  ⟨le_refl _, h, Or.inl rfl⟩

theorem ScannedBy.empty_by {D : Point → ℚ} {S : NodeRef → Point → Prop} {st : NearestState}
    (h : ∀ ref q, ¬ S ref q) : ScannedBy D S st st :=
  ScannedBy.skip_by fun ref q hs => absurd hs (h ref q)

theorem ScannedBy.seq_by {D : Point → ℚ} {S1 S2 S : NodeRef → Point → Prop}
    {st st1 st2 : NearestState} (h1 : ScannedBy D S1 st st1) (h2 : ScannedBy D S2 st1 st2)
    (hS : ∀ ref q, S ref q ↔ S1 ref q ∨ S2 ref q) : ScannedBy D S st st2 := by
  obtain ⟨a1, b1, c1⟩ := h1
  obtain ⟨a2, b2, c2⟩ := h2
  refine ⟨le_trans a2 a1, ?_, ?_⟩
  · intro ref q hs
    rcases (hS ref q).1 hs with h | h
    · exact le_trans a2 (b1 ref q h)
    · exact b2 ref q h
  · rcases c2 with rfl | ⟨ref, q, hs, hn, hd, hlt⟩
    · rcases c1 with rfl | ⟨ref, q, hs, hn, hd, hlt⟩
      · exact Or.inl rfl
      · exact Or.inr ⟨ref, q, (hS ref q).2 (Or.inl hs), hn, hd, hlt⟩
    · exact Or.inr ⟨ref, q, (hS ref q).2 (Or.inr hs), hn, hd, lt_of_lt_of_le hlt a1⟩

theorem ScannedBy.visit_by (D : Point → ℚ) (p : Point) (here : NodeRef) (st : NearestState) :
    ScannedBy D (fun ref q => ref = here ∧ q = p) st
      (if D p < st.current_cloest_distance2 then ⟨some here, D p⟩ else st) := by
  by_cases h : D p < st.current_cloest_distance2
  · rw [if_pos h]
    refine ⟨le_of_lt h, ?_, Or.inr ⟨here, p, ⟨rfl, rfl⟩, rfl, rfl, h⟩⟩
    rintro ref q ⟨-, rfl⟩
    exact le_refl _
  · rw [if_neg h]
    refine ⟨le_refl _, ?_, Or.inl rfl⟩
    rintro ref q ⟨-, rfl⟩
    exact not_lt.1 h

/-- Two scans of the same candidates from the same state end with the same distance. -/
theorem ScannedBy.distance_unique_by {D : Point → ℚ} {S : NodeRef → Point → Prop}
    {st s1 s2 : NearestState} (h1 : ScannedBy D S st s1) (h2 : ScannedBy D S st s2) :
    s1.current_cloest_distance2 = s2.current_cloest_distance2 := by
  obtain ⟨a1, b1, c1⟩ := h1
  obtain ⟨a2, b2, c2⟩ := h2
  rcases c1 with rfl | ⟨r1, q1, hs1, -, hd1, hlt1⟩
  · rcases c2 with rfl | ⟨r2, q2, hs2, -, hd2, hlt2⟩
    · rfl
    · have := b1 r2 q2 hs2
      linarith
  · rcases c2 with rfl | ⟨r2, q2, hs2, -, hd2, hlt2⟩
    · have := b2 r1 q1 hs1
      linarith
    · have h3 := b1 r2 q2 hs2
      have h4 := b2 r1 q1 hs1
      linarith

/-- What a scan that started from `(nullptr, DBL_MAX)` returns: the null pointer exactly
when no node is closer than `DBL_MAX`, and otherwise a stored node that is closest, all
distances being measured by `D`. -/
theorem ScannedBy.result_by {D : Point → ℚ} {t : KdTree} {st1 : NearestState}
    (h : ScannedBy D (Below (some t.root_) []) ⟨none, DBL_MAX⟩ st1) :
    (st1.current_nearest_node = none ∧ st1.current_cloest_distance2 = DBL_MAX ∧
      ∀ ref n, t.node ref = some n → DBL_MAX ≤ D n.point) ∨
    (∃ ref n, st1.current_nearest_node = some ref ∧ t.node ref = some n ∧
      D n.point = st1.current_cloest_distance2 ∧ st1.current_cloest_distance2 < DBL_MAX ∧
      ∀ ref1 n1, t.node ref1 = some n1 → D n.point ≤ D n1.point) := by
  obtain ⟨a, b, c⟩ := h
  rcases c with rfl | ⟨ref, q, hs, hn, hd, hlt⟩
  · left
    refine ⟨rfl, rfl, ?_⟩
    intro ref n hn
    exact b ref n.point ((below_root t ref n.point).2 ⟨n, hn, rfl⟩)
  · right
    obtain ⟨n, hn1, rfl⟩ := (below_root t ref q).1 hs
    refine ⟨ref, n, hn, hn1, hd, hlt, ?_⟩
    intro ref1 n1 hn1
    rw [hd]
    exact b ref1 n1.point ((below_root t ref1 n1.point).2 ⟨n1, hn1, rfl⟩)

/-- The node case of the nearest search in double arithmetic, with the two axis tests
merged. -/
theorem SearchKdTreeNodeDbl_node (target : Point) (p : Point)
    (pn : Option NodeRef) (d : ℚ) (l r : Option KdTreeNode) (a b : Int) (here : NodeRef)
    (st : NearestState) (depth : Nat) :
    SearchKdTreeNodeDbl target (some (KdTreeNode.mk p pn d l r a b)) here st depth =
      if axisCoord depth target ≤ axisCoord depth p then
        if (if Distance2BetweenPointDbl target p <
              (SearchKdTreeNodeDbl target l (here ++ [Side.left]) st
                (depth + 1)).current_cloest_distance2
            then (⟨some here, Distance2BetweenPointDbl target p⟩ : NearestState)
            else SearchKdTreeNodeDbl target l (here ++ [Side.left]) st
              (depth + 1)).current_cloest_distance2
            > planeDbl depth target p then
          SearchKdTreeNodeDbl target r (here ++ [Side.right])
            (if Distance2BetweenPointDbl target p <
              (SearchKdTreeNodeDbl target l (here ++ [Side.left]) st
                (depth + 1)).current_cloest_distance2
            then (⟨some here, Distance2BetweenPointDbl target p⟩ : NearestState)
            else SearchKdTreeNodeDbl target l (here ++ [Side.left]) st (depth + 1)) (depth + 1)
        else
          (if Distance2BetweenPointDbl target p <
              (SearchKdTreeNodeDbl target l (here ++ [Side.left]) st
                (depth + 1)).current_cloest_distance2
            then (⟨some here, Distance2BetweenPointDbl target p⟩ : NearestState)
            else SearchKdTreeNodeDbl target l (here ++ [Side.left]) st (depth + 1))
      else
        if (if Distance2BetweenPointDbl target p <
              (SearchKdTreeNodeDbl target r (here ++ [Side.right]) st
                (depth + 1)).current_cloest_distance2
            then (⟨some here, Distance2BetweenPointDbl target p⟩ : NearestState)
            else SearchKdTreeNodeDbl target r (here ++ [Side.right]) st
              (depth + 1)).current_cloest_distance2
            > planeDbl depth target p then
          SearchKdTreeNodeDbl target l (here ++ [Side.left])
            (if Distance2BetweenPointDbl target p <
              (SearchKdTreeNodeDbl target r (here ++ [Side.right]) st
                (depth + 1)).current_cloest_distance2
            then (⟨some here, Distance2BetweenPointDbl target p⟩ : NearestState)
            else SearchKdTreeNodeDbl target r (here ++ [Side.right]) st (depth + 1)) (depth + 1)
        else
          (if Distance2BetweenPointDbl target p <
              (SearchKdTreeNodeDbl target r (here ++ [Side.right]) st
                (depth + 1)).current_cloest_distance2
            then (⟨some here, Distance2BetweenPointDbl target p⟩ : NearestState)
            else SearchKdTreeNodeDbl target r (here ++ [Side.right]) st (depth + 1)) := by
  unfold SearchKdTreeNodeDbl
  rw [SearchKdTreeNodeOver]
  by_cases hd : depth % 2 = 0
  · have hp : planeDbl depth target p = dmul (dsub target.x p.x) (dsub target.x p.x) := by
      simp [planeDbl, axisCoord, hd]
    have ha : ∀ q : Point, axisCoord depth q = q.x := fun q => by simp [axisCoord, hd]
    rw [hp, ha, ha]
    simp only [hd, if_true]
    by_cases hgo : target.x ≤ p.x <;> simp [hgo]
  · have hp : planeDbl depth target p = dmul (dsub target.y p.y) (dsub target.y p.y) := by
      simp [planeDbl, axisCoord, hd]
    have ha : ∀ q : Point, axisCoord depth q = q.y := fun q => by simp [axisCoord, hd]
    rw [hp, ha, ha]
    simp only [hd, if_false]
    by_cases hgo : target.y ≤ p.y <;> simp [hgo]

theorem SearchKdTreeNodeDbl_scanned (target : Point) (cur : Option KdTreeNode) :
    ∀ (here : NodeRef) (st : NearestState) (depth : Nat), KdInvariant cur depth →
      ScannedBy (Distance2BetweenPointDbl target) (Below cur here) st
        (SearchKdTreeNodeDbl target cur here st depth) := by
  induction cur using ptr_induction with
  | hnull =>
    intro here st depth _
    simp only [SearchKdTreeNodeDbl, SearchKdTreeNodeOver]
    exact ScannedBy.empty_by (below_none here)
  | hnode p pn d l r a b ihl ihr =>
    intro here st depth hinv
    obtain ⟨hL, hR, hIl, hIr⟩ := (KdInvariant_node p pn d l r a b depth).1 hinv
    rw [SearchKdTreeNodeDbl_node]
    by_cases hgo : axisCoord depth target ≤ axisCoord depth p
    · rw [if_pos hgo]
      have h1 := ihl (here ++ [Side.left]) st (depth + 1) hIl
      generalize SearchKdTreeNodeDbl target l (here ++ [Side.left]) st (depth + 1) = st1 at h1 ⊢
      have h2 := ScannedBy.visit_by (Distance2BetweenPointDbl target) p here st1
      generalize (if Distance2BetweenPointDbl target p < st1.current_cloest_distance2
        then (⟨some here, Distance2BetweenPointDbl target p⟩ : NearestState) else st1) = st2
        at h2 ⊢
      have h12 := ScannedBy.seq_by h1 h2 (fun ref q => Iff.rfl)
      have h3 : ScannedBy (Distance2BetweenPointDbl target) (Below r (here ++ [Side.right])) st2
          (if st2.current_cloest_distance2 > planeDbl depth target p
            then SearchKdTreeNodeDbl target r (here ++ [Side.right]) st2 (depth + 1)
            else st2) := by
        by_cases hth : st2.current_cloest_distance2 > planeDbl depth target p
        · rw [if_pos hth]
          exact ihr (here ++ [Side.right]) st2 (depth + 1) hIr
        · rw [if_neg hth]
          refine ScannedBy.skip_by ?_
          rintro ref q ⟨rel, n, -, h2, rfl⟩
          exact le_trans (not_lt.1 hth) (far_right_bound_dbl depth target p r hR hgo rel n h2)
      refine ScannedBy.seq_by h12 h3 ?_
      intro ref q
      rw [below_node]
      tauto
    · rw [if_neg hgo]
      have h1 := ihr (here ++ [Side.right]) st (depth + 1) hIr
      generalize SearchKdTreeNodeDbl target r (here ++ [Side.right]) st (depth + 1) = st1 at h1 ⊢
      have h2 := ScannedBy.visit_by (Distance2BetweenPointDbl target) p here st1
      generalize (if Distance2BetweenPointDbl target p < st1.current_cloest_distance2
        then (⟨some here, Distance2BetweenPointDbl target p⟩ : NearestState) else st1) = st2
        at h2 ⊢
      have h12 := ScannedBy.seq_by h1 h2 (fun ref q => Iff.rfl)
      have h3 : ScannedBy (Distance2BetweenPointDbl target) (Below l (here ++ [Side.left])) st2
          (if st2.current_cloest_distance2 > planeDbl depth target p
            then SearchKdTreeNodeDbl target l (here ++ [Side.left]) st2 (depth + 1)
            else st2) := by
        by_cases hth : st2.current_cloest_distance2 > planeDbl depth target p
        · rw [if_pos hth]
          exact ihl (here ++ [Side.left]) st2 (depth + 1) hIl
        · rw [if_neg hth]
          refine ScannedBy.skip_by ?_
          rintro ref q ⟨rel, n, -, h2, rfl⟩
          exact le_trans (not_lt.1 hth)
            (far_left_bound_dbl depth target p l hL (not_le.1 hgo) rel n h2)
      refine ScannedBy.seq_by h12 h3 ?_
      intro ref q
      rw [below_node]
      tauto

theorem BruceNearestLoopDbl_cons (target : Point) (ref : NodeRef) (p : Point)
    (pn : Option NodeRef) (d : ℚ) (l r : Option KdTreeNode) (a b : Int)
    (q : List (NodeRef × KdTreeNode)) (st : NearestState) :
    BruceNearestLoopDbl target ((ref, KdTreeNode.mk p pn d l r a b) :: q) st =
      BruceNearestLoopDbl target (pushChildren ref l r q)
        (if Distance2BetweenPointDbl target p < st.current_cloest_distance2
          then ⟨some ref, Distance2BetweenPointDbl target p⟩ else st) := by
  rw [BruceNearestLoopDbl]

theorem BruceNearestLoopDbl_scanned (target : Point) :
    ∀ (k : Nat) (q : List (NodeRef × KdTreeNode)) (st : NearestState), queueSize q ≤ k →
      ScannedBy (Distance2BetweenPointDbl target) (QueueBelow q) st
        (BruceNearestLoopDbl target q st) := by
  intro k
  induction k with
  | zero =>
    intro q st hk
    cases q with
    | nil =>
      rw [BruceNearestLoopDbl]
      exact ScannedBy.empty_by (by rintro ref pt ⟨e, he, -⟩; simp at he)
    | cons e q =>
      obtain ⟨ref, ⟨p, pn, d, l, r, a, b⟩⟩ := e
      have := queueSize_pushChildren ref p pn d l r a b q
      omega
  | succ k ih =>
    intro q st hk
    cases q with
    | nil =>
      rw [BruceNearestLoopDbl]
      exact ScannedBy.empty_by (by rintro ref pt ⟨e, he, -⟩; simp at he)
    | cons e q =>
      obtain ⟨ref, ⟨p, pn, d, l, r, a, b⟩⟩ := e
      have hlt := queueSize_pushChildren ref p pn d l r a b q
      rw [BruceNearestLoopDbl_cons]
      have h1 := ScannedBy.visit_by (Distance2BetweenPointDbl target) p ref st
      have h2 := ih (pushChildren ref l r q)
        (if Distance2BetweenPointDbl target p < st.current_cloest_distance2
          then ⟨some ref, Distance2BetweenPointDbl target p⟩ else st) (by omega)
      exact ScannedBy.seq_by h1 h2 (queueBelow_cons ref p pn d l r a b q)

/-- The final state of the pruned nearest search in double arithmetic, on an index that
satisfies the ordering invariant. -/
theorem nearest_scanned_dbl (t : KdTree) (h : KdInvariant (some t.root_) 0) (target : Point) :
    ScannedBy (Distance2BetweenPointDbl target) (Below (some t.root_) []) ⟨none, DBL_MAX⟩
      (SearchKdTreeNodeDbl target (some t.root_) [] ⟨none, DBL_MAX⟩ 0) :=
  SearchKdTreeNodeDbl_scanned target (some t.root_) [] ⟨none, DBL_MAX⟩ 0 h

/-- The final state of the breadth-first nearest scan in double arithmetic. -/
theorem bruce_scanned_dbl (t : KdTree) (target : Point) :
    ScannedBy (Distance2BetweenPointDbl target) (Below (some t.root_) []) ⟨none, DBL_MAX⟩
      (BruceNearestLoopDbl target [([], t.root_)] ⟨none, DBL_MAX⟩) := by
  have h := BruceNearestLoopDbl_scanned target _ [([], t.root_)] ⟨none, DBL_MAX⟩ (le_refl _)
  obtain ⟨a, b, c⟩ := h
  refine ⟨a, ?_, ?_⟩
  · intro ref q hs
    exact b ref q ⟨_, List.mem_singleton.2 rfl, hs⟩
  · rcases c with c | ⟨ref, q, ⟨e, he, hs⟩, h2⟩
    · exact Or.inl c
    · rw [List.mem_singleton.1 he] at hs
      exact Or.inr ⟨ref, q, hs, h2⟩

/-- Membership in the result of the range query in double arithmetic, on an index that
satisfies the ordering invariant. -/
theorem NearKdTreeNodeDbl_mem (t : KdTree) (h : KdInvariant (some t.root_) 0) (target : Point)
    (radius : ℚ) (ref : NodeRef) :
    ref ∈ t.NearKdTreeNodeDbl target radius ↔
      ∃ n, t.node ref = some n ∧
        Distance2BetweenPointDbl target n.point < dmul radius radius := by
  unfold KdTree.NearKdTreeNodeDbl
  rw [SearchKdTreeNodeNearDbl_mem target (dmul radius radius) (some t.root_) [] [] 0 h ref]
  constructor
  · rintro (h1 | ⟨rel, n, h1, h2, h3⟩)
    · simp at h1
    · exact ⟨n, by simpa [KdTree.node, h1] using h2, h3⟩
  · rintro ⟨n, h1, h2⟩
    exact Or.inr ⟨ref, n, by simp, h1, h2⟩

theorem NearKdTreeNodeDbl_nodup (t : KdTree) (target : Point) (radius : ℚ) :
    (t.NearKdTreeNodeDbl target radius).Nodup := by
  obtain ⟨L, e, n, -⟩ :=
    SearchKdTreeNodeNearDbl_append target (dmul radius radius) (some t.root_) [] [] 0
  unfold KdTree.NearKdTreeNodeDbl
  rw [e]
  simpa using n

/-! ## Evaluating the rounding -/

theorem binadeExp_of_binade {a : ℚ} {e : ℤ} (he : -1022 ≤ e) (h1 : 2 ^ e ≤ a)
    (h2 : a < 2 ^ (e + 1)) : binadeExp a = e := by
  have ha : 0 < a := lt_of_lt_of_le (two_zpow_pos e) h1
  have hlog : Int.log 2 a = e := by
    apply le_antisymm
    · have := (Int.lt_zpow_iff_log_lt (b := 2) (by norm_num) ha).1 (by exact_mod_cast h2)
      omega
    · exact (Int.zpow_le_iff_le_log (b := 2) (by norm_num) ha).1 (by exact_mod_cast h1)
  unfold binadeExp
  rw [hlog]
  exact max_eq_left he

theorem binadeExp_of_small {a : ℚ} (h0 : 0 < a) (h : a < 2 ^ (-1022 : ℤ)) :
    binadeExp a = -1022 := by
  unfold binadeExp
  apply max_eq_right
  have h1 : Int.log 2 a < -1022 :=
    (Int.lt_zpow_iff_log_lt (b := 2) (by norm_num) h0).1 (by exact_mod_cast h)
  exact le_of_lt h1

/-- A value in the binade of exponent `e` rounds to a multiple of 2^(e-52). -/
theorem roundDouble_of_binade {q : ℚ} (e n : ℤ) (he : -1022 ≤ e) (h1 : 2 ^ e ≤ q)
    (h2 : q < 2 ^ (e + 1)) (hlt : q < 2 ^ 1024 - 2 ^ 970)
    (hn : roundHalfEven (q / 2 ^ (e - 52)) = n) : roundDouble q = (n : ℚ) * 2 ^ (e - 52) := by
  have hq : 0 ≤ q := le_trans (le_of_lt (two_zpow_pos e)) h1
  rw [roundDouble_of_nonneg hq, roundMagnitude_of_lt hlt, binadeExp_of_binade he h1 h2, hn]

/-- A value below the smallest normal double rounds to a multiple of 2^-1074. -/
theorem roundDouble_of_small {q : ℚ} (n : ℤ) (h0 : 0 ≤ q) (h : q < 2 ^ (-1022 : ℤ))
    (hn : roundHalfEven (q / 2 ^ (-1074 : ℤ)) = n) :
    roundDouble q = (n : ℚ) * 2 ^ (-1074 : ℤ) := by
  rcases eq_or_lt_of_le h0 with rfl | hpos
  · rw [roundDouble_zero, ← hn]
    simp [roundHalfEven]
  · have hlt : q < 2 ^ 1024 - 2 ^ 970 := lt_of_lt_of_le h (by norm_num)
    rw [roundDouble_of_nonneg h0, roundMagnitude_of_lt hlt, binadeExp_of_small hpos h, ← hn]
    norm_num

/-- Underflow: a non-negative value below half the smallest subnormal rounds to zero. -/
theorem roundDouble_underflow {q : ℚ} (h0 : 0 ≤ q) (h : q < 2 ^ (-1075 : ℤ)) :
    roundDouble q = 0 := by
  have hs : q < 2 ^ (-1022 : ℤ) := lt_of_lt_of_le h (two_zpow_mono (by norm_num))
  have hn : roundHalfEven (q / 2 ^ (-1074 : ℤ)) = 0 := by
    apply roundHalfEven_eq_of_near
    · have : 0 ≤ q / 2 ^ (-1074 : ℤ) := div_nonneg h0 (le_of_lt (two_zpow_pos _))
      norm_num at this ⊢
      linarith
    · rw [div_lt_iff₀ (two_zpow_pos _)]
      have e : (2 : ℚ) ^ (-1075 : ℤ) = (((0 : ℤ) : ℚ) + 1 / 2) * 2 ^ (-1074 : ℤ) := by
        rw [show (-1075 : ℤ) = -1074 - 1 by norm_num, zpow_sub_one₀ (by norm_num)]
        ring
      rw [← e]
      exact h
  rw [roundDouble_of_small 0 h0 hs hn]
  simp

/-- Overflow: a value from `DBL_MAX` plus half a spacing on rounds to `+inf`. -/
theorem roundDouble_overflow {q : ℚ} (h : 2 ^ 1024 - 2 ^ 970 ≤ q) : roundDouble q = 2 ^ 1024 := by
  have hq : 0 ≤ q := le_trans (by norm_num) h
  rw [roundDouble_of_nonneg hq, roundMagnitude_of_ge h]

theorem roundDouble_neg (q : ℚ) : roundDouble (-q) = -roundDouble q := by
  rcases lt_trichotomy q 0 with h | rfl | h
  · rw [roundDouble_of_neg h, roundDouble_of_nonneg (by linarith : (0 : ℚ) ≤ -q), neg_neg]
  · simp [roundDouble_zero]
  · rw [roundDouble_of_neg (by linarith : -q < 0), neg_neg, roundDouble_of_nonneg (le_of_lt h)]

/-- A power of two in the normal range is a double. -/
theorem roundDouble_two_zpow (e : ℤ) (he : -1022 ≤ e) (he2 : e ≤ 1023) :
    roundDouble (2 ^ e) = 2 ^ e := by
  have hlt : (2 : ℚ) ^ e < 2 ^ 1024 - 2 ^ 970 := by
    have : (2 : ℚ) ^ e ≤ 2 ^ (1023 : ℤ) := two_zpow_mono he2
    have h3 : (2 : ℚ) ^ (1023 : ℤ) < 2 ^ 1024 - 2 ^ 970 := by norm_num
    linarith
  have hn : roundHalfEven ((2 : ℚ) ^ e / 2 ^ (e - 52)) = 2 ^ 52 := by
    rw [two_zpow_split e, mul_div_assoc, div_self (ne_of_gt (two_zpow_pos _)), mul_one]
    exact roundHalfEven_int _
  rw [roundDouble_of_binade e (2 ^ 52) he (le_refl _)
    (zpow_lt_zpow_right₀ (by norm_num) (by omega)) hlt hn]
  exact (two_zpow_split e).symm

/-- A value of the binade of exponent `e` that is within half a spacing of the multiple
`n * 2^(e-52)` rounds to it. -/
theorem roundDouble_near {q : ℚ} (e n : ℤ) (he : -1022 ≤ e) (h1 : 2 ^ e ≤ q)
    (h2 : q < 2 ^ (e + 1)) (hlt : q < 2 ^ 1024 - 2 ^ 970)
    (hlo : ((n : ℚ) - 1 / 2) * 2 ^ (e - 52) < q) (hhi : q < ((n : ℚ) + 1 / 2) * 2 ^ (e - 52)) :
    roundDouble q = (n : ℚ) * 2 ^ (e - 52) := by
  apply roundDouble_of_binade e n he h1 h2 hlt
  apply roundHalfEven_eq_of_near
  · rwa [lt_div_iff₀ (two_zpow_pos _)]
  · rwa [div_lt_iff₀ (two_zpow_pos _)]

/-- A value half way between two neighbouring doubles rounds to the one with the even
significand. -/
theorem roundDouble_tie_even {q : ℚ} (e n : ℤ) (he : -1022 ≤ e) (h1 : 2 ^ e ≤ q)
    (h2 : q < 2 ^ (e + 1)) (hlt : q < 2 ^ 1024 - 2 ^ 970)
    (hq : q = ((n : ℚ) + 1 / 2) * 2 ^ (e - 52)) (hn : n % 2 = 0) :
    roundDouble q = (n : ℚ) * 2 ^ (e - 52) := by
  apply roundDouble_of_binade e n he h1 h2 hlt
  have hx : q / 2 ^ (e - 52) = (n : ℚ) + 1 / 2 := by
    rw [hq, mul_div_assoc, div_self (ne_of_gt (two_zpow_pos _)), mul_one]
  rw [hx]
  have hf : ⌊(n : ℚ) + 1 / 2⌋ = n := by
    rw [Int.floor_eq_iff]
    constructor <;> norm_num
  unfold roundHalfEven
  rw [hf]
  have e1 : ¬ ((n : ℚ) + 1 / 2 - (n : ℚ) < 1 / 2) := by norm_num
  have e2 : ¬ ((1 : ℚ) / 2 < (n : ℚ) + 1 / 2 - (n : ℚ)) := by norm_num
  rw [if_neg e1, if_neg e2, if_pos hn]

/-- The integers below 2^53 are doubles. -/
theorem roundDouble_natCast (n : ℕ) (h : n < 2 ^ 53) : roundDouble (n : ℚ) = n := by
  rcases Nat.eq_zero_or_pos n with rfl | hpos
  · simpa using roundDouble_zero
  have hk : Nat.log 2 n ≤ 52 := by
    have := Nat.log_lt_of_lt_pow (b := 2) (by omega) h
    omega
  have hlog : Int.log 2 (n : ℚ) = (Nat.log 2 n : ℤ) := Int.log_natCast 2 n
  have hlo : (2 : ℚ) ^ (Nat.log 2 n : ℤ) ≤ n := by
    rw [zpow_natCast]
    exact_mod_cast Nat.pow_log_le_self 2 (by omega)
  have hhi : (n : ℚ) < 2 ^ ((Nat.log 2 n : ℤ) + 1) := by
    rw [show ((Nat.log 2 n : ℤ) + 1) = ((Nat.log 2 n + 1 : ℕ) : ℤ) by push_cast; ring, zpow_natCast]
    exact_mod_cast Nat.lt_pow_succ_log_self (by norm_num) n
  have hlt : (n : ℚ) < 2 ^ 1024 - 2 ^ 970 := by
    have : (n : ℚ) < 2 ^ 53 := by exact_mod_cast h
    have h3 : (2 : ℚ) ^ 53 < 2 ^ 1024 - 2 ^ 970 := by norm_num
    linarith
  have hsplit : (2 : ℚ) ^ ((Nat.log 2 n : ℤ) - 52) * 2 ^ (52 - Nat.log 2 n) = 1 := by
    rw [← zpow_natCast, ← zpow_add₀ (by norm_num : (2 : ℚ) ≠ 0)]
    rw [Nat.cast_sub hk]
    simp
  have hn : roundHalfEven ((n : ℚ) / 2 ^ ((Nat.log 2 n : ℤ) - 52)) =
      ((n * 2 ^ (52 - Nat.log 2 n) : ℕ) : ℤ) := by
    have : (n : ℚ) / 2 ^ ((Nat.log 2 n : ℤ) - 52) =
        (((n * 2 ^ (52 - Nat.log 2 n) : ℕ) : ℤ) : ℚ) := by
      rw [div_eq_iff (ne_of_gt (two_zpow_pos _))]
      push_cast
      rw [mul_assoc, mul_comm ((2 : ℚ) ^ (52 - Nat.log 2 n)), hsplit, mul_one]
    rw [this]
    exact roundHalfEven_int _
  rw [roundDouble_of_binade (Nat.log 2 n : ℤ) _ (by omega) hlo hhi hlt hn]
  push_cast
  rw [mul_assoc, mul_comm ((2 : ℚ) ^ (52 - Nat.log 2 n)), hsplit, mul_one]

/-! ## The contracts of the searches in double arithmetic (claims C2, C3, C6, C19) -/

/-- C2 (amended): on every index built by construction and `Insert` calls,
`NearKdTreeNode(target, radius)` in double arithmetic returns exactly the stored nodes whose
squared x-y distance to `target`, as computed in double arithmetic, is strictly below the
product `radius * radius`, as computed in double arithmetic: the pruning discards no node
that passes this test and no other node is returned. -/
theorem range_query_computed (seed : Option Point) (calls : List InsertCall) (target : Point)
    (radius : ℚ) (ref : NodeRef) :
    ref ∈ (KdTree.build seed calls).NearKdTreeNodeDbl target radius ↔
      ∃ n, (KdTree.build seed calls).node ref = some n ∧
        Distance2BetweenPointDbl target n.point < dmul radius radius :=
  NearKdTreeNodeDbl_mem _ (KdInvariant_build seed calls) target radius ref

/-- C3 (amended): on every index built by construction and `Insert` calls, the squared
distance, as computed in double arithmetic, from the target to the node returned by
`NearestKdTreeNode` equals the computed squared distance from the target to the node
returned by `BruceNearestKdTreeNode` (both are absent when both return the null pointer):
the two nodes differ only among ties of the computed distance. -/
theorem nearest_computed_distance_eq_bruce (seed : Option Point) (calls : List InsertCall)
    (target : Point) :
    (KdTree.build seed calls).distance2ToDbl target
        ((KdTree.build seed calls).NearestKdTreeNodeDbl target) =
      (KdTree.build seed calls).distance2ToDbl target
        ((KdTree.build seed calls).BruceNearestKdTreeNodeDbl target) := by
  have h1 := nearest_scanned_dbl _ (KdInvariant_build seed calls) target
  have h2 := bruce_scanned_dbl (KdTree.build seed calls) target
  have hd := h1.distance_unique_by h2
  unfold KdTree.NearestKdTreeNodeDbl KdTree.BruceNearestKdTreeNodeDbl
  rcases h1.result_by with ⟨a1, b1, -⟩ | ⟨r1, n1, a1, b1, c1, d1, -⟩ <;>
    rcases h2.result_by with ⟨a2, b2, -⟩ | ⟨r2, n2, a2, b2, c2, d2, -⟩
  · rw [a1, a2]
  · rw [hd, c2.symm] at b1
    rw [b1] at c2
    rw [← c2] at d2
    exact absurd d2 (lt_irrefl _)
  · rw [← hd, ← c1] at b2
    rw [← c1, b2] at d1
    exact absurd d1 (lt_irrefl _)
  · rw [a1, a2]
    simp only [KdTree.distance2ToDbl, b1, b2, Option.map_some']
    rw [c1, c2, hd]

/-- C6 (amended): on every index built by construction and `Insert` calls, a stored node
whose computed squared distance to the target equals the computed product `r * r` is not
reported by `NearKdTreeNode(target, r)`, and it is reported by `NearKdTreeNode(target, r1)`
for every `r1` whose computed product `r1 * r1` is above the computed `r * r`. -/
theorem range_boundary_strict_computed (seed : Option Point) (calls : List InsertCall)
    (target : Point) (r : ℚ) (ref : NodeRef) (n : KdTreeNode)
    (hn : (KdTree.build seed calls).node ref = some n)
    (hd : Distance2BetweenPointDbl target n.point = dmul r r) :
    ref ∉ (KdTree.build seed calls).NearKdTreeNodeDbl target r ∧
      ∀ r1 : ℚ, dmul r r < dmul r1 r1 →
        ref ∈ (KdTree.build seed calls).NearKdTreeNodeDbl target r1 := by
  constructor
  · rw [NearKdTreeNodeDbl_mem _ (KdInvariant_build seed calls)]
    rintro ⟨n1, h1, h2⟩
    rw [hn] at h1
    cases h1
    rw [hd] at h2
    exact lt_irrefl _ h2
  · intro r1 h
    rw [NearKdTreeNodeDbl_mem _ (KdInvariant_build seed calls)]
    refine ⟨n, hn, ?_⟩
    rw [hd]
    exact h

/-- C19: on every index built by construction and `Insert` calls the result of
`NearKdTreeNode` in double arithmetic contains no address twice, and its length is the
number of stored nodes that pass the test of the search (computed squared distance
strictly below the computed `radius * radius`). -/
theorem range_query_each_node_once (seed : Option Point) (calls : List InsertCall)
    (target : Point) (radius : ℚ) :
    ((KdTree.build seed calls).NearKdTreeNodeDbl target radius).Nodup ∧
      ((KdTree.build seed calls).NearKdTreeNodeDbl target radius).length =
        ((KdTree.build seed calls).refs.filter
          ((KdTree.build seed calls).withinRangeDbl target radius)).length := by
  have hn := NearKdTreeNodeDbl_nodup (KdTree.build seed calls) target radius
  refine ⟨hn, List.Perm.length_eq ?_⟩
  have hr : (KdTree.build seed calls).refs.Nodup := refsBelow_nodup _
  refine (List.perm_ext_iff_of_nodup hn (hr.filter _)).2 ?_
  intro ref
  rw [NearKdTreeNodeDbl_mem _ (KdInvariant_build seed calls), List.mem_filter, mem_refs]
  unfold KdTree.withinRangeDbl
  constructor
  · rintro ⟨n, h1, h2⟩
    exact ⟨⟨n, h1⟩, by simp [h1, h2]⟩
  · rintro ⟨⟨n, h1⟩, h2⟩
    rw [h1] at h2
    exact ⟨n, h1, by simpa using h2⟩

/-! ## Evaluation at concrete doubles -/

theorem dsub_zero_right {a : ℚ} (h : roundDouble a = a) : dsub a 0 = a := by
  rw [dsub_def, sub_zero, h]

theorem dsub_zero_left {a : ℚ} (h : roundDouble a = a) : dsub 0 a = -a := by
  rw [dsub_def, zero_sub, roundDouble_neg, h]

theorem dmul_of_eq {a b c : ℚ} (hc : a * b = c) (h : roundDouble c = c) : dmul a b = c := by
  rw [dmul_def, hc, h]

theorem dadd_of_eq {a b c : ℚ} (hc : a + b = c) (h : roundDouble c = c) : dadd a b = c := by
  rw [dadd_def, hc, h]

theorem roundDouble_ofNat (n : ℕ) (h : n < 2 ^ 53) (q : ℚ) (hq : q = n) : roundDouble q = q := by
  rw [hq]
  exact roundDouble_natCast n h

/-- Witness of C6 (amended): the root (0,0,0) is at computed squared distance
25 = 5 * 5 from (3,4,0); it is not reported for radius 5 and is reported for radius 6. -/
theorem range_boundary_strict_computed_witness :
    Distance2BetweenPointDbl ⟨3, 4, 0⟩ (KdTreeNode.ofPoint ⟨0, 0, 0⟩).point = dmul 5 5 ∧
      dmul 5 5 < dmul 6 6 ∧
      [] ∉ (KdTree.build (some ⟨0, 0, 0⟩) []).NearKdTreeNodeDbl ⟨3, 4, 0⟩ 5 ∧
      [] ∈ (KdTree.build (some ⟨0, 0, 0⟩) []).NearKdTreeNodeDbl ⟨3, 4, 0⟩ 6 := by
  have d3 : roundDouble 3 = 3 := roundDouble_ofNat 3 (by norm_num) 3 (by norm_num)
  have d4 : roundDouble 4 = 4 := roundDouble_ofNat 4 (by norm_num) 4 (by norm_num)
  have d9 : roundDouble 9 = 9 := roundDouble_ofNat 9 (by norm_num) 9 (by norm_num)
  have d16 : roundDouble 16 = 16 := roundDouble_ofNat 16 (by norm_num) 16 (by norm_num)
  have d25 : roundDouble 25 = 25 := roundDouble_ofNat 25 (by norm_num) 25 (by norm_num)
  have d36 : roundDouble 36 = 36 := roundDouble_ofNat 36 (by norm_num) 36 (by norm_num)
  have h5 : dmul 5 5 = 25 := dmul_of_eq (by norm_num) d25
  have h6 : dmul 6 6 = 36 := dmul_of_eq (by norm_num) d36
  have hd : Distance2BetweenPointDbl ⟨3, 4, 0⟩ (KdTreeNode.ofPoint ⟨0, 0, 0⟩).point =
      dmul 5 5 := by
    simp only [Distance2BetweenPointDbl, KdTreeNode.ofPoint, KdTreeNode.point]
    rw [dsub_zero_right d3, dsub_zero_right d4, dmul_of_eq (by norm_num) d9,
      dmul_of_eq (by norm_num) d16, dadd_of_eq (by norm_num) d25, h5]
  have hlt : dmul 5 5 < dmul 6 6 := by
    rw [h5, h6]
    norm_num
  have h := range_boundary_strict_computed (some ⟨0, 0, 0⟩) [] ⟨3, 4, 0⟩ 5 []
    (KdTreeNode.ofPoint ⟨0, 0, 0⟩) rfl hd
  exact ⟨hd, hlt, h.1, h.2 6 hlt⟩

/-- A value of the binade of exponent `e` within half a spacing of the double `r`. -/
theorem roundDouble_eq_near {q r : ℚ} (e n : ℤ) (he : -1022 ≤ e) (h1 : 2 ^ e ≤ q)
    (h2 : q < 2 ^ (e + 1)) (hlt : q < 2 ^ 1024 - 2 ^ 970)
    (hlo : ((n : ℚ) - 1 / 2) * 2 ^ (e - 52) < q) (hhi : q < ((n : ℚ) + 1 / 2) * 2 ^ (e - 52))
    (hr : r = (n : ℚ) * 2 ^ (e - 52)) : roundDouble q = r := by
  rw [hr]
  exact roundDouble_near e n he h1 h2 hlt hlo hhi

theorem roundDouble_one : roundDouble 1 = 1 :=
  roundDouble_ofNat 1 (by norm_num) 1 (by norm_num)

/-- C2 (counterexample): on the pristine index, whose root stores (0,0,0), take the target
(1, 5 * 2^-28, 0) and the radius 1 + 2^-52, all of them doubles. The root's squared distance
1 + 25 * 2^-56 is strictly below radius * radius = 1 + 2^-51 + 2^-104, but the computed
squared distance and the computed `radius * radius` both round to 1 + 2^-51, the test
`distance2 < radius` fails, and `NearKdTreeNode` returns nothing. -/
theorem range_query_misses_node_in_range :
    (roundDouble (5 / 2 ^ 28) = 5 / 2 ^ 28 ∧ roundDouble (1 + 1 / 2 ^ 52) = 1 + 1 / 2 ^ 52) ∧
      (KdTree.build none []).node [] = some KdTreeNode.new ∧
      Distance2BetweenPoint ⟨1, 5 / 2 ^ 28, 0⟩ KdTreeNode.new.point <
        (1 + 1 / 2 ^ 52) * (1 + 1 / 2 ^ 52) ∧
      Distance2BetweenPointDbl ⟨1, 5 / 2 ^ 28, 0⟩ KdTreeNode.new.point = 1 + 2 / 2 ^ 52 ∧
      dmul (1 + 1 / 2 ^ 52) (1 + 1 / 2 ^ 52) = 1 + 2 / 2 ^ 52 ∧
      (KdTree.build none []).NearKdTreeNodeDbl ⟨1, 5 / 2 ^ 28, 0⟩ (1 + 1 / 2 ^ 52) = [] := by
  have db : roundDouble (5 / 2 ^ 28) = 5 / 2 ^ 28 := by
    apply roundDouble_eq_near (-26) (5 * 2 ^ 50) <;> norm_num
  have dc : roundDouble (25 / 2 ^ 56) = 25 / 2 ^ 56 := by
    apply roundDouble_eq_near (-52) (25 * 2 ^ 48) <;> norm_num
  have dd : roundDouble (1 + 25 / 2 ^ 56) = 1 + 2 / 2 ^ 52 := by
    apply roundDouble_eq_near 0 (2 ^ 52 + 2) <;> norm_num
  have de : roundDouble ((1 + 1 / 2 ^ 52) * (1 + 1 / 2 ^ 52)) = 1 + 2 / 2 ^ 52 := by
    apply roundDouble_eq_near 0 (2 ^ 52 + 2) <;> norm_num
  have dr : roundDouble (1 + 1 / 2 ^ 52) = 1 + 1 / 2 ^ 52 := by
    apply roundDouble_eq_near 0 (2 ^ 52 + 1) <;> norm_num
  have hx : dsub 1 0 = 1 := dsub_zero_right roundDouble_one
  have hxx : dmul 1 1 = 1 := dmul_of_eq (by norm_num) roundDouble_one
  have hy : dsub (5 / 2 ^ 28) 0 = 5 / 2 ^ 28 := dsub_zero_right db
  have hyy : dmul (5 / 2 ^ 28) (5 / 2 ^ 28) = 25 / 2 ^ 56 := dmul_of_eq (by norm_num) dc
  have hs : dadd 1 (25 / 2 ^ 56) = 1 + 2 / 2 ^ 52 := by rw [dadd_def, dd]
  have hr : dmul (1 + 1 / 2 ^ 52) (1 + 1 / 2 ^ 52) = 1 + 2 / 2 ^ 52 := by rw [dmul_def, de]
  have hD : Distance2BetweenPointDbl ⟨1, 5 / 2 ^ 28, 0⟩ KdTreeNode.new.point =
      1 + 2 / 2 ^ 52 := by
    simp only [Distance2BetweenPointDbl, KdTreeNode.new, KdTreeNode.point]
    rw [hx, hy, hxx, hyy, hs]
  refine ⟨⟨db, dr⟩, rfl, ?_, hD, hr, ?_⟩
  · norm_num [Distance2BetweenPoint, KdTreeNode.new, KdTreeNode.point]
  · have hD1 : Distance2BetweenPointDbl ⟨1, 5 / 2 ^ 28, 0⟩ ⟨0, 0, 0⟩ = 1 + 2 / 2 ^ 52 := hD
    simp only [KdTree.NearKdTreeNodeDbl, KdTree.build, KdTree.construct, KdTree.new,
      KdTreeNode.new, List.foldl, SearchKdTreeNodeNearDbl, hD1, hr, hx, hxx, hy, hyy]
    norm_num

theorem SearchKdTreeNodeDbl_none (target : Point) (here : NodeRef) (st : NearestState)
    (depth : Nat) : SearchKdTreeNodeDbl target none here st depth = st := by
  simp only [SearchKdTreeNodeDbl, SearchKdTreeNodeOver]

/-- The nearest search at a node without a right child whose left subtree is visited
first. -/
theorem SearchKdTreeNodeDbl_left_only (target : Point) (p : Point) (pn : Option NodeRef)
    (d : ℚ) (l : Option KdTreeNode) (a b : Int) (here : NodeRef) (st : NearestState)
    (depth : Nat) (h : axisCoord depth target ≤ axisCoord depth p) :
    SearchKdTreeNodeDbl target (some (KdTreeNode.mk p pn d l none a b)) here st depth =
      if Distance2BetweenPointDbl target p <
          (SearchKdTreeNodeDbl target l (here ++ [Side.left]) st
            (depth + 1)).current_cloest_distance2
        then (⟨some here, Distance2BetweenPointDbl target p⟩ : NearestState)
        else SearchKdTreeNodeDbl target l (here ++ [Side.left]) st (depth + 1) := by
  rw [SearchKdTreeNodeDbl_node, if_pos h, SearchKdTreeNodeDbl_none, ite_self]

theorem BruceNearestLoopDbl_nil (target : Point) (st : NearestState) :
    BruceNearestLoopDbl target [] st = st := by
  rw [BruceNearestLoopDbl]

/-- C3 (counterexample): seed the index at (1,0,0) and insert (1, 2^-30, 0), which becomes
the left child of the root; the target is the origin. The exact squared distances are 1 to
the root and 1 + 2^-60 to the leaf; the computed squared distance of the leaf rounds to 1.
The pruned search visits the leaf first and keeps it (the root is not strictly closer in
double arithmetic), the breadth-first scan keeps the root: the two returned nodes lie at
different squared distances from the target. -/
theorem nearest_and_bruce_at_different_distances :
    (KdTree.build (some ⟨1, 0, 0⟩) [InsertCall.plain ⟨1, 1 / 2 ^ 30, 0⟩]).NearestKdTreeNodeDbl
        ⟨0, 0, 0⟩ = some [Side.left] ∧
      (KdTree.build (some ⟨1, 0, 0⟩)
        [InsertCall.plain ⟨1, 1 / 2 ^ 30, 0⟩]).BruceNearestKdTreeNodeDbl ⟨0, 0, 0⟩ = some [] ∧
      (KdTree.build (some ⟨1, 0, 0⟩) [InsertCall.plain ⟨1, 1 / 2 ^ 30, 0⟩]).distance2To
        ⟨0, 0, 0⟩ (some [Side.left]) = some (1 + 1 / 2 ^ 60) ∧
      (KdTree.build (some ⟨1, 0, 0⟩) [InsertCall.plain ⟨1, 1 / 2 ^ 30, 0⟩]).distance2To
        ⟨0, 0, 0⟩ (some []) = some 1 ∧
      (1 + 1 / 2 ^ 60 : ℚ) ≠ 1 := by
  have hroot : (KdTree.build (some ⟨1, 0, 0⟩) [InsertCall.plain ⟨1, 1 / 2 ^ 30, 0⟩]).root_ =
      KdTreeNode.mk ⟨1, 0, 0⟩ none 0
        (some (KdTreeNode.mk ⟨1, 1 / 2 ^ 30, 0⟩ none 0 none none 0 0)) none 0 0 := by
    simp [KdTree.build, KdTree.construct, KdTree.ofPoint, KdTree.insert, KdTree.call,
      KdTree.AddPointToKdTree, AddPointToKdTreeRec, KdTreeNode.ofPoint]
  have dy : roundDouble (1 / 2 ^ 30) = 1 / 2 ^ 30 := by
    apply roundDouble_eq_near (-30) (2 ^ 52) <;> norm_num
  have dyy : roundDouble (1 / 2 ^ 60) = 1 / 2 ^ 60 := by
    apply roundDouble_eq_near (-60) (2 ^ 52) <;> norm_num
  have ds : roundDouble (1 + 1 / 2 ^ 60) = 1 := by
    apply roundDouble_eq_near 0 (2 ^ 52) <;> norm_num
  have hx : dsub 0 1 = -1 := dsub_zero_left roundDouble_one
  have hxx : dmul (-1) (-1) = 1 := dmul_of_eq (by norm_num) roundDouble_one
  have h0 : dsub 0 0 = 0 := dsub_self 0
  have h00 : dmul 0 0 = 0 := dmul_of_eq (by norm_num) roundDouble_zero
  have h10 : dadd 1 0 = 1 := dadd_of_eq (by norm_num) roundDouble_one
  have hy : dsub 0 (1 / 2 ^ 30) = -(1 / 2 ^ 30) := dsub_zero_left dy
  have hyy : dmul (-(1 / 2 ^ 30)) (-(1 / 2 ^ 30)) = 1 / 2 ^ 60 :=
    dmul_of_eq (by norm_num) dyy
  have hs : dadd 1 (1 / 2 ^ 60) = 1 := by rw [dadd_def, ds]
  have hDroot : Distance2BetweenPointDbl ⟨0, 0, 0⟩ ⟨1, 0, 0⟩ = 1 := by
    simp only [Distance2BetweenPointDbl]
    rw [hx, hxx, h0, h00, h10]
  have hDleaf : Distance2BetweenPointDbl ⟨0, 0, 0⟩ ⟨1, 1 / 2 ^ 30, 0⟩ = 1 := by
    simp only [Distance2BetweenPointDbl]
    rw [hx, hxx, hy, hyy, hs]
  have hmax : (1 : ℚ) < DBL_MAX := by norm_num [DBL_MAX]
  refine ⟨?_, ?_, ?_, ?_, by norm_num⟩
  · have hleaf : SearchKdTreeNodeDbl ⟨0, 0, 0⟩
        (some (KdTreeNode.mk ⟨1, 1 / 2 ^ 30, 0⟩ none 0 none none 0 0)) ([] ++ [Side.left])
        ⟨none, DBL_MAX⟩ (0 + 1) = ⟨some [Side.left], 1⟩ := by
      rw [SearchKdTreeNodeDbl_left_only _ _ _ _ _ _ _ _ _ _ (by norm_num [axisCoord]),
        SearchKdTreeNodeDbl_none, hDleaf, if_pos hmax]
      rfl
    rw [KdTree.NearestKdTreeNodeDbl, hroot,
      SearchKdTreeNodeDbl_left_only _ _ _ _ _ _ _ _ _ _ (by norm_num [axisCoord]), hleaf, hDroot,
      if_neg (lt_irrefl _)]
  · rw [KdTree.BruceNearestKdTreeNodeDbl, hroot, BruceNearestLoopDbl_cons, hDroot, if_pos hmax]
    simp only [pushChildren, List.nil_append, List.append_nil]
    rw [BruceNearestLoopDbl_cons, hDleaf, if_neg (lt_irrefl _)]
    simp only [pushChildren, List.nil_append, List.append_nil]
    rw [BruceNearestLoopDbl_nil]
  · simp only [KdTree.distance2To, KdTree.node, hroot]
    norm_num [getNode, KdTreeNode.child, KdTreeNode.point, Distance2BetweenPoint]
  · simp only [KdTree.distance2To, KdTree.node, hroot]
    norm_num [getNode, KdTreeNode.child, KdTreeNode.point, Distance2BetweenPoint]

/-- C6 (counterexample): seed the index at (0,0,0); the target (2^-600, 0, 0) and the radii
r = 2^-600 and r1 = 2^-599 are doubles with 0 ≤ r < r1, and the squared distance of the root
is exactly r * r. In double arithmetic r1 * r1 = 2^-1198 underflows to 0, the test
`distance2 < radius` fails, and `NearKdTreeNode(target, r1)` does not report the root. -/
theorem range_boundary_underflow :
    (roundDouble (1 / 2 ^ 600) = 1 / 2 ^ 600 ∧ roundDouble (1 / 2 ^ 599) = 1 / 2 ^ 599) ∧
      ((0 : ℚ) ≤ 1 / 2 ^ 600 ∧ (1 : ℚ) / 2 ^ 600 < 1 / 2 ^ 599) ∧
      (KdTree.build (some ⟨0, 0, 0⟩) []).node [] = some (KdTreeNode.ofPoint ⟨0, 0, 0⟩) ∧
      Distance2BetweenPoint ⟨1 / 2 ^ 600, 0, 0⟩ (KdTreeNode.ofPoint ⟨0, 0, 0⟩).point =
        1 / 2 ^ 600 * (1 / 2 ^ 600) ∧
      dmul (1 / 2 ^ 599) (1 / 2 ^ 599) = 0 ∧
      [] ∉ (KdTree.build (some ⟨0, 0, 0⟩) []).NearKdTreeNodeDbl ⟨1 / 2 ^ 600, 0, 0⟩
        (1 / 2 ^ 599) := by
  have da : roundDouble (1 / 2 ^ 600) = 1 / 2 ^ 600 := by
    apply roundDouble_eq_near (-600) (2 ^ 52) <;> norm_num
  have db : roundDouble (1 / 2 ^ 599) = 1 / 2 ^ 599 := by
    apply roundDouble_eq_near (-599) (2 ^ 52) <;> norm_num
  have hr : dmul (1 / 2 ^ 599) (1 / 2 ^ 599) = 0 := by
    rw [dmul_def]
    apply roundDouble_underflow <;> norm_num
  have hx : dsub (1 / 2 ^ 600) 0 = 1 / 2 ^ 600 := dsub_zero_right da
  have hxx : dmul (1 / 2 ^ 600) (1 / 2 ^ 600) = 0 := by
    rw [dmul_def]
    apply roundDouble_underflow <;> norm_num
  have h0 : dsub 0 0 = 0 := dsub_self 0
  have h00 : dmul 0 0 = 0 := dmul_of_eq (by norm_num) roundDouble_zero
  have hs : dadd 0 0 = 0 := dadd_of_eq (by norm_num) roundDouble_zero
  refine ⟨⟨da, db⟩, ⟨by norm_num, by norm_num⟩, rfl, ?_, hr, ?_⟩
  · norm_num [Distance2BetweenPoint, KdTreeNode.ofPoint, KdTreeNode.point]
  · simp only [KdTree.NearKdTreeNodeDbl, KdTree.build, KdTree.construct, KdTree.ofPoint,
      KdTreeNode.ofPoint, List.foldl, SearchKdTreeNodeNearDbl, Distance2BetweenPointDbl,
      hr, hx, hxx, h0, h00, hs]
    norm_num

/-- The boundary in ordinary magnitudes: seed the index at (0,0,0) and let s = 1 + 2^-50;
the target (3s, 4s, 0) and the radius r = 5s are doubles and the squared distance of the
root is exactly r * r. The computed squared distance is the sum of 9 + 9 * 2^-49 and
16 + 8 * 2^-48, a tie that rounds to 25 + 12 * 2^-48, while the computed r * r is
25 + 13 * 2^-48: the root, at distance exactly r, is reported by `NearKdTreeNode(target, r)`. -/
theorem range_boundary_rounding_includes :
    (roundDouble (3 + 3 / 2 ^ 50) = 3 + 3 / 2 ^ 50 ∧ roundDouble (4 + 4 / 2 ^ 50) = 4 + 4 / 2 ^ 50 ∧
      roundDouble (5 + 5 / 2 ^ 50) = 5 + 5 / 2 ^ 50) ∧
      Distance2BetweenPoint ⟨3 + 3 / 2 ^ 50, 4 + 4 / 2 ^ 50, 0⟩ (KdTreeNode.ofPoint ⟨0, 0, 0⟩).point =
        (5 + 5 / 2 ^ 50) * (5 + 5 / 2 ^ 50) ∧
      Distance2BetweenPointDbl ⟨3 + 3 / 2 ^ 50, 4 + 4 / 2 ^ 50, 0⟩ ⟨0, 0, 0⟩ = 25 + 12 / 2 ^ 48 ∧
      dmul (5 + 5 / 2 ^ 50) (5 + 5 / 2 ^ 50) = 25 + 13 / 2 ^ 48 ∧
      [] ∈ (KdTree.build (some ⟨0, 0, 0⟩) []).NearKdTreeNodeDbl
        ⟨3 + 3 / 2 ^ 50, 4 + 4 / 2 ^ 50, 0⟩ (5 + 5 / 2 ^ 50) := by
  have d3 : roundDouble (3 + 3 / 2 ^ 50) = 3 + 3 / 2 ^ 50 := by
    apply roundDouble_eq_near 1 (3 * 2 ^ 51 + 6) <;> norm_num
  have d4 : roundDouble (4 + 4 / 2 ^ 50) = 4 + 4 / 2 ^ 50 := by
    apply roundDouble_eq_near 2 (2 ^ 52 + 4) <;> norm_num
  have d5 : roundDouble (5 + 5 / 2 ^ 50) = 5 + 5 / 2 ^ 50 := by
    apply roundDouble_eq_near 2 (5 * 2 ^ 50 + 5) <;> norm_num
  have hxx : dmul (3 + 3 / 2 ^ 50) (3 + 3 / 2 ^ 50) = 9 + 9 / 2 ^ 49 := by
    rw [dmul_def]
    apply roundDouble_eq_near 3 (9 * 2 ^ 49 + 9) <;> norm_num
  have hyy : dmul (4 + 4 / 2 ^ 50) (4 + 4 / 2 ^ 50) = 16 + 8 / 2 ^ 48 := by
    rw [dmul_def]
    apply roundDouble_eq_near 4 (16 * 2 ^ 48 + 8) <;> norm_num
  have hs : dadd (9 + 9 / 2 ^ 49) (16 + 8 / 2 ^ 48) = 25 + 12 / 2 ^ 48 := by
    rw [dadd_def]
    have h := roundDouble_tie_even (q := 9 + 9 / 2 ^ 49 + (16 + 8 / 2 ^ 48)) 4 (25 * 2 ^ 48 + 12)
      (by norm_num) (by norm_num) (by norm_num) (by norm_num) (by norm_num) (by norm_num)
    rw [h]
    norm_num
  have hr : dmul (5 + 5 / 2 ^ 50) (5 + 5 / 2 ^ 50) = 25 + 13 / 2 ^ 48 := by
    rw [dmul_def]
    apply roundDouble_eq_near 4 (25 * 2 ^ 48 + 13) <;> norm_num
  have hD : Distance2BetweenPointDbl ⟨3 + 3 / 2 ^ 50, 4 + 4 / 2 ^ 50, 0⟩ ⟨0, 0, 0⟩ =
      25 + 12 / 2 ^ 48 := by
    simp only [Distance2BetweenPointDbl]
    rw [dsub_zero_right d3, dsub_zero_right d4, hxx, hyy, hs]
  refine ⟨⟨d3, d4, d5⟩, ?_, hD, hr, ?_⟩
  · norm_num [Distance2BetweenPoint, KdTreeNode.ofPoint, KdTreeNode.point]
  · rw [NearKdTreeNodeDbl_mem _ (KdInvariant_build _ _)]
    refine ⟨KdTreeNode.ofPoint ⟨0, 0, 0⟩, rfl, ?_⟩
    show Distance2BetweenPointDbl ⟨3 + 3 / 2 ^ 50, 4 + 4 / 2 ^ 50, 0⟩ ⟨0, 0, 0⟩ < _
    rw [hD, hr]
    norm_num

end KdTreeModel
